import Mathlib

/-!
# gonec: values of the core package

A shallow embedding of `src/core/coretime.go` (`VMTime`, `VMTimeDuration`), of
`src/core/corestring.go` (`VMString`: its operators, its conversions and the JSON loaders
`VMValuerFromJSON`, `VMSliceFromJson`, `VMStringMapFromJson`), of `DecryptAES128` of
`src/core/corecrypt.go` and of the operator tables of `src/bincode/binstmt.go`.

Conventions of the embedding

* A Go `string` that the code immediately converts with `[]rune(..)` is a Lean `String`
  (valid UTF-8 text); a Go `[]rune` is a `List Char`.  Any other Go string or byte slice is
  the list of its bytes (`List Nat`), written `utf8 "…"` for a constant.
* A function of the Go standard library is either a parameter or a definition whose comment
  starts `Modelled from the Go standard library` and quotes the documentation it follows.
* A Go run-time panic (index or slice bound out of range) is an `Except.error`; so is the
  exhaustion of the fuel that bounds a loop of the model.
* `time.Time` belongs to the Go standard library.  A `VMTime` carries the results of the
  library accessors the code and the library's `MarshalJSON` read (`Date`, `Clock`,
  `Nanosecond`, `Weekday`, `ISOWeek`, `Zone`);
  `VMTime.wf` records the ranges the library documents for them.  It also carries its instant
  as an unbounded integer: the limits of the library's time range and the monotonic clock
  reading are not modelled.
* Machine integers are `Nat`/`Int`; a `uint64` is reduced modulo `2 ^ 64` where the code can wrap.
* A Go result `(value, error)` is a pair of the value and an `Option GoError`; the nil
  interface value is the constructor `VMValuer.nil`.  A call `panic(v)` of the code is an
  `Except.error (Err.panic _)`.
* A function of a third-party library is a definition whose comment starts
  `Modelled from the library` and names the library.
* `encoding/json` is modelled by the state machine of its scanner (`Scanner.next`,
  `checkValid`); the loaders, which call each other through the elements of an array or
  object, take a bound on the depth of the calls, and are shown not to depend on it once it
  exceeds the length of the text.
-/

namespace Gonec

/-- Failures of the embedded code. `indexOutOfRange` and `sliceBounds` are Go run-time panics,
`bufferOverrun` is a write before the start of a byte buffer (also a Go panic), `params` is
the error of a function value called with the wrong number of arguments, `negativeRepeat` is
the panic of `strings.Repeat` on a negative count, `panic` is a call `panic(v)` of the code
with an error or a string `v`, given by its message, and `fuel` is the exhaustion of a loop
bound of the model. -/
inductive Err
  | indexOutOfRange
  | sliceBounds
  | bufferOverrun
  | params
  | negativeRepeat
  | panic (value : String)
  | fuel
  deriving DecidableEq, Repr

deriving instance DecidableEq for Except

/-- The `time.Time` wrapped by a `VMTime`: its accessor results and its instant. -/
structure VMTime where
  /-- Result `year` of `Date()`. -/
  year : Int
  /-- Result `month` of `Date()`, January = 1. -/
  month : Nat
  /-- Result `day` of `Date()`. -/
  day : Nat
  /-- Results of `Clock()`. -/
  hour : Nat
  minute : Nat
  second : Nat
  /-- Result of `Nanosecond()`. -/
  nanosecond : Nat
  /-- Result of `Weekday()`, Sunday = 0 … Saturday = 6. -/
  weekday : Nat
  /-- Results of `ISOWeek()`. -/
  isoYear : Int
  isoWeek : Nat
  /-- Result `offset` of `Zone()`: the seconds east of UTC. -/
  zoneOffset : Int
  /-- The instant, in nanoseconds since the Unix epoch: what `Add`, `Sub`, `Before`, `After`
  and `Equal` read. -/
  instant : Int
  deriving DecidableEq, Repr

/-- The ranges the standard library documents for the accessor results. -/
def VMTime.wf (t : VMTime) : Prop :=
  1 ≤ t.month ∧ t.month ≤ 12 ∧ 1 ≤ t.day ∧ t.day ≤ 31 ∧ t.hour ≤ 23 ∧ t.minute ≤ 59 ∧
  t.second ≤ 59 ∧ t.nanosecond ≤ 999999999 ∧ t.weekday ≤ 6 ∧ 1 ≤ t.isoWeek ∧ t.isoWeek ≤ 53

instance (t : VMTime) : Decidable t.wf := by unfold VMTime.wf; infer_instance

/-- The type `VMTimeDuration`: a signed count of nanoseconds (an `int64` in the source). -/
structure VMTimeDuration where
  ns : Int
  deriving DecidableEq, Repr

/-- The `int64` range. -/
def VMTimeDuration.inRange (d : VMTimeDuration) : Prop := -2 ^ 63 ≤ d.ns ∧ d.ns < 2 ^ 63

instance (d : VMTimeDuration) : Decidable d.inRange := by
  unfold VMTimeDuration.inRange; infer_instance

/-- The type `VMString`: a Go string, that is, its bytes. -/
abbrev VMString := List Nat

/-- The type `VMDecimal`: a `decimal.Decimal` of the library `github.com/shopspring/decimal`,
the number `value * 10 ^ exp` (the library keeps `exp` in an `int32`). -/
structure VMDecimal where
  value : Int
  exp : Int
  deriving DecidableEq, Repr

/-- The values of the interface type `VMValuer` that the embedded code reads and produces:
the nil interface (`nil`) and the values of the variants. A `VMStringMap` is the list of its
entries in the order the model inserted them. -/
inductive VMValuer
  | nil
  | VMNil
  | VMInt (v : Int)
  | VMDecimal (d : VMDecimal)
  | VMBool (b : Bool)
  | VMString (s : VMString)
  | VMTime (t : VMTime)
  | VMTimeDuration (d : VMTimeDuration)
  | VMSlice (l : List VMValuer)
  | VMStringMap (m : List (VMString × VMValuer))
  deriving Repr

mutual
/-- Equality test of two values. -/
def VMValuer.beq : VMValuer → VMValuer → Bool
  | .nil, .nil => true
  | .VMNil, .VMNil => true
  | .VMInt a, .VMInt b => decide (a = b)
  | .VMDecimal a, .VMDecimal b => decide (a = b)
  | .VMBool a, .VMBool b => decide (a = b)
  | .VMString a, .VMString b => decide (a = b)
  | .VMTime a, .VMTime b => decide (a = b)
  | .VMTimeDuration a, .VMTimeDuration b => decide (a = b)
  | .VMSlice a, .VMSlice b => VMValuer.beqList a b
  | .VMStringMap a, .VMStringMap b => VMValuer.beqMap a b
  | _, _ => false
/-- Equality test of two sequences of values. -/
def VMValuer.beqList : List VMValuer → List VMValuer → Bool
  | [], [] => true
  | a :: as, b :: bs => VMValuer.beq a b && VMValuer.beqList as bs
  | _, _ => false
/-- Equality test of two lists of entries. -/
def VMValuer.beqMap : List (List Nat × VMValuer) → List (List Nat × VMValuer) → Bool
  | [], [] => true
  | (k, a) :: as, (l, b) :: bs => decide (k = l) && VMValuer.beq a b && VMValuer.beqMap as bs
  | _, _ => false
end

mutual
theorem VMValuer.beq_eq : ∀ a b : VMValuer, VMValuer.beq a b = true ↔ a = b
  | .VMSlice a, .VMSlice b => by
    have := VMValuer.beqList_eq a b
    simp [VMValuer.beq, this]
  | .VMStringMap a, .VMStringMap b => by
    have := VMValuer.beqMap_eq a b
    simp [VMValuer.beq, this]
  | .nil, b => by cases b <;> simp [VMValuer.beq]
  | .VMNil, b => by cases b <;> simp [VMValuer.beq]
  | .VMInt _, b => by cases b <;> simp [VMValuer.beq]
  | .VMDecimal _, b => by cases b <;> simp [VMValuer.beq]
  | .VMBool _, b => by cases b <;> simp [VMValuer.beq]
  | .VMString _, b => by cases b <;> simp [VMValuer.beq]
  | .VMTime _, b => by cases b <;> simp [VMValuer.beq]
  | .VMTimeDuration _, b => by cases b <;> simp [VMValuer.beq]
  | .VMSlice _, .nil => by simp [VMValuer.beq]
  | .VMSlice _, .VMNil => by simp [VMValuer.beq]
  | .VMSlice _, .VMInt _ => by simp [VMValuer.beq]
  | .VMSlice _, .VMDecimal _ => by simp [VMValuer.beq]
  | .VMSlice _, .VMBool _ => by simp [VMValuer.beq]
  | .VMSlice _, .VMString _ => by simp [VMValuer.beq]
  | .VMSlice _, .VMTime _ => by simp [VMValuer.beq]
  | .VMSlice _, .VMTimeDuration _ => by simp [VMValuer.beq]
  | .VMSlice _, .VMStringMap _ => by simp [VMValuer.beq]
  | .VMStringMap _, .nil => by simp [VMValuer.beq]
  | .VMStringMap _, .VMNil => by simp [VMValuer.beq]
  | .VMStringMap _, .VMInt _ => by simp [VMValuer.beq]
  | .VMStringMap _, .VMDecimal _ => by simp [VMValuer.beq]
  | .VMStringMap _, .VMBool _ => by simp [VMValuer.beq]
  | .VMStringMap _, .VMString _ => by simp [VMValuer.beq]
  | .VMStringMap _, .VMTime _ => by simp [VMValuer.beq]
  | .VMStringMap _, .VMTimeDuration _ => by simp [VMValuer.beq]
  | .VMStringMap _, .VMSlice _ => by simp [VMValuer.beq]
theorem VMValuer.beqList_eq : ∀ a b : List VMValuer, VMValuer.beqList a b = true ↔ a = b
  | [], [] => by simp [VMValuer.beqList]
  | [], _ :: _ => by simp [VMValuer.beqList]
  | _ :: _, [] => by simp [VMValuer.beqList]
  | a :: as, b :: bs => by
    have h1 := VMValuer.beq_eq a b
    have h2 := VMValuer.beqList_eq as bs
    simp [VMValuer.beqList, h1, h2]
theorem VMValuer.beqMap_eq :
    ∀ a b : List (List Nat × VMValuer), VMValuer.beqMap a b = true ↔ a = b
  | [], [] => by simp [VMValuer.beqMap]
  | [], _ :: _ => by simp [VMValuer.beqMap]
  | _ :: _, [] => by simp [VMValuer.beqMap]
  | (k, a) :: as, (l, b) :: bs => by
    have h1 := VMValuer.beq_eq a b
    have h2 := VMValuer.beqMap_eq as bs
    simp [VMValuer.beqMap, h1, h2, and_assoc]
end

instance : DecidableEq VMValuer := fun a b => decidable_of_iff _ (VMValuer.beq_eq a b)

/-- A `VMSlice` is a growable sequence of values. -/
abbrev VMSlice := List VMValuer

/-- The method `(*VMSlice).Append`. -/
def VMSlice.Append (rets : VMSlice) (v : VMValuer) : VMSlice := rets ++ [v]

/-- The function `strconv.Itoa` (and `strconv.FormatInt(_, 10)`): decimal text with a leading
minus sign for a negative number. -/
def Itoa (n : Int) : String :=
  match n with
  | Int.ofNat m => Nat.repr m
  | Int.negSucc m => "-" ++ Nat.repr (m + 1)

/-- Method `Год`: appends the year. -/
def VMTime.«Год» (t : VMTime) (_args : VMSlice) (rets : VMSlice) : VMSlice × Option Err :=
  (rets.Append (VMValuer.VMInt t.year), none)

/-- Method `Месяц`: appends the month number. -/
def VMTime.«Месяц» (t : VMTime) (_args : VMSlice) (rets : VMSlice) : VMSlice × Option Err :=
  (rets.Append (VMValuer.VMInt t.month), none)

/-- Method `День`: appends the day of the month. -/
def VMTime.«День» (t : VMTime) (_args : VMSlice) (rets : VMSlice) : VMSlice × Option Err :=
  (rets.Append (VMValuer.VMInt t.day), none)

/-- Method `Weekday`: 0 = Sunday, 1 = Monday, … -/
def VMTime.Weekday (t : VMTime) : Int := t.weekday

/-- Method `Неделя`: appends the ISO week and then the ISO year. -/
def VMTime.«Неделя» (t : VMTime) (_args : VMSlice) (rets : VMSlice) : VMSlice × Option Err :=
  let yy := t.isoYear
  let ww := t.isoWeek
  let rets := rets.Append (VMValuer.VMInt ww)
  let rets := rets.Append (VMValuer.VMInt yy)
  (rets, none)

/-- Method `ДеньНедели`: appends 7 for a Sunday and the library weekday otherwise. -/
def VMTime.«ДеньНедели» (t : VMTime) (_args : VMSlice) (rets : VMSlice) :
    VMSlice × Option Err :=
  let wd : Int := t.weekday
  if wd = 0 then
    (rets.Append (VMValuer.VMInt 7), none)
  else
    (rets.Append (VMValuer.VMInt wd), none)

/-- Method `Квартал`. -/
def VMTime.«Квартал» (t : VMTime) : Int := (t.month : Int) / 4 + 1

/-- Method `Миллисекунда`. -/
def VMTime.«Миллисекунда» (t : VMTime) : Int := (t.nanosecond : Int) / 1000000

/-- The Integer a call `t.m()` written inside `Формат` stands for: the value the method `m`
yields on an empty return slice. -/
def callInt (m : VMSlice → VMSlice → VMSlice × Option Err) : Int :=
  match (m [] []).1 with
  | VMValuer.VMInt v :: _ => v
  | _ => 0

/-- Table `days` of `Формат`. -/
def days : List String :=
  ["", "понедельник", "вторник", "среда", "четверг", "пятница", "суббота", "воскресенье"]

/-- Table `months1` of `Формат` (nominative). -/
def months1 : List String :=
  ["", "январь", "февраль", "март", "апрель", "май", "июнь", "июль", "август", "сентябрь",
   "октябрь", "ноябрь", "декабрь"]

/-- Table `months2` of `Формат` (genitive). -/
def months2 : List String :=
  ["", "января", "февраля", "марта", "апреля", "мая", "июня", "июля", "августа", "сентября",
   "октября", "ноября", "декабря"]

/-- Table `dayssm` of `Формат`. -/
def dayssm : List String := ["пн", "вт", "ср", "чт", "пт", "сб", "вс"]

/-- Indexing `tbl[i]` of a fixed array by a run-time integer; out of range is a panic. -/
def index (tbl : List String) (i : Int) : Except Err (List Char) :=
  if i < 0 then Except.error Err.indexOutOfRange
  else
    match tbl.get? i.toNat with
    | some s => Except.ok s.toList
    | none => Except.error Err.indexOutOfRange

/-- The slice expression `r[:3]`; fewer than three runes is a panic. -/
def first3 (r : List Char) : Except Err (List Char) :=
  if r.length < 3 then Except.error Err.sliceBounds else Except.ok (r.take 3)

/-- The idiom `sm := strconv.Itoa(v); if len(sm) < 2 { sm = "0" + sm }`. -/
def pad2 (v : Int) : List Char :=
  let sm := Itoa v
  if sm.length < 2 then ("0" ++ sm).toList else sm.toList

/-- The idiom of the `ссс` token: `strings.Repeat("0", 3-len(sm)) + sm` when `len(sm) < 3`. -/
def pad3 (v : Int) : List Char :=
  let sm := Itoa v
  if sm.length < 3 then List.replicate (3 - sm.length) '0' ++ sm.toList else sm.toList

/-- One iteration of the scanning loop of `Формат` at the suffix `src[i:]` (non-empty):
the runes appended to `res`, the increment of `i`, and the new value of `wasday`. -/
def formatStep (t : VMTime) (wasday : Bool) (src : List Char) :
    Except Err (List Char × Nat × Bool) :=
  let s4 := src.take 4
  if 4 ≤ src.length ∧ (s4 = ['д', 'д', 'д', 'д'] ∨ s4 = ['d', 'd', 'd', 'd']) then
    (index days (callInt t.«ДеньНедели»)).map fun r => (r, 4, wasday)
  else if 4 ≤ src.length ∧ (s4 = ['М', 'М', 'М', 'М'] ∨ s4 = ['M', 'M', 'M', 'M']) then
    if wasday then (index months2 (callInt t.«Месяц»)).map fun r => (r, 4, wasday)
    else (index months1 (callInt t.«Месяц»)).map fun r => (r, 4, wasday)
  else if 4 ≤ src.length ∧ (s4 = ['г', 'г', 'г', 'г'] ∨ s4 = ['y', 'y', 'y', 'y']) then
    Except.ok ((Itoa (callInt t.«Год»)).toList, 4, wasday)
  else
  let s3 := src.take 3
  if 3 ≤ src.length ∧ (s3 = ['д', 'д', 'д'] ∨ s3 = ['d', 'd', 'd']) then
    (index dayssm (callInt t.«ДеньНедели»)).map fun r => (r, 3, wasday)
  else if 3 ≤ src.length ∧ (s3 = ['М', 'М', 'М'] ∨ s3 = ['M', 'M', 'M']) then
    if wasday then
      ((index months2 (callInt t.«Месяц»)).bind first3).map fun r => (r, 3, wasday)
    else
      ((index months1 (callInt t.«Месяц»)).bind first3).map fun r => (r, 3, wasday)
  else if 3 ≤ src.length ∧ (s3 = ['с', 'с', 'с'] ∨ s3 = ['s', 's', 's']) then
    Except.ok (pad3 t.«Миллисекунда», 3, wasday)
  else
  let s2 := src.take 2
  if 2 ≤ src.length ∧ (s2 = ['д', 'д'] ∨ s2 = ['d', 'd']) then
    Except.ok (pad2 t.day, 2, true)
  else if 2 ≤ src.length ∧ (s2 = ['М', 'М'] ∨ s2 = ['M', 'M']) then
    Except.ok (pad2 t.month, 2, wasday)
  else if 2 ≤ src.length ∧ (s2 = ['г', 'г'] ∨ s2 = ['y', 'y']) then
    Except.ok (pad2 (Int.tmod t.year 100), 2, wasday)
  else if 2 ≤ src.length ∧ (s2 = ['ч', 'ч'] ∨ s2 = ['h', 'h']) then
    Except.ok (pad2 t.hour, 2, wasday)
  else if 2 ≤ src.length ∧ (s2 = ['м', 'м'] ∨ s2 = ['m', 'm']) then
    Except.ok (pad2 t.minute, 2, wasday)
  else if 2 ≤ src.length ∧ (s2 = ['с', 'с'] ∨ s2 = ['s', 's']) then
    Except.ok (pad2 t.second, 2, wasday)
  else
  match src with
  | [] => Except.error Err.indexOutOfRange
  | c :: _ =>
    if c = 'д' ∨ c = 'd' then Except.ok ((Itoa t.day).toList, 1, true)
    else if c = 'М' ∨ c = 'M' then Except.ok ((Itoa t.month).toList, 1, wasday)
    else if c = 'г' ∨ c = 'y' then Except.ok ((Itoa (Int.tmod t.year 100)).toList, 1, wasday)
    else if c = 'ч' ∨ c = 'h' then Except.ok ((Itoa t.hour).toList, 1, wasday)
    else if c = 'м' ∨ c = 'm' then Except.ok ((Itoa t.minute).toList, 1, wasday)
    else if c = 'с' ∨ c = 's' then Except.ok ((Itoa t.second).toList, 1, wasday)
    else if c = 'К' ∨ c = 'Q' then Except.ok ((Itoa t.«Квартал»).toList, 1, wasday)
    else Except.ok ([c], 1, wasday)

/-- The loop `for i < len(src)` of `Формат`, on the suffix `src[i:]`, with the loop state
`wasday` and `res`; the result is the state `(res, wasday)` at the exit of the loop. The fuel
bounds the number of iterations. -/
def formatLoop (t : VMTime) : Nat → List Char → Bool → List Char →
    Except Err (List Char × Bool)
  | _, [], wasday, res => Except.ok (res, wasday)
  | 0, _ :: _, _, _ => Except.error Err.fuel
  | fuel + 1, c :: cs, wasday, res =>
    match formatStep t wasday (c :: cs) with
    | Except.error e => Except.error e
    | Except.ok (out, k, wasday') => formatLoop t fuel ((c :: cs).drop k) wasday' (res ++ out)

/-- Method `Формат`: every iteration consumes at least one rune, so `len(src)` iterations
are enough. -/
def VMTime.«Формат» (t : VMTime) (fmtstr : String) : Except Err String :=
  let src := fmtstr.toList
  (formatLoop t src.length src false []).map fun s => String.mk s.1

/-- A function value of the VM: it reads `args` and appends its results to `rets`. -/
abbrev VMFunc := VMSlice → VMSlice → VMSlice × Option Err

/-- Modelled from the spec: `VMFuncMustParams` is declared outside the sources; the spec says
of the function it returns that it "validates argument count and appends its result(s) to a
caller-provided return slice". -/
def VMFuncMustParams (n : Nat) (f : VMFunc) : VMFunc :=
  fun args rets => if args.length = n then f args rets else (rets, some Err.params)

/-- Method `MethodMember`. The interner lookup `names.UniqueNames.GetLowerCase` lives in another
package and is a parameter. -/
def VMTime.MethodMember (GetLowerCase : Int → String) (t : VMTime) (name : Int) :
    Option VMFunc × Bool :=
  let s := GetLowerCase name
  if s = "год" then (some (VMFuncMustParams 0 t.«Год»), true)
  else if s = "месяц" then (some (VMFuncMustParams 0 t.«Месяц»), true)
  else if s = "день" then (some (VMFuncMustParams 0 t.«День»), true)
  else if s = "неделя" then (some (VMFuncMustParams 0 t.«Неделя»), true)
  else if s = "деньнедели" then (some (VMFuncMustParams 0 t.«ДеньНедели»), true)
  else (none, false)

/-! ### Reference notions the statements are written with -/

/-- The two decimal digits of a number below 100, the leading one possibly zero. -/
def twoDigits (n : Nat) : String := String.mk [Nat.digitChar (n / 10), Nat.digitChar (n % 10)]

/-- The three decimal digits of a number below 1000, leading zeros included. -/
def threeDigits (n : Nat) : String :=
  String.mk [Nat.digitChar (n / 100), Nat.digitChar (n / 10 % 10), Nat.digitChar (n % 10)]

/-- Russian month names, genitive case. -/
def monthGenitive : Nat → String
  | 1 => "января" | 2 => "февраля" | 3 => "марта" | 4 => "апреля" | 5 => "мая" | 6 => "июня"
  | 7 => "июля" | 8 => "августа" | 9 => "сентября" | 10 => "октября" | 11 => "ноября"
  | 12 => "декабря" | _ => ""

/-- Russian month names, nominative case. -/
def monthNominative : Nat → String
  | 1 => "январь" | 2 => "февраль" | 3 => "март" | 4 => "апрель" | 5 => "май" | 6 => "июнь"
  | 7 => "июль" | 8 => "август" | 9 => "сентябрь" | 10 => "октябрь" | 11 => "ноябрь"
  | 12 => "декабрь" | _ => ""

/-- A Saturday: 9 March 2024, 15:04:05. -/
def t20240309 : VMTime :=
  { year := 2024, month := 3, day := 9, hour := 15, minute := 4, second := 5, nanosecond := 0,
    weekday := 6, isoYear := 2024, isoWeek := 10, zoneOffset := 0,
    instant := 1709996645000000000 }

/-- A Sunday: 10 March 2024. -/
def t20240310 : VMTime :=
  { t20240309 with day := 10, weekday := 0, instant := 1710083045000000000 }

/-- A Monday: 11 March 2024. -/
def t20240311 : VMTime :=
  { t20240309 with day := 11, weekday := 1, isoWeek := 11, instant := 1710169445000000000 }

/-- A Monday in July: 15 July 2024. -/
def t20240715 : VMTime :=
  { t20240311 with month := 7, day := 15, isoWeek := 29, instant := 1721055845000000000 }

/-- The interner of the examples: id 1 is `Квартал`, id 2 is `Год`, lower-cased. -/
def lowerNames : Int → String := fun id => if id = 1 then "квартал" else if id = 2 then "год" else ""

/-- The ISO-8601 number of a weekday given in the library numbering (Sunday = 0):
Monday = 1 … Sunday = 7. -/
def isoWeekday (w : Nat) : Int := ((w + 6) % 7 + 1 : Nat)

/-! ### The scanner of `Формат` seen as a tokenizer -/

/-- The branches of the loop body of `Формат`: the nineteen tokens, a rune copied verbatim,
and the end of the pattern. -/
inductive Tok
  | dddd | MMMM | yyyy | ddd | MMM | sss | dd | MM | yy | hh | mm | ss
  | d | M | y | h | m | s | Q
  | lit (c : Char)
  | eof
  deriving DecidableEq, Repr

/-- The branch the loop body takes at the suffix `src`: the tests of `formatStep`, in order. -/
def classify (src : List Char) : Tok :=
  let s4 := src.take 4
  if 4 ≤ src.length ∧ (s4 = ['д', 'д', 'д', 'д'] ∨ s4 = ['d', 'd', 'd', 'd']) then Tok.dddd
  else if 4 ≤ src.length ∧ (s4 = ['М', 'М', 'М', 'М'] ∨ s4 = ['M', 'M', 'M', 'M']) then Tok.MMMM
  else if 4 ≤ src.length ∧ (s4 = ['г', 'г', 'г', 'г'] ∨ s4 = ['y', 'y', 'y', 'y']) then Tok.yyyy
  else
  let s3 := src.take 3
  if 3 ≤ src.length ∧ (s3 = ['д', 'д', 'д'] ∨ s3 = ['d', 'd', 'd']) then Tok.ddd
  else if 3 ≤ src.length ∧ (s3 = ['М', 'М', 'М'] ∨ s3 = ['M', 'M', 'M']) then Tok.MMM
  else if 3 ≤ src.length ∧ (s3 = ['с', 'с', 'с'] ∨ s3 = ['s', 's', 's']) then Tok.sss
  else
  let s2 := src.take 2
  if 2 ≤ src.length ∧ (s2 = ['д', 'д'] ∨ s2 = ['d', 'd']) then Tok.dd
  else if 2 ≤ src.length ∧ (s2 = ['М', 'М'] ∨ s2 = ['M', 'M']) then Tok.MM
  else if 2 ≤ src.length ∧ (s2 = ['г', 'г'] ∨ s2 = ['y', 'y']) then Tok.yy
  else if 2 ≤ src.length ∧ (s2 = ['ч', 'ч'] ∨ s2 = ['h', 'h']) then Tok.hh
  else if 2 ≤ src.length ∧ (s2 = ['м', 'м'] ∨ s2 = ['m', 'm']) then Tok.mm
  else if 2 ≤ src.length ∧ (s2 = ['с', 'с'] ∨ s2 = ['s', 's']) then Tok.ss
  else
  match src with
  | [] => Tok.eof
  | c :: _ =>
    if c = 'д' ∨ c = 'd' then Tok.d
    else if c = 'М' ∨ c = 'M' then Tok.M
    else if c = 'г' ∨ c = 'y' then Tok.y
    else if c = 'ч' ∨ c = 'h' then Tok.h
    else if c = 'м' ∨ c = 'm' then Tok.m
    else if c = 'с' ∨ c = 's' then Tok.s
    else if c = 'К' ∨ c = 'Q' then Tok.Q
    else Tok.lit c

/-- The number of runes a branch consumes. -/
def Tok.len : Tok → Nat
  | Tok.dddd | Tok.MMMM | Tok.yyyy => 4
  | Tok.ddd | Tok.MMM | Tok.sss => 3
  | Tok.dd | Tok.MM | Tok.yy | Tok.hh | Tok.mm | Tok.ss => 2
  | Tok.eof => 0
  | _ => 1

/-- What a branch of the loop body does: the runes appended, the runes consumed, `wasday`. -/
def render (t : VMTime) (wasday : Bool) : Tok → Except Err (List Char × Nat × Bool)
  | Tok.dddd => (index days (callInt t.«ДеньНедели»)).map fun r => (r, 4, wasday)
  | Tok.MMMM =>
    if wasday then (index months2 (callInt t.«Месяц»)).map fun r => (r, 4, wasday)
    else (index months1 (callInt t.«Месяц»)).map fun r => (r, 4, wasday)
  | Tok.yyyy => Except.ok ((Itoa (callInt t.«Год»)).toList, 4, wasday)
  | Tok.ddd => (index dayssm (callInt t.«ДеньНедели»)).map fun r => (r, 3, wasday)
  | Tok.MMM =>
    if wasday then
      ((index months2 (callInt t.«Месяц»)).bind first3).map fun r => (r, 3, wasday)
    else
      ((index months1 (callInt t.«Месяц»)).bind first3).map fun r => (r, 3, wasday)
  | Tok.sss => Except.ok (pad3 t.«Миллисекунда», 3, wasday)
  | Tok.dd => Except.ok (pad2 t.day, 2, true)
  | Tok.MM => Except.ok (pad2 t.month, 2, wasday)
  | Tok.yy => Except.ok (pad2 (Int.tmod t.year 100), 2, wasday)
  | Tok.hh => Except.ok (pad2 t.hour, 2, wasday)
  | Tok.mm => Except.ok (pad2 t.minute, 2, wasday)
  | Tok.ss => Except.ok (pad2 t.second, 2, wasday)
  | Tok.d => Except.ok ((Itoa t.day).toList, 1, true)
  | Tok.M => Except.ok ((Itoa t.month).toList, 1, wasday)
  | Tok.y => Except.ok ((Itoa (Int.tmod t.year 100)).toList, 1, wasday)
  | Tok.h => Except.ok ((Itoa t.hour).toList, 1, wasday)
  | Tok.m => Except.ok ((Itoa t.minute).toList, 1, wasday)
  | Tok.s => Except.ok ((Itoa t.second).toList, 1, wasday)
  | Tok.Q => Except.ok ((Itoa t.«Квартал»).toList, 1, wasday)
  | Tok.lit c => Except.ok ([c], 1, wasday)
  | Tok.eof => Except.error Err.indexOutOfRange

/-- The letters the tokens are written with. -/
def tokenLetter (c : Char) : Bool :=
  c ∈ ['д', 'd', 'М', 'M', 'г', 'y', 'ч', 'h', 'м', 'm', 'с', 's', 'К', 'Q']

/-- The spellings `Формат` tests, in the order it tests them, each with its branch. -/
def tokenTable : List (List Char × Tok) :=
  [(['д', 'д', 'д', 'д'], Tok.dddd), (['d', 'd', 'd', 'd'], Tok.dddd),
   (['М', 'М', 'М', 'М'], Tok.MMMM), (['M', 'M', 'M', 'M'], Tok.MMMM),
   (['г', 'г', 'г', 'г'], Tok.yyyy), (['y', 'y', 'y', 'y'], Tok.yyyy),
   (['д', 'д', 'д'], Tok.ddd), (['d', 'd', 'd'], Tok.ddd),
   (['М', 'М', 'М'], Tok.MMM), (['M', 'M', 'M'], Tok.MMM),
   (['с', 'с', 'с'], Tok.sss), (['s', 's', 's'], Tok.sss),
   (['д', 'д'], Tok.dd), (['d', 'd'], Tok.dd),
   (['М', 'М'], Tok.MM), (['M', 'M'], Tok.MM),
   (['г', 'г'], Tok.yy), (['y', 'y'], Tok.yy),
   (['ч', 'ч'], Tok.hh), (['h', 'h'], Tok.hh),
   (['м', 'м'], Tok.mm), (['m', 'm'], Tok.mm),
   (['с', 'с'], Tok.ss), (['s', 's'], Tok.ss),
   (['д'], Tok.d), (['d'], Tok.d),
   (['М'], Tok.M), (['M'], Tok.M),
   (['г'], Tok.y), (['y'], Tok.y),
   (['ч'], Tok.h), (['h'], Tok.h),
   (['м'], Tok.m), (['m'], Tok.m),
   (['с'], Tok.s), (['s'], Tok.s),
   (['К'], Tok.Q), (['Q'], Tok.Q)]

/-- The first entry of a table whose spelling starts `src`. -/
def firstMatch (tbl : List (List Char × Tok)) (src : List Char) : Option (List Char × Tok) :=
  tbl.find? fun e => e.1.isPrefixOf src

/-- The branch taken when no spelling matches: the rune at `src[i]` is copied. -/
def fallback : List Char → Tok
  | [] => Tok.eof
  | c :: _ => Tok.lit c

/-- The spellings of the day-of-month tokens. -/
def isDayText (l : List Char) : Bool :=
  l == ['д'] || l == ['д', 'д'] || l == ['d'] || l == ['d', 'd']

/-- The spellings of the full month name token. -/
def isMonthText (l : List Char) : Bool :=
  l == ['М', 'М', 'М', 'М'] || l == ['M', 'M', 'M', 'M']

/-- The iterations of the loop of `Формат` on the suffix `src`: for each one the runes it
consumed and the runes it appended. -/
def formatTrace (t : VMTime) : Nat → List Char → Bool →
    Except Err (List (List Char × List Char))
  | _, [], _ => Except.ok []
  | 0, _ :: _, _ => Except.error Err.fuel
  | fuel + 1, c :: cs, wasday =>
    match formatStep t wasday (c :: cs) with
    | Except.error e => Except.error e
    | Except.ok (out, k, wasday') =>
      match formatTrace t fuel ((c :: cs).drop k) wasday' with
      | Except.error e => Except.error e
      | Except.ok tr => Except.ok (((c :: cs).take k, out) :: tr)

/-- The branches that set `wasday`: the day-of-month tokens. -/
def Tok.isDay : Tok → Bool
  | Tok.dd | Tok.d => true
  | _ => false

/-- The loop of `Формат` run on the suffix `src` with as many iterations as it has runes. -/
def formatRun (t : VMTime) (src : List Char) (wasday : Bool) (res : List Char) :
    Except Err (List Char × Bool) :=
  formatLoop t src.length src wasday res

/-! ### `VMTimeDuration` -/

def VMNanosecond : Nat := 1
def VMMicrosecond : Nat := 1000 * VMNanosecond
def VMMillisecond : Nat := 1000 * VMMicrosecond
def VMSecond : Nat := 1000 * VMMillisecond
def VMMinute : Nat := 60 * VMSecond
def VMHour : Nat := 60 * VMMinute
def VMDay : Nat := 24 * VMHour

/-- The UTF-8 encoding of a rune, as a list of bytes (numbers below 256). -/
def utf8Rune (c : Char) : List Nat :=
  let v := c.toNat
  if v < 0x80 then [v]
  else if v < 0x800 then [0xC0 + v / 0x40, 0x80 + v % 0x40]
  else if v < 0x10000 then [0xE0 + v / 0x1000, 0x80 + v / 0x40 % 0x40, 0x80 + v % 0x40]
  else [0xF0 + v / 0x40000, 0x80 + v / 0x1000 % 0x40, 0x80 + v / 0x40 % 0x40, 0x80 + v % 0x40]

/-- The bytes of a Go string constant: the UTF-8 encoding of its text. -/
def utf8 (s : String) : List Nat := (s.toList.map utf8Rune).flatten

/-- The statements `w--; buf[w] = b`; an index before the start of the buffer is a panic. -/
def putByte (buf : List Nat) (w : Nat) (b : Nat) : Except Err (List Nat × Nat) :=
  if w = 0 ∨ buf.length < w then Except.error Err.bufferOverrun
  else Except.ok (buf.set (w - 1) b, w - 1)

/-- The statements `w -= n; copy(buf[w:], s)` for a string constant `s` of `n` bytes: `copy`
writes as many bytes of `s` as `buf[w:]` holds; a negative `w` is a panic of `buf[w:]`. -/
def putString (buf : List Nat) (w : Nat) (n : Nat) (s : List Nat) :
    Except Err (List Nat × Nat) :=
  if w < n ∨ buf.length < w then Except.error Err.bufferOverrun
  else
    let w := w - n
    let k := min s.length (buf.length - w)
    Except.ok (buf.take w ++ s.take k ++ buf.drop (w + k), w)

/-- The loop of `fmtFrac` with `prec - i` iterations left; the state is `buf`, `w`, `v`,
`print`. -/
def fmtFracLoop : Nat → List Nat → Nat → Nat → Bool → Except Err (List Nat × Nat × Nat × Bool)
  | 0, buf, w, v, print => Except.ok (buf, w, v, print)
  | prec + 1, buf, w, v, print =>
    let digit := v % 10
    let print := print || digit != 0
    match (if print then putByte buf w (digit + 48) else Except.ok (buf, w)) with
    | Except.error e => Except.error e
    | Except.ok (buf, w) => fmtFracLoop prec buf w (v / 10) print

/-- The function `fmtFrac` on the slice `buf[:w]`: the new `w` and `v / 10 ^ prec`, with the
buffer it wrote to. -/
def fmtFrac (buf : List Nat) (w : Nat) (v : Nat) (prec : Nat) :
    Except Err (List Nat × Nat × Nat) :=
  match fmtFracLoop prec buf w v false with
  | Except.error e => Except.error e
  | Except.ok (buf, w, v, print) =>
    match (if print then putByte buf w 46 else Except.ok (buf, w)) with
    | Except.error e => Except.error e
    | Except.ok (buf, w) => Except.ok (buf, w, v)

/-- The loop `for v > 0` of `fmtInt`; the fuel bounds its iterations. -/
def fmtIntLoop : Nat → List Nat → Nat → Nat → Except Err (List Nat × Nat)
  | _, buf, w, 0 => Except.ok (buf, w)
  | 0, _, _, _ + 1 => Except.error Err.fuel
  | fuel + 1, buf, w, v + 1 =>
    match putByte buf w ((v + 1) % 10 + 48) with
    | Except.error e => Except.error e
    | Except.ok (buf, w) => fmtIntLoop fuel buf w ((v + 1) / 10)

/-- The function `fmtInt` on the slice `buf[:w]`: the new `w`, with the buffer it wrote to.
A `uint64` has at most 20 decimal digits. -/
def fmtInt (buf : List Nat) (w : Nat) (v : Nat) : Except Err (List Nat × Nat) :=
  if v = 0 then putByte buf w 48 else fmtIntLoop 20 buf w v

/-- The part of `String` for a duration of at least a second. -/
def stringLarge (buf : List Nat) (w : Nat) (u : Nat) : Except Err (List Nat × Nat) :=
  (putString buf w 2 (utf8 "с")).bind fun (buf, w) =>
  (fmtFrac buf w u 9).bind fun (buf, w, u) =>
  -- u is now integer seconds
  (fmtInt buf w (u % 60)).bind fun (buf, w) =>
  let u := u / 60
  -- u is now integer minutes
  if u > 0 then
    (putString buf w 2 (utf8 "м")).bind fun (buf, w) =>
    (fmtInt buf w (u % 60)).bind fun (buf, w) =>
    let u := u / 60
    -- u is now integer hours
    if u > 0 then
      (putString buf w 2 (utf8 "ч")).bind fun (buf, w) =>
      (fmtInt buf w (u % 24)).bind fun (buf, w) =>
      let u := u / 24
      if u > 0 then
        (putString buf w 2 (utf8 "д")).bind fun (buf, w) =>
        fmtInt buf w u
      else Except.ok (buf, w)
    else Except.ok (buf, w)
  else Except.ok (buf, w)

/-- The part of `String` for a duration below a second. -/
def stringSmall (buf : List Nat) (w : Nat) (u : Nat) : Except Err (List Nat × Nat) :=
  (putString buf w 2 (utf8 "с")).bind fun (buf, w) =>
  (if u < VMMicrosecond then
      -- print nanoseconds
      (putString buf w 2 (utf8 "н")).map fun s => (0, s)
    else if u < VMMillisecond then
      -- print microseconds
      (putString buf w 4 (utf8 "мк")).map fun s => (3, s)
    else
      -- print milliseconds
      (putString buf w 2 (utf8 "м")).map fun s => (6, s)).bind fun (prec, buf, w) =>
  (fmtFrac buf w u prec).bind fun (buf, w, u) =>
  fmtInt buf w u

/-- Method `String` of `VMTimeDuration`: the bytes of the text. -/
def VMTimeDuration.String (v : VMTimeDuration) : Except Err (List Nat) :=
  let u : Nat := (v.ns % 2 ^ 64).toNat
  if u = 0 then Except.ok (utf8 "0с")
  else
    let neg : Bool := decide (v.ns < 0)
    let u := if neg then (2 ^ 64 - u) % 2 ^ 64 else u
    let buf : List Nat := List.replicate 40 0
    let w := buf.length
    (if u < VMSecond then stringSmall buf w u else stringLarge buf w u).bind fun (buf, w) =>
    (if neg then putByte buf w 45 else Except.ok (buf, w)).bind fun (buf, w) =>
    Except.ok (buf.drop w)

/-- The decimal digits of `f` at the positions `prec - 1`, …, 0: `f` written with `prec`
digits, zero-padded on the left. -/
def paddedDigits (prec : Nat) (f : Nat) : List Char :=
  (List.range prec).reverse.map fun i => Nat.digitChar (f / 10 ^ i % 10)

/-- The fractional part of a duration text: nothing when `f` is zero, and otherwise a point
and `f` written with `prec` digits, trailing zeros omitted. -/
def fracText (prec : Nat) (f : Nat) : String :=
  if f = 0 then "" else "." ++ String.mk ((paddedDigits prec f).rdropWhile fun c => c == '0')

/-- The text of a duration of `d` nanoseconds, `d` at least a second: days, hours, minutes,
seconds with their fraction, each part present from its unit on. -/
def durationText (d : Nat) : String :=
  (if VMDay ≤ d then toString (d / VMDay) ++ "д" else "") ++
  (if VMHour ≤ d then toString (d / VMHour % 24) ++ "ч" else "") ++
  (if VMMinute ≤ d then toString (d / VMMinute % 60) ++ "м" else "") ++
  toString (d / VMSecond % 60) ++ fracText 9 (d % VMSecond) ++ "с"

/-- A write `r` into the slice `buf[:w]` succeeded: it put `bytes` just before position `w`,
moved `w` down by their number, and kept the length of the buffer and everything from the
old `w` on. -/
def Wrote (r : Except Err (List Nat × Nat)) (buf : List Nat) (w : Nat) (bytes : List Nat) :
    Prop :=
  ∃ buf', r = Except.ok (buf', w - bytes.length) ∧ buf'.length = buf.length ∧
    buf'.drop (w - bytes.length) = bytes ++ buf.drop w

/-- The bytes of the decimal numeral of `v`, as `fmtInt` writes them. -/
def intBytes (v : Nat) : List Nat :=
  if v = 0 then [48] else (Nat.digits 10 v).reverse.map fun d => d + 48

/-- The `prec` low decimal digits of `v`, least significant first. -/
def lowDigits : Nat → Nat → List Nat
  | 0, _ => []
  | prec + 1, v => v % 10 :: lowDigits prec (v / 10)

/-- The bytes `fmtFrac` writes: nothing when the `prec` low digits of `v` are all zero, and
otherwise a point and those digits without the trailing zeros. -/
def fracBytes (prec : Nat) (v : Nat) : List Nat :=
  if v % 10 ^ prec = 0 then []
  else 46 :: (((lowDigits prec v).dropWhile fun d => d == 0).reverse.map fun d => d + 48)

/-- The bytes the loop of `fmtFrac` writes, given the value of `print` it starts with. -/
def fracLoopBytes (prec : Nat) (v : Nat) (print : Bool) : List Nat :=
  ((if print then lowDigits prec v
    else (lowDigits prec v).dropWhile fun d => d == 0).reverse.map fun d => d + 48)

/-- A write `r` into the slice `buf[:w]` succeeded with the new position `w'`: it put
`bytes` between `w'` and `w` and kept the length of the buffer and everything from `w` on. -/
def Writes (r : Except Err (List Nat × Nat)) (buf : List Nat) (w : Nat) (bytes : List Nat) :
    Prop :=
  ∃ buf' w', r = Except.ok (buf', w') ∧ w' + bytes.length = w ∧ buf'.length = buf.length ∧
    buf'.drop w' = bytes ++ buf.drop w

/-- The text of a duration of `n` nanoseconds, `0 < n` below a second: the count in the
largest unit not above it, with the fraction that unit leaves. -/
def smallDurationText (n : Nat) : String :=
  if n < VMMicrosecond then toString n ++ "нс"
  else if n < VMMillisecond then
    toString (n / VMMicrosecond) ++ fracText 3 (n % VMMicrosecond) ++ "мкс"
  else toString (n / VMMillisecond) ++ fracText 6 (n % VMMillisecond) ++ "мс"

/-- The text of a positive duration of `n` nanoseconds. -/
def positiveText (n : Nat) : String :=
  if n < VMSecond then smallDurationText n else durationText n

/-! ### Serialization of `VMTimeDuration` -/

/-- A Go `error` value, by its message. -/
abbrev GoError := String

/-- Modelled from the Go standard library (package `time`): `Duration.String` "returns a string
representing the duration in the form 72h3m0.5s; leading zero units are omitted; durations less
than one second format use a smaller unit (milli-, micro-, or nanoseconds); the zero duration
formats as 0s". Here for a magnitude of `n > 0` nanoseconds. -/
def goPositiveText (n : Nat) : String :=
  if n < VMMicrosecond then toString n ++ "ns"
  else if n < VMMillisecond then
    toString (n / VMMicrosecond) ++ fracText 3 (n % VMMicrosecond) ++ "µs"
  else if n < VMSecond then
    toString (n / VMMillisecond) ++ fracText 6 (n % VMMillisecond) ++ "ms"
  else
    (if VMHour ≤ n then toString (n / VMHour) ++ "h" else "") ++
    (if VMMinute ≤ n then toString (n / VMMinute % 60) ++ "m" else "") ++
    toString (n / VMSecond % 60) ++ fracText 9 (n % VMSecond) ++ "s"

/-- Modelled from the Go standard library: `time.Duration.String`, with the sign. -/
def goDurationText (d : Int) : String :=
  if d = 0 then "0s"
  else (if d < 0 then "-" else "") ++ goPositiveText d.natAbs

/-- Method `MarshalText`: the text `time.Duration(x).String()`, and no error. -/
def VMTimeDuration.MarshalText (x : VMTimeDuration) : Except GoError (List Nat) :=
  Except.ok (utf8 (goDurationText x.ns))

/-- Method `MarshalJSON`: the text of `MarshalText` between double quotes. -/
def VMTimeDuration.MarshalJSON (x : VMTimeDuration) : Except GoError (List Nat) :=
  match x.MarshalText with
  | Except.error err => Except.error err
  | Except.ok b => Except.ok (utf8 "\"" ++ b ++ utf8 "\"")

/-- The eight little-endian bytes of a 64-bit word. -/
def littleEndian64 (u : Nat) : List Nat :=
  (List.range 8).map fun i => u / 256 ^ i % 256

/-- The 64-bit word of little-endian bytes. -/
def ofLittleEndian : List Nat → Nat
  | [] => 0
  | b :: bs => b % 256 + 256 * ofLittleEndian bs

/-- The conversion `int64(u)` of a 64-bit word: two's complement. -/
def toInt64 (u : Nat) : Int :=
  if u % 2 ^ 64 < 2 ^ 63 then ((u % 2 ^ 64 : Nat) : Int) else ((u % 2 ^ 64 : Nat) : Int) - 2 ^ 64

/-- Method `MarshalBinary`: `binary.Write(&buf, binary.LittleEndian, int64(x))` writes the
eight bytes of the two's complement word; the method returns them and no error. -/
def VMTimeDuration.MarshalBinary (x : VMTimeDuration) : List Nat × Option GoError :=
  (littleEndian64 (x.ns % 2 ^ 64).toNat, none)

/-- Method `UnmarshalBinary` on the receiver `x`: `binary.Read` of an `int64` needs eight
bytes and fails with `EOF` on none and `unexpected EOF` on fewer, leaving `x` as it was;
otherwise the first eight bytes are decoded into `x`. The new receiver and the error. -/
def VMTimeDuration.UnmarshalBinary (x : VMTimeDuration) (data : List Nat) :
    VMTimeDuration × Option GoError :=
  if data.length = 0 then (x, some "EOF")
  else if data.length < 8 then (x, some "unexpected EOF")
  else (⟨toInt64 (ofLittleEndian (data.take 8))⟩, none)

/-! ### Operators and conversions of `VMTime` -/

/-- Modelled from the spec: the type `VMOperation` and its constants are declared outside the
sources; the spec names "the set {ADD, SUB, MUL, QUO, REM, EQL, NEQ, GTR, GEQ, LSS, LEQ, OR,
LOR, AND, LAND, POW, SHL, SHR}". `other` is any tag outside the set. -/
inductive VMOperation
  | ADD | SUB | MUL | QUO | REM | EQL | NEQ | GTR | GEQ | LSS | LEQ
  | OR | LOR | AND | LAND | POW | SHL | SHR
  | other (tag : Int)
  deriving DecidableEq, Repr

/-- The `reflect.Type` values the conversions compare their target with (`ReflectVMString`,
…, declared with the types); `other` is any other target, with whether its kind is
`reflect.Struct`. -/
inductive ReflectType
  | ReflectVMString | ReflectVMInt | ReflectVMTime | ReflectVMBool | ReflectVMDecimal
  | ReflectVMSlice | ReflectVMStringMap
  | other (isStruct : Bool) (name : String)
  deriving DecidableEq, Repr

/-- What the conversions of `VMString` take from outside `corestring.go`. -/
structure StringEnv where
  /-- The call `time.Parse(layout, s)` of the standard library: the time, or `none` for an
  error. -/
  timeParse : String → List Nat → Option VMTime
  /-- The call `time.ParseInLocation(layout, s, time.Local)` of the standard library. -/
  timeParseInLocal : String → List Nat → Option VMTime
  /-- The Bool of the first result of `ParseVMBool(s)`, a function declared outside the
  sources. -/
  parseVMBool : List Nat → Bool
  /-- The decoding of a JSON string literal by `encoding/json`. -/
  unquote : List Nat → List Nat
  /-- The call `decimal.NewFromFloat(w)` of the library `github.com/shopspring/decimal`, for
  the `float64` nearest to a number literal. -/
  newFromFloat : List Nat → VMDecimal
  /-- The statements `rm := reflect.New(nt).Interface(); json.Unmarshal([]byte(x), rm)` for a
  struct type `nt` given by its name: the error, or the value `rm` when it is a `VMValuer`
  and `none` when it is not. -/
  unmarshalStruct : String → List Nat → Except GoError (Option VMValuer)

/-- The constant `time.RFC3339`. -/
def RFC3339 : String := "2006-01-02T15:04:05Z07:00"

/-- The constant `time.RFC1123`. -/
def RFC1123 : String := "Mon, 02 Jan 2006 15:04:05 MST"

/-- Method `Time` of `VMString`: the first layout that parses the text wins. -/
def VMString.Time (env : StringEnv) (x : VMString) : Except Err VMTime :=
  match env.timeParse RFC3339 x with
  | some t => Except.ok t
  | none =>
  match env.timeParseInLocal "2006-01-02T15:04:05" x with
  | some t => Except.ok t
  | none =>
  match env.timeParseInLocal "2006-01-02 15:04:05" x with
  | some t => Except.ok t
  | none =>
  match env.timeParseInLocal "02.01.2006 15:04:05" x with
  | some t => Except.ok t
  | none =>
  match env.timeParseInLocal "20060102150405" x with
  | some t => Except.ok t
  | none =>
  match env.timeParseInLocal "20060102" x with
  | some t => Except.ok t
  | none =>
  match env.timeParseInLocal "02.01.2006" x with
  | some t => Except.ok t
  | none =>
  match env.timeParseInLocal "2006-01-02" x with
  | some t => Except.ok t
  | none =>
  match env.timeParse RFC1123 x with
  | some t => Except.ok t
  | none => Except.error (Err.panic "Неверный формат даты и времени")

/-- What `VMTime.EvalBinOp` takes from outside `coretime.go`: the accessor results the
library derives from an instant (`civil`), and the methods `Duration()` and `Time()` of the
variants whose declarations are in other files, `none` for a variant that is no
`VMDurationer` (no `VMDateTimer`). -/
structure TimeEnv where
  civil : Int → VMTime
  otherDuration : VMValuer → Option VMTimeDuration
  otherTime : VMValuer → Option VMTime
  /-- What method `Time` of `VMString` takes from the standard library. -/
  strings : StringEnv

/-- Method `Duration` of `VMTimeDuration`. -/
def VMTimeDuration.Duration (v : VMTimeDuration) : VMTimeDuration := v

/-- Method `Time` of `VMTime`. -/
def VMTime.Time (t : VMTime) : VMTime := t

/-- The type switch `case VMDurationer` with the call `yy.Duration()`. -/
def TimeEnv.durationer (env : TimeEnv) : VMValuer → Option VMTimeDuration
  | VMValuer.VMTimeDuration d => some d.Duration
  | y => env.otherDuration y

/-- The type switch `case VMDateTimer` with the call `yy.Time()`: `none` for a value that is
no `VMDateTimer`. A `VMString` is one by its method `Time` of `corestring.go`, which panics on
a text that no layout parses. -/
def TimeEnv.dateTimer (env : TimeEnv) : VMValuer → Except Err (Option VMTime)
  | VMValuer.VMTime t => Except.ok (some t.Time)
  | VMValuer.VMString s =>
    match VMString.Time env.strings s with
    | Except.error e => Except.error e
    | Except.ok t => Except.ok (some t)
  | y => Except.ok (env.otherTime y)

/-- The conversion of an integer to `int64`: two's complement wrap-around. -/
def wrap64 (z : Int) : Int := toInt64 (z % 2 ^ 64).toNat

/-- Modelled from the Go standard library: `time.Time.Sub` returns the difference of the
instants, and the maximum (minimum) duration when the difference exceeds it. -/
def goTimeSub (a b : Int) : Int :=
  if a - b < -2 ^ 63 then -2 ^ 63 else if 2 ^ 63 - 1 < a - b then 2 ^ 63 - 1 else a - b

/-- Method `Вычесть`: `time.Time.Sub`. -/
def VMTime.«Вычесть» (t t2 : VMTime) : VMTimeDuration := ⟨goTimeSub t.instant t2.instant⟩

/-- Method `Добавить`: `time.Time.Add`. The instant moves by `d`; the accessor results of the
new time are those the library derives from the new instant. -/
def VMTime.«Добавить» (env : TimeEnv) (t : VMTime) (d : VMTimeDuration) : VMTime :=
  { env.civil (t.instant + d.ns) with instant := t.instant + d.ns }

/-- Method `Раньше`: `time.Time.Before`. -/
def VMTime.«Раньше» (t d : VMTime) : Bool := decide (t.instant < d.instant)

/-- Method `Позже`: `time.Time.After`. -/
def VMTime.«Позже» (t d : VMTime) : Bool := decide (t.instant > d.instant)

/-- Method `Равно`: `time.Time.Equal`, the same instant whatever the locations. -/
def VMTime.«Равно» (t d : VMTime) : Bool := decide (t.instant = d.instant)

/-- The error of an undefined operation. -/
def errOperation : GoError := "Операция между значениями невозможна"

/-- The error of an unknown operator tag. -/
def errUnknownOperation : GoError := "Неизвестная операция"

/-- The error of an unsupported conversion. -/
def errConversion : GoError := "Приведение к типу невозможно"

/-- Method `EvalBinOp` of `VMTime`: the value and the error it returns, or the panic of the
call `yy.Time()`. -/
def VMTime.EvalBinOp (env : TimeEnv) (x : VMTime) (op : VMOperation) (y : VMValuer) :
    Except Err (VMValuer × Option GoError) :=
  match op with
  | VMOperation.ADD =>
    match env.durationer y with
    | some d => Except.ok (VMValuer.VMTime (x.«Добавить» env d), none)
    | none => Except.ok (VMValuer.VMNil, some errOperation)
  | VMOperation.SUB =>
    match env.durationer y with
    | some d => Except.ok (VMValuer.VMTime (x.«Добавить» env ⟨wrap64 (-d.ns)⟩), none)
    | none =>
      match y with
      | VMValuer.VMTime yy => Except.ok (VMValuer.VMTimeDuration (x.«Вычесть» yy), none)
      | _ => Except.ok (VMValuer.VMNil, some errOperation)
  | VMOperation.MUL => Except.ok (VMValuer.VMNil, some errOperation)
  | VMOperation.QUO => Except.ok (VMValuer.VMNil, some errOperation)
  | VMOperation.REM => Except.ok (VMValuer.VMNil, some errOperation)
  | VMOperation.EQL =>
    match env.dateTimer y with
    | Except.error e => Except.error e
    | Except.ok (some yy) => Except.ok (VMValuer.VMBool (x.«Равно» yy), none)
    | Except.ok none => Except.ok (VMValuer.VMNil, some errOperation)
  | VMOperation.NEQ =>
    match env.dateTimer y with
    | Except.error e => Except.error e
    | Except.ok (some yy) => Except.ok (VMValuer.VMBool (!x.«Равно» yy), none)
    | Except.ok none => Except.ok (VMValuer.VMNil, some errOperation)
  | VMOperation.GTR =>
    match env.dateTimer y with
    | Except.error e => Except.error e
    | Except.ok (some yy) => Except.ok (VMValuer.VMBool (x.«Позже» yy), none)
    | Except.ok none => Except.ok (VMValuer.VMNil, some errOperation)
  | VMOperation.GEQ =>
    match env.dateTimer y with
    | Except.error e => Except.error e
    | Except.ok (some yy) => Except.ok (VMValuer.VMBool (x.«Равно» yy || x.«Позже» yy), none)
    | Except.ok none => Except.ok (VMValuer.VMNil, some errOperation)
  | VMOperation.LSS =>
    match env.dateTimer y with
    | Except.error e => Except.error e
    | Except.ok (some yy) => Except.ok (VMValuer.VMBool (x.«Раньше» yy), none)
    | Except.ok none => Except.ok (VMValuer.VMNil, some errOperation)
  | VMOperation.LEQ =>
    match env.dateTimer y with
    | Except.error e => Except.error e
    | Except.ok (some yy) => Except.ok (VMValuer.VMBool (x.«Равно» yy || x.«Раньше» yy), none)
    | Except.ok none => Except.ok (VMValuer.VMNil, some errOperation)
  | VMOperation.OR => Except.ok (VMValuer.VMNil, some errOperation)
  | VMOperation.LOR => Except.ok (VMValuer.VMNil, some errOperation)
  | VMOperation.AND => Except.ok (VMValuer.VMNil, some errOperation)
  | VMOperation.LAND => Except.ok (VMValuer.VMNil, some errOperation)
  | VMOperation.POW => Except.ok (VMValuer.VMNil, some errOperation)
  | VMOperation.SHR => Except.ok (VMValuer.VMNil, some errOperation)
  | VMOperation.SHL => Except.ok (VMValuer.VMNil, some errOperation)
  | VMOperation.other _ => Except.ok (VMValuer.VMNil, some errUnknownOperation)

/-- Modelled from the Go standard library: `time.Time.MarshalJSON`. "The time is a quoted
string in the RFC 3339 format with sub-second precision. If the timestamp cannot be
represented as valid RFC 3339 (e.g., the year is out of range), then an error is reported."
The library tests the year first ("year outside of range [0,9999]") and then the hour field
of the zone offset, the whole hours of its magnitude ("timezone hour outside of range
[0,23]"). The RFC 3339 text itself is a parameter. -/
def goTimeMarshalJSON (rfc3339 : VMTime → List Nat) (t : VMTime) : Except GoError (List Nat) :=
  if t.year < 0 ∨ 10000 ≤ t.year then
    Except.error "Time.MarshalJSON: year outside of range [0,9999]"
  else if 24 ≤ t.zoneOffset.natAbs / 60 / 60 then
    Except.error "Time.MarshalJSON: timezone hour outside of range [0,23]"
  else Except.ok (utf8 "\"" ++ rfc3339 t ++ utf8 "\"")

/-- Method `MarshalJSON` of `VMTime`. -/
def VMTime.MarshalJSON (rfc3339 : VMTime → List Nat) (t : VMTime) :
    Except GoError (List Nat) :=
  goTimeMarshalJSON rfc3339 t

/-- Modelled from the Go standard library: `json.Marshal(v)` for a value whose type, named
`typeName`, has the method `MarshalJSON`, given the result `r` of that method: "if an
encountered value implements Marshaler and is not a nil pointer, Marshal calls MarshalJSON to
produce JSON". An error of the method is returned as a `*json.MarshalerError`, whose message is
"json: error calling MarshalJSON for type ", the type, ": " and the message of the error. The
text of the method is copied through the library's compaction, which leaves a quoted RFC 3339
text as it is. -/
def jsonMarshal (typeName : String) (r : Except GoError (List Nat)) :
    Except GoError (List Nat) :=
  match r with
  | Except.error err =>
    Except.error ("json: error calling MarshalJSON for type " ++ typeName ++ ": " ++ err)
  | Except.ok b => Except.ok b

/-- Method `ConvertToType` of `VMTime`. The call `json.Marshal(x)` finds the method
`MarshalJSON` of the type `core.VMTime`. -/
def VMTime.ConvertToType (rfc3339 : VMTime → List Nat) (x : VMTime) (nt : ReflectType) :
    VMValuer × Option GoError :=
  match nt with
  | ReflectType.ReflectVMString =>
    match jsonMarshal "core.VMTime" (x.MarshalJSON rfc3339) with
    | Except.error err => (VMValuer.VMNil, some err)
    | Except.ok b => (VMValuer.VMString b, none)
  | ReflectType.ReflectVMTime => (VMValuer.VMTime x, none)
  | _ => (VMValuer.VMNil, some errConversion)

/-- A time in the year 10000. -/
def t100000101 : VMTime :=
  { year := 10000, month := 1, day := 1, hour := 0, minute := 0, second := 0, nanosecond := 0,
    weekday := 6, isoYear := 9999, isoWeek := 52, zoneOffset := 0,
    instant := 253402300800000000000 }

/-- A time of 2024 in a zone 25 hours east of UTC. -/
def t20240309plus25 : VMTime := { t20240309 with zoneOffset := 90000 }

/-! ### Operators of `VMString` (`corestring.go`) -/

/-- The scan of `strings.Replace(s, old, "", -1)` for a non-empty `old`: an instance of `old`
at the current position is skipped and the scan goes on after it, any other byte is kept. The
fuel bounds the steps by the length of `s`. -/
def removeScan (old : List Nat) : Nat → List Nat → List Nat
  | _, [] => []
  | 0, c :: cs => c :: cs
  | fuel + 1, c :: cs =>
    if old.isPrefixOf (c :: cs) then removeScan old fuel ((c :: cs).drop old.length)
    else c :: removeScan old fuel cs

/-- Modelled from the Go standard library: `strings.Replace(s, old, "", -1)` "returns a copy of
the string s with the … non-overlapping instances of old replaced by new"; when `old` equals
`new` (both empty) the library returns `s`. -/
def stringsRemove (s old : List Nat) : List Nat :=
  if old = [] then s else removeScan old s.length s

/-- Modelled from the Go standard library: `strings.Repeat(s, count)` "returns a new string
consisting of count copies of the string s. It panics if count is negative". The limits on
the size of the result (overflow of `len(s) * count`, memory) are not modelled. -/
def stringsRepeat (s : List Nat) (count : Int) : Except Err (List Nat) :=
  if count < 0 then Except.error Err.negativeRepeat
  else Except.ok (List.replicate count.toNat s).flatten

/-- Modelled from the Go standard library: `bytes.Compare(a, b)` "returns an integer comparing
two byte slices lexicographically. The result will be 0 if a == b, -1 if a < b, and +1 if
a > b". -/
def bytesCompare : List Nat → List Nat → Int
  | [], [] => 0
  | [], _ :: _ => -1
  | _ :: _, [] => 1
  | a :: as, b :: bs => if a < b then -1 else if b < a then 1 else bytesCompare as bs

/-- Modelled from the Go standard library: `bytes.Equal`. -/
def bytesEqual (a b : List Nat) : Bool := decide (a = b)

/-- Method `EvalBinOp` of `VMString`: a panic, or the value and the error it returns. -/
def VMString.EvalBinOp (x : VMString) (op : VMOperation) (y : VMValuer) :
    Except Err (VMValuer × Option GoError) :=
  match op with
  | VMOperation.ADD =>
    match y with
    | VMValuer.VMString yy => Except.ok (VMValuer.VMString (x ++ yy), none)
    | _ => Except.ok (VMValuer.VMNil, some errOperation)
  | VMOperation.SUB =>
    match y with
    | VMValuer.VMString yy => Except.ok (VMValuer.VMString (stringsRemove x yy), none)
    | _ => Except.ok (VMValuer.VMNil, some errOperation)
  | VMOperation.MUL =>
    match y with
    | VMValuer.VMInt yy =>
      match stringsRepeat x yy with
      | Except.error e => Except.error e
      | Except.ok r => Except.ok (VMValuer.VMString r, none)
    | _ => Except.ok (VMValuer.VMNil, some errOperation)
  | VMOperation.QUO => Except.ok (VMValuer.VMNil, some errOperation)
  | VMOperation.REM => Except.ok (VMValuer.VMNil, some errOperation)
  | VMOperation.EQL =>
    match y with
    | VMValuer.VMString yy => Except.ok (VMValuer.VMBool (bytesEqual x yy), none)
    | _ => Except.ok (VMValuer.VMNil, some errOperation)
  | VMOperation.NEQ =>
    match y with
    | VMValuer.VMString yy => Except.ok (VMValuer.VMBool (!bytesEqual x yy), none)
    | _ => Except.ok (VMValuer.VMNil, some errOperation)
  | VMOperation.GTR =>
    match y with
    | VMValuer.VMString yy => Except.ok (VMValuer.VMBool (bytesCompare x yy == 1), none)
    | _ => Except.ok (VMValuer.VMNil, some errOperation)
  | VMOperation.GEQ =>
    match y with
    | VMValuer.VMString yy =>
      let cmp := bytesCompare x yy
      Except.ok (VMValuer.VMBool (cmp == 1 || cmp == 0), none)
    | _ => Except.ok (VMValuer.VMNil, some errOperation)
  | VMOperation.LSS =>
    match y with
    | VMValuer.VMString yy => Except.ok (VMValuer.VMBool (bytesCompare x yy == -1), none)
    | _ => Except.ok (VMValuer.VMNil, some errOperation)
  | VMOperation.LEQ =>
    match y with
    | VMValuer.VMString yy =>
      let cmp := bytesCompare x yy
      Except.ok (VMValuer.VMBool (cmp == -1 || cmp == 0), none)
    | _ => Except.ok (VMValuer.VMNil, some errOperation)
  | VMOperation.OR => Except.ok (VMValuer.VMNil, some errOperation)
  | VMOperation.LOR => Except.ok (VMValuer.VMNil, some errOperation)
  | VMOperation.AND => Except.ok (VMValuer.VMNil, some errOperation)
  | VMOperation.LAND => Except.ok (VMValuer.VMNil, some errOperation)
  | VMOperation.POW => Except.ok (VMValuer.VMNil, some errOperation)
  | VMOperation.SHR => Except.ok (VMValuer.VMNil, some errOperation)
  | VMOperation.SHL => Except.ok (VMValuer.VMNil, some errOperation)
  | VMOperation.other _ => Except.ok (VMValuer.VMNil, some errUnknownOperation)

/-- The string `r` is `s` with the instances of `y` removed that a scan from the left finds:
either `y` does not occur in `s` and `r` is `s`, or `s` is `p ++ y ++ rest` with no instance
of `y` starting inside `p`, and `r` is `p` followed by `rest` treated the same way. -/
inductive RemovedAll (y : List Nat) : List Nat → List Nat → Prop
  | done (s : List Nat) : ¬ y <:+: s → RemovedAll y s s
  | step (p rest r : List Nat) :
      (∀ i, i < p.length → ¬ y <+: (p ++ y ++ rest).drop i) → RemovedAll y rest r →
      RemovedAll y (p ++ y ++ rest) (p ++ r)

/-! ### The operator tables of `bincode` (`binstmt.go`) -/

namespace bincode

/-- The operator constants: `iota` counts from 0, which the blank identifier takes. -/
def ADD : Int := 1
def SUB : Int := 2
def MUL : Int := 3
def QUO : Int := 4
def REM : Int := 5
def EQL : Int := 6
def NEQ : Int := 7
def GTR : Int := 8
def GEQ : Int := 9
def LSS : Int := 10
def LEQ : Int := 11
def OR : Int := 12
def LOR : Int := 13
def AND : Int := 14
def LAND : Int := 15
def POW : Int := 16
def SHL : Int := 17
def SHR : Int := 18

/-- The map literal `OperMap`, as the list of its entries; the keys are ASCII constants, kept
as text. -/
def OperMap : List (String × Int) :=
  [("+", ADD), ("-", SUB), ("*", MUL), ("/", QUO), ("%", REM), ("==", EQL), ("!=", NEQ),
   (">", GTR), (">=", GEQ), ("<", LSS), ("<=", LEQ), ("|", OR), ("||", LOR), ("&", AND),
   ("&&", LAND), ("**", POW), ("<<", SHL), (">>", SHR)]

/-- The map literal `OperMapR`, as the list of its entries. -/
def OperMapR : List (Int × String) :=
  [(ADD, "+"), (SUB, "-"), (MUL, "*"), (QUO, "/"), (REM, "%"), (EQL, "=="), (NEQ, "!="),
   (GTR, ">"), (GEQ, ">="), (LSS, "<"), (LEQ, "<="), (OR, "|"), (LOR, "||"), (AND, "&"),
   (LAND, "&&"), (POW, "**"), (SHL, "<<"), (SHR, ">>")]

end bincode

/-- The index expression `m[k]` of a Go map given by its entries: the value of the entry with
key `k`, if there is one. -/
def mapIndex {κ ν : Type} [DecidableEq κ] (m : List (κ × ν)) (k : κ) : Option ν :=
  (m.find? fun e => decide (e.1 = k)).map fun e => e.2

/-! ### `DecryptAES128` (`corecrypt.go`) -/

/-- The errors `DecryptAES128` returns. Modelled from the spec: the error value
`VMErrorSmallDecodeBuffer` is declared outside the sources ("SmallDecodeBuffer — decryption
input shorter than the nonce"); `lib` is an error value of the standard library, by its
message. -/
inductive CryptError
  | VMErrorSmallDecodeBuffer
  | lib (err : GoError)
  deriving DecidableEq, Repr

/-- The variable `aesKey`. -/
def aesKey : List Nat := utf8 "oUwhsPdfj439pfoi"

/-- Modelled from the Go standard library: `aes.NewCipher` "creates and returns a new
cipher.Block. The key argument should be the AES key, either 16, 24, or 32 bytes to select
AES-128, AES-192, or AES-256"; any other length is a `KeySizeError`. The block is given by its
key. -/
def aesNewCipher (key : List Nat) : Except GoError (List Nat) :=
  if key.length = 16 ∨ key.length = 24 ∨ key.length = 32 then Except.ok key
  else Except.error "crypto/aes: invalid key size"

/-- Modelled from the Go standard library: `cipher.NewGCM` "returns the given 128-bit, block
cipher wrapped in Galois Counter Mode with the standard nonce length"; the block size of AES is
128 bits, so there is no error. The mode is given by the key of its block. -/
def cipherNewGCM (c : List Nat) : Except GoError (List Nat) := Except.ok c

/-- Modelled from the Go standard library: `NonceSize` of a mode made by `cipher.NewGCM` is the
standard nonce length, 12 bytes. -/
def gcmNonceSize (_gcm : List Nat) : Nat := 12

/-- The function `DecryptAES128`: the plaintext (`none` for a nil slice) and the error.
`gcmOpen gcm nonce ciphertext` is `gcm.Open(nil, nonce, ciphertext, nil)` of the standard
library: the plaintext, or nil and the library's error when authentication fails. -/
def DecryptAES128
    (gcmOpen : List Nat → List Nat → List Nat → Option (List Nat) × Option GoError)
    (ciphertext : List Nat) : Option (List Nat) × Option CryptError :=
  match aesNewCipher aesKey with
  | Except.error err => (none, some (CryptError.lib err))
  | Except.ok c =>
    match cipherNewGCM c with
    | Except.error err => (none, some (CryptError.lib err))
    | Except.ok gcm =>
      let nonceSize := gcmNonceSize gcm
      if ciphertext.length < nonceSize then (none, some CryptError.VMErrorSmallDecodeBuffer)
      else
        let nonce := ciphertext.take nonceSize
        let ciphertext := ciphertext.drop nonceSize
        let r := gcmOpen gcm nonce ciphertext
        (r.1, r.2.map CryptError.lib)

/-! ### Conversions of `VMString` (`corestring.go`) -/

/-- Modelled from the Go standard library (package `strconv`): the value `ParseUint` gives a
digit byte, `'0'` … `'9'` and from 10 on the letters of either case. -/
def digitValue (c : Nat) : Option Nat :=
  if 48 ≤ c ∧ c ≤ 57 then some (c - 48)
  else if 97 ≤ c ∧ c ≤ 122 then some (c - 97 + 10)
  else if 65 ≤ c ∧ c ≤ 90 then some (c - 65 + 10)
  else none

/-- The error `strconv.ErrSyntax`, by its message. -/
def errSyntax : GoError := "invalid syntax"

/-- The error `strconv.ErrRange`, by its message. -/
def errRange : GoError := "value out of range"

/-- Modelled from the Go standard library: the loop of `strconv.ParseUint` over the bytes of
the text, for a base from 2 to 36. A byte that is no digit of the base is a syntax error with
value 0; the two overflow tests of the library (`n >= cutoff` and `n1 < n || n1 > maxVal`)
together say that `n * base + d` exceeds `maxVal`, a range error with value `maxVal`. -/
def parseUintLoop (base maxVal : Nat) : Nat → List Nat → Nat × Option GoError
  | n, [] => (n, none)
  | n, c :: cs =>
    match digitValue c with
    | none => (0, some errSyntax)
    | some d =>
      if base ≤ d then (0, some errSyntax)
      else if maxVal < n * base + d then (maxVal, some errRange)
      else parseUintLoop base maxVal (n * base + d) cs

/-- Modelled from the Go standard library: `strconv.ParseUint(s, base, bitSize)` for a base
from 2 to 36: "if s is empty or contains invalid digits, err.Err = ErrSyntax and the returned
value is 0; if the value corresponding to s cannot be represented by an unsigned integer of
the given size, err.Err = ErrRange and the returned value is the maximum magnitude integer". -/
def ParseUint (s : List Nat) (base bitSize : Nat) : Nat × Option GoError :=
  if s = [] then (0, some errSyntax) else parseUintLoop base (2 ^ bitSize - 1) 0 s

/-- Modelled from the Go standard library: `strconv.ParseInt(s, base, bitSize)` for a base from
2 to 36 "interprets a string s in the given base and bit size and returns the corresponding
value i. The string may begin with a leading sign: "+" or "-"", with the errors of
`ParseUint` and a range error for a value outside the signed range of the size. -/
def ParseInt (s : List Nat) (base bitSize : Nat) : Int × Option GoError :=
  if s = [] then (0, some errSyntax)
  else
    -- Pick off leading sign.
    let neg : Bool := decide (s.head? = some 45)
    let s1 := if s.head? = some 43 ∨ s.head? = some 45 then s.tail else s
    -- Convert unsigned and check range.
    let (un, err) := ParseUint s1 base bitSize
    if err ≠ none ∧ err ≠ some errRange then (0, err)
    else
      let cutoff : Nat := 2 ^ (bitSize - 1)
      if neg = false ∧ cutoff ≤ un then (((cutoff - 1 : Nat) : Int), some errRange)
      else if neg = true ∧ cutoff < un then (-(cutoff : Int), some errRange)
      else (if neg then -(un : Int) else (un : Int), none)

/-- Method `Int` of `VMString`; `panic(err)` is the error `Err.panic`. -/
def VMString.Int (x : VMString) : Except Err ℤ :=
  let r := if (utf8 "0x").isPrefixOf x then ParseInt (x.drop 2) 16 64 else ParseInt x 10 64
  match r.2 with
  | some err => Except.error (Err.panic err)
  | none => Except.ok r.1

/-- The position of the byte `c` among the first `base` digits "0" … "9", "a" … "z", in either
case of the letters: its value as a digit of the base, if it is one. -/
def digitIndex (base : Nat) (c : Nat) : Option Nat :=
  let lower := (utf8 "0123456789abcdefghijklmnopqrstuvwxyz").take base
  let upper := (utf8 "0123456789ABCDEFGHIJKLMNOPQRSTUVWXYZ").take base
  if c ∈ lower then some (lower.indexOf c)
  else if c ∈ upper then some (upper.indexOf c)
  else none

/-- The value of an unsigned numeral of the base: a non-empty sequence of digits of the base,
the most significant first. -/
def unsignedValue (base : Nat) (s : List Nat) : Option Nat :=
  if s = [] then none
  else (s.mapM (digitIndex base)).map fun ds => Nat.ofDigits base ds.reverse

/-- The value of a numeral of the base: an unsigned numeral, or one after a sign "+" or "-". -/
def numeralValue (base : Nat) : List Nat → Option Int
  | 43 :: r => (unsignedValue base r).map fun v : Nat => (v : Int)
  | 45 :: r => (unsignedValue base r).map fun v : Nat => -(v : Int)
  | r => (unsignedValue base r).map fun v : Nat => (v : Int)

/-- Modelled from the Go standard library: `strings.IndexAny(s, "Ee")` "returns the index of
the first instance of any Unicode code point from chars in s, or -1 if no code point from
chars is present in s"; `none` is -1. -/
def indexAnyEe (s : List Nat) : Option Nat :=
  let i := s.findIdx fun c => decide (c = 69 ∨ c = 101)
  if i < s.length then some i else none

/-- Modelled from the Go standard library: `strings.Split(s, ".")` "slices s into all
substrings separated by sep and returns a slice of the substrings between those separators". -/
def splitPoint : List Nat → List (List Nat)
  | [] => [[]]
  | c :: cs =>
    if c = 46 then [] :: splitPoint cs
    else
      match splitPoint cs with
      | [] => [[c]]
      | p :: ps => (c :: p) :: ps

/-- Modelled from the Go standard library: `strings.TrimRight(s, "0")` "returns a slice of the
string s, with all trailing Unicode code points contained in cutset removed". -/
def trimRightZeros (s : List Nat) : List Nat := s.rdropWhile fun c => decide (c = 48)

/-- The digits of `(*big.Int).SetString(s, 10)` after the sign: decimal digits only. -/
def bigDigits : Nat → List Nat → Option Nat
  | n, [] => some n
  | n, c :: cs => if 48 ≤ c ∧ c ≤ 57 then bigDigits (n * 10 + (c - 48)) cs else none

/-- Modelled from the Go standard library (package `math/big`): `SetString(s, 10)` "sets z to
the value of s, interpreted in the given base, and returns z and a boolean indicating success.
The entire string (not just a prefix) must be valid for success"; the text is an optional sign
and at least one digit, and the value has no bound. -/
def bigSetString (s : List Nat) : Option Int :=
  let neg : Bool := decide (s.head? = some 45)
  let s1 := if s.head? = some 43 ∨ s.head? = some 45 then s.tail else s
  if s1 = [] then none
  else (bigDigits 0 s1).map fun u : Nat => if neg then -(u : Int) else (u : Int)

/-- Modelled from the library `github.com/shopspring/decimal`: the part of `NewFromString`
after the exponent is read, for the text `value` before the exponent and the exponent `exp`.
At most one point; the digits after the point lose their trailing zeros and lower the exponent
by their number; the digits are read by `big.Int.SetString`; the exponent must fit an
`int32`. The errors are given by their message, without the text they quote. -/
def decimalFromParts (value : List Nat) (exp : Int) : Except GoError VMDecimal :=
  let split : Except GoError (List Nat × Int) :=
    match splitPoint value with
    | [_] =>
      -- There is no decimal point, we can just parse the original string as an int
      Except.ok (value, exp)
    | [p0, p1] =>
      -- strip the insignificant digits for more accurate comparisons.
      let decimalPart := trimRightZeros p1
      Except.ok (p0 ++ decimalPart, exp - decimalPart.length)
    | _ => Except.error "can't convert to decimal: too many .s"
  match split with
  | Except.error err => Except.error err
  | Except.ok (intString, exp) =>
    match bigSetString intString with
    | none => Except.error "can't convert to decimal"
    | some dValue =>
      if exp < -2 ^ 31 ∨ 2 ^ 31 - 1 < exp then
        Except.error "can't convert to decimal: fractional part too long"
      else Except.ok { value := dValue, exp := exp }

/-- Modelled from the library `github.com/shopspring/decimal`: `NewFromString` "returns a new
Decimal from a string representation". The text may carry an exponent after "e" or "E", read
by `strconv.ParseInt(_, 10, 32)`; the rest is read by `decimalFromParts`. -/
def decimalNewFromString (value : List Nat) : Except GoError VMDecimal :=
  -- Check if number is using scientific notation
  match indexAnyEe value with
  | some eIndex =>
    let r := ParseInt (value.drop (eIndex + 1)) 10 32
    match r.2 with
    | some err =>
      if err = errRange then Except.error "can't convert to decimal: fractional part too long"
      else Except.error "can't convert to decimal: exponent is not numeric"
    | none => decimalFromParts (value.take eIndex) r.1
  | none => decimalFromParts value 0

/-- The number a `VMDecimal` stands for. -/
def VMDecimal.toRat (d : VMDecimal) : ℚ := (d.value : ℚ) * (10 : ℚ) ^ d.exp

/-! ### The JSON scanner of `encoding/json`

Modelled from the Go standard library: `json.Unmarshal` first checks that its input is one
well-formed JSON value (`checkValid`), with a scanner that reads the input byte by byte. The
definitions below follow that scanner: its step functions, its stack of parse states and the
opcode each step returns. The limit on the nesting depth of later library versions is not
modelled. -/

/-- The entries of the scanner's stack `parseState`. -/
inductive ParseState
  | parseObjectKey
  | parseObjectValue
  | parseArrayValue
  deriving DecidableEq, Repr

/-- The step functions of the scanner (the values of its field `step`). -/
inductive ScanStep
  | stateBeginValueOrEmpty | stateBeginValue | stateBeginStringOrEmpty | stateBeginString
  | stateEndValue | stateEndTop
  | stateInString | stateInStringEsc | stateInStringEscU | stateInStringEscU1
  | stateInStringEscU12 | stateInStringEscU123
  | stateNeg | state1 | state0 | stateDot | stateDot0 | stateE | stateESign | stateE0
  | stateT | stateTr | stateTru | stateF | stateFa | stateFal | stateFals
  | stateN | stateNu | stateNul
  | stateError
  deriving DecidableEq, Repr

/-- The opcodes a step returns. -/
inductive ScanCode
  | scanContinue | scanBeginLiteral | scanBeginObject | scanObjectKey | scanObjectValue
  | scanEndObject | scanBeginArray | scanArrayValue | scanEndArray | scanSkipSpace | scanEnd
  | scanError
  deriving DecidableEq, Repr

/-- The scanner: the current step function, whether the top-level value is complete, and the
stack of parse states with its top first. The scanner holds an error exactly when its step is
`stateError`. -/
structure Scanner where
  step : ScanStep
  endTop : Bool
  parseState : List ParseState
  deriving DecidableEq, Repr

/-- The function `isSpace`. -/
def isSpace (c : Nat) : Bool := decide (c = 32 ∨ c = 9 ∨ c = 13 ∨ c = 10)

/-- The bytes `'0'` … `'9'`. -/
def isDigit (c : Nat) : Bool := decide (48 ≤ c ∧ c ≤ 57)

/-- The bytes that `stateInStringEscU` … accept: hexadecimal digits of either case. -/
def isHexDigit (c : Nat) : Bool :=
  decide ((48 ≤ c ∧ c ≤ 57) ∨ (97 ≤ c ∧ c ≤ 102) ∨ (65 ≤ c ∧ c ≤ 70))

/-- The method `error`: the scanner stops in `stateError`. -/
def Scanner.error (s : Scanner) : Scanner × ScanCode :=
  ({ s with step := ScanStep.stateError }, ScanCode.scanError)

/-- The change of step function with the opcode `code`. -/
def Scanner.goto (s : Scanner) (step : ScanStep) (code : ScanCode) : Scanner × ScanCode :=
  ({ s with step := step }, code)

/-- The function `stateEndTop`: after the top-level value only space may follow; any other
byte puts the scanner in `stateError`, and the opcode is `scanEnd` either way. -/
def stateEndTop (s : Scanner) (c : Nat) : Scanner × ScanCode :=
  if isSpace c then (s, ScanCode.scanEnd)
  else ({ s with step := ScanStep.stateError }, ScanCode.scanEnd)

/-- The method `popParseState`, for a stack whose top is removed and `rest` remains. -/
def Scanner.popParseState (s : Scanner) (rest : List ParseState) : Scanner :=
  if rest = [] then { step := ScanStep.stateEndTop, endTop := true, parseState := rest }
  else { step := ScanStep.stateEndValue, endTop := s.endTop, parseState := rest }

/-- The function `stateEndValue`: the state after completing a value. -/
def stateEndValue (s : Scanner) (c : Nat) : Scanner × ScanCode :=
  match s.parseState with
  | [] =>
    -- Completed top-level before the current byte.
    stateEndTop { step := ScanStep.stateEndTop, endTop := true, parseState := [] } c
  | ps :: rest =>
    if isSpace c then s.goto ScanStep.stateEndValue ScanCode.scanSkipSpace
    else
      match ps with
      | ParseState.parseObjectKey =>
        if c = 58 then
          ({ step := ScanStep.stateBeginValue, endTop := s.endTop,
             parseState := ParseState.parseObjectValue :: rest }, ScanCode.scanObjectKey)
        else s.error
      | ParseState.parseObjectValue =>
        if c = 44 then
          ({ step := ScanStep.stateBeginString, endTop := s.endTop,
             parseState := ParseState.parseObjectKey :: rest }, ScanCode.scanObjectValue)
        else if c = 125 then (s.popParseState rest, ScanCode.scanEndObject)
        else s.error
      | ParseState.parseArrayValue =>
        if c = 44 then s.goto ScanStep.stateBeginValue ScanCode.scanArrayValue
        else if c = 93 then (s.popParseState rest, ScanCode.scanEndArray)
        else s.error

/-- The function `stateBeginValue`: the state at the beginning of a value. -/
def stateBeginValue (s : Scanner) (c : Nat) : Scanner × ScanCode :=
  if isSpace c then (s, ScanCode.scanSkipSpace)
  else if c = 123 then
    ({ step := ScanStep.stateBeginStringOrEmpty, endTop := s.endTop,
       parseState := ParseState.parseObjectKey :: s.parseState }, ScanCode.scanBeginObject)
  else if c = 91 then
    ({ step := ScanStep.stateBeginValueOrEmpty, endTop := s.endTop,
       parseState := ParseState.parseArrayValue :: s.parseState }, ScanCode.scanBeginArray)
  else if c = 34 then s.goto ScanStep.stateInString ScanCode.scanBeginLiteral
  else if c = 45 then s.goto ScanStep.stateNeg ScanCode.scanBeginLiteral
  else if c = 48 then s.goto ScanStep.state0 ScanCode.scanBeginLiteral
  else if c = 116 then s.goto ScanStep.stateT ScanCode.scanBeginLiteral
  else if c = 102 then s.goto ScanStep.stateF ScanCode.scanBeginLiteral
  else if c = 110 then s.goto ScanStep.stateN ScanCode.scanBeginLiteral
  else if 49 ≤ c ∧ c ≤ 57 then s.goto ScanStep.state1 ScanCode.scanBeginLiteral
  else s.error

/-- The function `stateBeginString`: the state after `{"key": value,`. -/
def stateBeginString (s : Scanner) (c : Nat) : Scanner × ScanCode :=
  if isSpace c then (s, ScanCode.scanSkipSpace)
  else if c = 34 then s.goto ScanStep.stateInString ScanCode.scanBeginLiteral
  else s.error

/-- The function `state0`: the state after `0` in a number. -/
def state0 (s : Scanner) (c : Nat) : Scanner × ScanCode :=
  if c = 46 then s.goto ScanStep.stateDot ScanCode.scanContinue
  else if c = 101 ∨ c = 69 then s.goto ScanStep.stateE ScanCode.scanContinue
  else stateEndValue s c

/-- The function `stateESign`: the state after the mantissa, `e` and an optional sign. -/
def stateESign (s : Scanner) (c : Nat) : Scanner × ScanCode :=
  if isDigit c then s.goto ScanStep.stateE0 ScanCode.scanContinue else s.error

/-- One step of the scanner on the byte `c`: the call `s.step(s, c)`. -/
def Scanner.next (s : Scanner) (c : Nat) : Scanner × ScanCode :=
  match s.step with
  | ScanStep.stateBeginValueOrEmpty =>
    if isSpace c then (s, ScanCode.scanSkipSpace)
    else if c = 93 then stateEndValue s c
    else stateBeginValue s c
  | ScanStep.stateBeginValue => stateBeginValue s c
  | ScanStep.stateBeginStringOrEmpty =>
    if isSpace c then (s, ScanCode.scanSkipSpace)
    else if c = 125 then
      stateEndValue { s with parseState := ParseState.parseObjectValue :: s.parseState.tail } c
    else stateBeginString s c
  | ScanStep.stateBeginString => stateBeginString s c
  | ScanStep.stateEndValue => stateEndValue s c
  | ScanStep.stateEndTop => stateEndTop s c
  | ScanStep.stateInString =>
    if c = 34 then s.goto ScanStep.stateEndValue ScanCode.scanContinue
    else if c = 92 then s.goto ScanStep.stateInStringEsc ScanCode.scanContinue
    else if c < 32 then s.error
    else (s, ScanCode.scanContinue)
  | ScanStep.stateInStringEsc =>
    if c = 98 ∨ c = 102 ∨ c = 110 ∨ c = 114 ∨ c = 116 ∨ c = 92 ∨ c = 47 ∨ c = 34 then
      s.goto ScanStep.stateInString ScanCode.scanContinue
    else if c = 117 then s.goto ScanStep.stateInStringEscU ScanCode.scanContinue
    else s.error
  | ScanStep.stateInStringEscU =>
    if isHexDigit c then s.goto ScanStep.stateInStringEscU1 ScanCode.scanContinue else s.error
  | ScanStep.stateInStringEscU1 =>
    if isHexDigit c then s.goto ScanStep.stateInStringEscU12 ScanCode.scanContinue else s.error
  | ScanStep.stateInStringEscU12 =>
    if isHexDigit c then s.goto ScanStep.stateInStringEscU123 ScanCode.scanContinue else s.error
  | ScanStep.stateInStringEscU123 =>
    if isHexDigit c then s.goto ScanStep.stateInString ScanCode.scanContinue else s.error
  | ScanStep.stateNeg =>
    if c = 48 then s.goto ScanStep.state0 ScanCode.scanContinue
    else if 49 ≤ c ∧ c ≤ 57 then s.goto ScanStep.state1 ScanCode.scanContinue
    else s.error
  | ScanStep.state1 =>
    if isDigit c then s.goto ScanStep.state1 ScanCode.scanContinue else state0 s c
  | ScanStep.state0 => state0 s c
  | ScanStep.stateDot =>
    if isDigit c then s.goto ScanStep.stateDot0 ScanCode.scanContinue else s.error
  | ScanStep.stateDot0 =>
    if isDigit c then (s, ScanCode.scanContinue)
    else if c = 101 ∨ c = 69 then s.goto ScanStep.stateE ScanCode.scanContinue
    else stateEndValue s c
  | ScanStep.stateE =>
    if c = 43 ∨ c = 45 then s.goto ScanStep.stateESign ScanCode.scanContinue
    else stateESign s c
  | ScanStep.stateESign => stateESign s c
  | ScanStep.stateE0 =>
    if isDigit c then (s, ScanCode.scanContinue) else stateEndValue s c
  | ScanStep.stateT =>
    if c = 114 then s.goto ScanStep.stateTr ScanCode.scanContinue else s.error
  | ScanStep.stateTr =>
    if c = 117 then s.goto ScanStep.stateTru ScanCode.scanContinue else s.error
  | ScanStep.stateTru =>
    if c = 101 then s.goto ScanStep.stateEndValue ScanCode.scanContinue else s.error
  | ScanStep.stateF =>
    if c = 97 then s.goto ScanStep.stateFa ScanCode.scanContinue else s.error
  | ScanStep.stateFa =>
    if c = 108 then s.goto ScanStep.stateFal ScanCode.scanContinue else s.error
  | ScanStep.stateFal =>
    if c = 115 then s.goto ScanStep.stateFals ScanCode.scanContinue else s.error
  | ScanStep.stateFals =>
    if c = 101 then s.goto ScanStep.stateEndValue ScanCode.scanContinue else s.error
  | ScanStep.stateN =>
    if c = 117 then s.goto ScanStep.stateNu ScanCode.scanContinue else s.error
  | ScanStep.stateNu =>
    if c = 108 then s.goto ScanStep.stateNul ScanCode.scanContinue else s.error
  | ScanStep.stateNul =>
    if c = 108 then s.goto ScanStep.stateEndValue ScanCode.scanContinue else s.error
  | ScanStep.stateError => (s, ScanCode.scanError)

/-- The scanner after `reset`. -/
def Scanner.reset : Scanner :=
  { step := ScanStep.stateBeginValue, endTop := false, parseState := [] }

/-- The run of the scanner over the bytes of a text: each byte with the opcode of its step
and the depth of the stack after it, and the scanner at the end. -/
def scanRun : Scanner → List Nat → List (Nat × ScanCode × Nat) × Scanner
  | s, [] => ([], s)
  | s, c :: cs =>
    let r := s.next c
    let t := scanRun r.1 cs
    ((c, r.2, r.1.parseState.length) :: t.1, t.2)

/-- The method `eof`, as a test: the input may end in the state `s`. -/
def Scanner.eof (s : Scanner) : Bool :=
  if s.step = ScanStep.stateError then false
  else if s.endTop then true
  else
    let r := s.next 32
    r.1.endTop && decide (r.1.step ≠ ScanStep.stateError)

/-- The function `checkValid`, as a test: the text is one well-formed JSON value. -/
def checkValid (data : List Nat) : Bool := (scanRun Scanner.reset data).2.eof

/-- A text without the JSON space at its two ends. -/
def trimSpace (s : List Nat) : List Nat := (s.dropWhile isSpace).rdropWhile isSpace

/-- The part of a scanner run inside the top-level array or object, cut at the bytes whose
opcode is `sep` at depth 1 (the commas between the elements or members); the run ends with the
byte that closes the top-level value (depth 0). -/
def splitTop (sep : ScanCode) :
    List (Nat × ScanCode × Nat) → List (List (Nat × ScanCode × Nat))
  | [] => [[]]
  | e :: t =>
    if e.2.2 = 0 then [[]]
    else if e.2.1 = sep ∧ e.2.2 = 1 then [] :: splitTop sep t
    else
      match splitTop sep t with
      | [] => [[e]]
      | seg :: segs => (e :: seg) :: segs

/-- The run of the scanner over a text whose value is an array or object, after the byte that
opens it. -/
def topBody (data : List Nat) : List (Nat × ScanCode × Nat) :=
  ((scanRun Scanner.reset data).1.dropWhile fun e => decide (e.2.2 = 0)).tail

/-- The texts of the elements of a well-formed JSON array: the parts between the commas of the
top level, without the space around them; none for an empty array. -/
def arrayElements (data : List Nat) : List (List Nat) :=
  let elems := (splitTop ScanCode.scanArrayValue (topBody data)).map fun seg =>
    trimSpace (seg.map fun e => e.1)
  if elems = [[]] then [] else elems

/-- The members of a well-formed JSON object: for each part between the commas of the top
level, the text of the key (before the colon of depth 1) and the text of the value. -/
def objectMembers (data : List Nat) : List (List Nat × List Nat) :=
  let isColon := fun e : Nat × ScanCode × Nat =>
    decide (e.2.1 = ScanCode.scanObjectKey ∧ e.2.2 = 1)
  let members := (splitTop ScanCode.scanObjectValue (topBody data)).map fun seg =>
    (trimSpace ((seg.takeWhile fun e => !isColon e).map fun e => e.1),
     trimSpace (((seg.dropWhile fun e => !isColon e).tail).map fun e => e.1))
  if members = [([], [])] then [] else members

/-- The error of `json.Unmarshal` for a text that is not well-formed, by a message for its
kind (`*json.SyntaxError`). -/
def errJsonSyntax : GoError := "json: syntax error"

/-- The error of `json.Unmarshal` for a value that does not fit the Go type it is stored in, by
a message for its kind (`*json.UnmarshalTypeError`). -/
def errJsonType : GoError := "json: cannot unmarshal value into Go value"

/-- Modelled from the Go standard library: `json.Unmarshal(data, &rm)` for
`rm []json.RawMessage`. A well-formed array gives the texts of its elements; "the JSON null
value unmarshals into an interface, map, pointer, or slice by setting that Go value to nil";
any other value is an `UnmarshalTypeError`. -/
def jsonUnmarshalRawSlice (data : List Nat) : Except GoError (List (List Nat)) :=
  if checkValid data = false then Except.error errJsonSyntax
  else
    match (trimSpace data).head? with
    | some 91 => Except.ok (arrayElements data)
    | some 110 => Except.ok []
    | _ => Except.error errJsonType

/-- The assignment `m[k] = v` of a Go map given by its entries. -/
def mapAssign {ν : Type} (m : List (List Nat × ν)) (k : List Nat) (v : ν) :
    List (List Nat × ν) :=
  if m.any (fun e => decide (e.1 = k)) then m.map fun e => if e.1 = k then (k, v) else e
  else m ++ [(k, v)]

/-- Modelled from the Go standard library: `json.Unmarshal(data, &rm)` for
`rm map[string]json.RawMessage`. A well-formed object gives, for each key, the text of the
value of its last member with that key; null gives the nil map; any other value is an
`UnmarshalTypeError`. `unquote` is the library's decoding of a string literal. -/
def jsonUnmarshalRawMap (unquote : List Nat → List Nat) (data : List Nat) :
    Except GoError (List (List Nat × List Nat)) :=
  if checkValid data = false then Except.error errJsonSyntax
  else
    match (trimSpace data).head? with
    | some 123 =>
      Except.ok ((objectMembers data).foldl (fun m e => mapAssign m (unquote e.1) e.2) [])
    | some 110 => Except.ok []
    | _ => Except.error errJsonType

/-- The mantissa and the decimal exponent of a JSON number literal: the number is
`m * 10 ^ e`, with `m` the digits without the point and `e` the written exponent lowered by
the number of digits after the point. -/
def numberParts (lit : List Nat) : Int × Int :=
  let mant := match indexAnyEe lit with
    | some i => lit.take i
    | none => lit
  let exp : Int := match indexAnyEe lit with
    | some i => (bigSetString (lit.drop (i + 1))).getD 0
    | none => 0
  match splitPoint mant with
  | [p0, p1] => ((bigSetString (p0 ++ p1)).getD 0, exp - p1.length)
  | _ => ((bigSetString mant).getD 0, exp)

/-- The least magnitude that `strconv.ParseFloat(_, 64)` does not round to a finite
`float64`: the largest `float64` is `2 ^ 1024 - 2 ^ 971`, and half a unit of its last place is
`2 ^ 970`. -/
def float64Limit : Nat := 2 ^ 1024 - 2 ^ 970

/-- The number `m * 10 ^ e` has a magnitude of at least `float64Limit`. -/
def floatRangeTest (m e : Int) : Bool :=
  if 0 ≤ e then decide (float64Limit ≤ m.natAbs * 10 ^ e.toNat)
  else decide (float64Limit * 10 ^ (-e).toNat ≤ m.natAbs)

/-- Modelled from the Go standard library: the error test of `strconv.ParseFloat(s, 64)` on a
number literal: "if s is syntactically well-formed but is more than 1/2 ULP away from the
largest floating point number of the given size, ParseFloat returns f = ±Inf, err.Err =
ErrRange". -/
def floatOutOfRange (lit : List Nat) : Bool :=
  floatRangeTest (numberParts lit).1 (numberParts lit).2

/-- The dynamic values `json.Unmarshal` stores in an `interface{}`: "bool, for JSON booleans;
float64, for JSON numbers; string, for JSON strings; []interface{}, for JSON arrays;
map[string]interface{}, for JSON objects; nil for JSON null". A `float64` is given by a number
literal it is the nearest `float64` of; the contents of an array or object are not kept. -/
inductive JsonAny
  | string (w : List Nat)
  | bool (w : Bool)
  | float64 (lit : List Nat)
  | array
  | object
  | null
  deriving DecidableEq, Repr

/-- Modelled from the Go standard library: the `float64` that `json.Unmarshal` stores for a
number literal, converted by `strconv.ParseFloat`, whose range error is an
`UnmarshalTypeError`. -/
def jsonNumber (lit : List Nat) : Except GoError JsonAny :=
  if floatOutOfRange lit then Except.error errJsonType else Except.ok (JsonAny.float64 lit)

/-- Modelled from the Go standard library: the value `json.Unmarshal` stores in an
`interface{}` for a well-formed text without space around it, told by its first byte.
`unquote` is the library's decoding of a string literal. -/
def jsonValue (unquote : List Nat → List Nat) (lit : List Nat) : Except GoError JsonAny :=
  match lit.head? with
  | some 34 => Except.ok (JsonAny.string (unquote lit))
  | some 116 => Except.ok (JsonAny.bool true)
  | some 102 => Except.ok (JsonAny.bool false)
  | some 110 => Except.ok JsonAny.null
  | some 91 => Except.ok JsonAny.array
  | some 123 => Except.ok JsonAny.object
  | _ => jsonNumber lit

/-- Modelled from the Go standard library: `json.Unmarshal(data, &rwi)` for
`rwi interface{}`: a text that is not well-formed is a `SyntaxError`. -/
def jsonUnmarshalInterface (unquote : List Nat → List Nat) (data : List Nat) :
    Except GoError JsonAny :=
  if checkValid data = false then Except.error errJsonSyntax
  else jsonValue unquote (trimSpace data)

/-- Method `Decimal` of `VMString`; `panic(err)` is the error `Err.panic`. -/
def VMString.Decimal (x : VMString) : Except Err VMDecimal :=
  match decimalNewFromString x with
  | Except.error err => Except.error (Err.panic err)
  | Except.ok d => Except.ok d

/-- Method `Bool` of `VMString`: the error of `ParseVMBool` is dropped. -/
def VMString.Bool (env : StringEnv) (x : VMString) : Bool := env.parseVMBool x

/-- The loop of `VMSliceFromJson` over the element texts `rm`, with `conv` for the call of
`VMValuerFromJSON`: the slice has the length of `rm`; every element is the converted value of
its text, up to the first element whose conversion returns an error, which ends the loop with
that error and leaves the elements after it nil. -/
def sliceFill (conv : List Nat → Except Err (VMValuer × Option GoError)) :
    List (List Nat) → Except Err (List VMValuer × Option GoError)
  | [] => Except.ok ([], none)
  | raw :: rm =>
    match conv raw with
    | Except.error e => Except.error e
    | Except.ok (v, some err) => Except.ok (v :: List.replicate rm.length VMValuer.nil, some err)
    | Except.ok (v, none) =>
      match sliceFill conv rm with
      | Except.error e => Except.error e
      | Except.ok (vs, err) => Except.ok (v :: vs, err)

/-- The body of `VMSliceFromJson`, with `conv` for the call of `VMValuerFromJSON`. -/
def sliceFromJson (conv : List Nat → Except Err (VMValuer × Option GoError)) (x : List Nat) :
    Except Err (List VMValuer × Option GoError) :=
  match jsonUnmarshalRawSlice x with
  | Except.error err => Except.ok ([], some err)
  | Except.ok rm => sliceFill conv rm

/-- The loop of `VMStringMapFromJson` over the members `rm`, with `conv` for the call of
`VMValuerFromJSON`. The order of a `range` over a Go map is not specified; the model takes the
order of the entries. The loop ends at the first member whose conversion returns an error. -/
def mapFill (conv : List Nat → Except Err (VMValuer × Option GoError)) :
    List (List Nat × List Nat) → Except Err (List (List Nat × VMValuer) × Option GoError)
  | [] => Except.ok ([], none)
  | (i, raw) :: rm =>
    match conv raw with
    | Except.error e => Except.error e
    | Except.ok (v, some err) => Except.ok ([(i, v)], some err)
    | Except.ok (v, none) =>
      match mapFill conv rm with
      | Except.error e => Except.error e
      | Except.ok (vs, err) => Except.ok ((i, v) :: vs, err)

/-- The body of `VMStringMapFromJson`, with `conv` for the call of `VMValuerFromJSON`. -/
def stringMapFromJson (unquote : List Nat → List Nat)
    (conv : List Nat → Except Err (VMValuer × Option GoError)) (x : List Nat) :
    Except Err (List (List Nat × VMValuer) × Option GoError) :=
  match jsonUnmarshalRawMap unquote x with
  | Except.error err => Except.ok ([], some err)
  | Except.ok rm => mapFill conv rm

/-- The function `VMValuerFromJSON`, with the fuel that bounds the nesting of its calls through
`VMSliceFromJson` and `VMStringMapFromJson`: the value and the error it returns. -/
def VMValuerFromJSONFuel (env : StringEnv) :
    Nat → List Nat → Except Err (VMValuer × Option GoError)
  | 0, _ => Except.error Err.fuel
  | fuel + 1, s =>
    let r := if (utf8 "0x").isPrefixOf s then ParseInt (s.drop 2) 16 64 else ParseInt s 10 64
    if r.2 = none then Except.ok (VMValuer.VMInt r.1, none)
    else
      match decimalNewFromString s with
      | Except.ok d => Except.ok (VMValuer.VMDecimal d, none)
      | Except.error _ =>
        match jsonUnmarshalInterface env.unquote s with
        | Except.error err => Except.ok (VMValuer.nil, some err)
        | Except.ok (JsonAny.string w) => Except.ok (VMValuer.VMString w, none)
        | Except.ok (JsonAny.bool w) => Except.ok (VMValuer.VMBool w, none)
        | Except.ok (JsonAny.float64 w) =>
          Except.ok (VMValuer.VMDecimal (env.newFromFloat w), none)
        | Except.ok JsonAny.array =>
          (sliceFromJson (VMValuerFromJSONFuel env fuel) s).map fun r =>
            (VMValuer.VMSlice r.1, r.2)
        | Except.ok JsonAny.object =>
          (stringMapFromJson env.unquote (VMValuerFromJSONFuel env fuel) s).map fun r =>
            (VMValuer.VMStringMap r.1, r.2)
        | Except.ok JsonAny.null =>
          Except.ok (VMValuer.VMNil, some "Невозможно определить значение")

/-- The function `VMValuerFromJSON`: a call nests less deep than its text is long. -/
def VMValuerFromJSON (env : StringEnv) (s : List Nat) :
    Except Err (VMValuer × Option GoError) :=
  VMValuerFromJSONFuel env (s.length + 1) s

/-- The function `VMSliceFromJson`: the slice and the error it returns. -/
def VMSliceFromJson (env : StringEnv) (x : List Nat) :
    Except Err (List VMValuer × Option GoError) :=
  sliceFromJson (VMValuerFromJSONFuel env x.length) x

/-- The function `VMStringMapFromJson`: the map and the error it returns. -/
def VMStringMapFromJson (env : StringEnv) (x : List Nat) :
    Except Err (List (List Nat × VMValuer) × Option GoError) :=
  stringMapFromJson env.unquote (VMValuerFromJSONFuel env x.length) x

/-- Method `ConvertToType` of `VMString`: a panic, or the value and the error it returns. -/
def VMString.ConvertToType (env : StringEnv) (x : VMString) (nt : ReflectType) :
    Except Err (VMValuer × Option GoError) :=
  match nt with
  | ReflectType.ReflectVMString => Except.ok (VMValuer.VMString x, none)
  | ReflectType.ReflectVMInt => (VMString.Int x).map fun i => (VMValuer.VMInt i, none)
  | ReflectType.ReflectVMTime => (VMString.Time env x).map fun t => (VMValuer.VMTime t, none)
  | ReflectType.ReflectVMBool => Except.ok (VMValuer.VMBool (VMString.Bool env x), none)
  | ReflectType.ReflectVMDecimal =>
    (VMString.Decimal x).map fun d => (VMValuer.VMDecimal d, none)
  | ReflectType.ReflectVMSlice =>
    (VMSliceFromJson env x).map fun r => (VMValuer.VMSlice r.1, r.2)
  | ReflectType.ReflectVMStringMap =>
    (VMStringMapFromJson env x).map fun r => (VMValuer.VMStringMap r.1, r.2)
  | ReflectType.other isStruct name =>
    -- попробуем десериализировать структуру из json
    if isStruct then
      match env.unmarshalStruct name x with
      | Except.error err => Except.ok (VMValuer.VMNil, some err)
      | Except.ok (some rv) => Except.ok (rv, none)
      | Except.ok none => Except.ok (VMValuer.VMNil, some "Объект несовместим с типами интерпретатора")
    else Except.ok (VMValuer.VMNil, some errConversion)

/-- An environment for the examples: no layout parses, every text is the Bool false, string
literals lose their two quotes, and no struct type is known. -/
def sampleStringEnv : StringEnv :=
  { timeParse := fun _ _ => none, timeParseInLocal := fun _ _ => none,
    parseVMBool := fun _ => false, unquote := fun s => (s.drop 1).dropLast,
    newFromFloat := fun _ => ⟨0, 0⟩, unmarshalStruct := fun _ _ => Except.error errJsonSyntax }

/-- The accessor results `TimeEnv.civil` gives in the examples: those of 9 March 2024. -/
def sampleEnv : TimeEnv :=
  { civil := fun _ => t20240309, otherDuration := fun _ => none, otherTime := fun _ => none,
    strings := sampleStringEnv }

/-- The text `x` is a JSON array whose elements have the texts `elems`, in this order. -/
def IsJsonArray (x : List Nat) (elems : List (List Nat)) : Prop :=
  checkValid x = true ∧ (trimSpace x).head? = some 91 ∧ arrayElements x = elems

/-- The text `x` is the JSON value null. -/
def IsJsonNull (x : List Nat) : Prop :=
  checkValid x = true ∧ (trimSpace x).head? = some 110

/-- The number the decimal digits `ds` (bytes "0" … "9", the most significant first) write. -/
def digitsNat (ds : List Nat) : Nat := Nat.ofDigits 10 (ds.reverse.map fun c => c - 48)

/-- A JSON number literal, by its parts: an optional minus sign, the digits before the point,
the digits after the point (none when there is no fraction part), and an optional exponent
part: the letter "e" or "E", an optional sign and digits. -/
structure NumberLiteral where
  neg : Bool
  int : List Nat
  frac : List Nat
  hasExp : Bool
  expLetter : Nat
  expSign : List Nat
  expDigits : List Nat
  deriving DecidableEq, Repr

/-- The grammar of a JSON number: the integer part is "0" or starts with a digit other than
"0"; a fraction or exponent part has at least one digit. -/
def NumberLiteral.wf (n : NumberLiteral) : Prop :=
  n.int ≠ [] ∧ (∀ c ∈ n.int, 48 ≤ c ∧ c ≤ 57) ∧ (n.int = [48] ∨ n.int.head? ≠ some 48) ∧
  (∀ c ∈ n.frac, 48 ≤ c ∧ c ≤ 57) ∧
  (n.hasExp = true → (n.expLetter = 101 ∨ n.expLetter = 69) ∧
    (n.expSign = [] ∨ n.expSign = [43] ∨ n.expSign = [45]) ∧
    n.expDigits ≠ [] ∧ ∀ c ∈ n.expDigits, 48 ≤ c ∧ c ≤ 57)

instance (n : NumberLiteral) : Decidable n.wf := by unfold NumberLiteral.wf; infer_instance

/-- The text of a number literal. -/
def NumberLiteral.text (n : NumberLiteral) : List Nat :=
  (if n.neg then [45] else []) ++ n.int ++ (if n.frac = [] then [] else 46 :: n.frac) ++
  (if n.hasExp then n.expLetter :: (n.expSign ++ n.expDigits) else [])

/-- The literal is an integer numeral: no fraction part and no exponent part. -/
def NumberLiteral.isInteger (n : NumberLiteral) : Prop := n.frac = [] ∧ n.hasExp = false

instance (n : NumberLiteral) : Decidable n.isInteger := by
  unfold NumberLiteral.isInteger; infer_instance

/-- The written exponent of a number literal, 0 when there is none. -/
def NumberLiteral.exponent (n : NumberLiteral) : Int :=
  if n.hasExp then
    (if n.expSign = [45] then -(digitsNat n.expDigits : Int) else (digitsNat n.expDigits : Int))
  else 0

/-- The value of the digits of a number literal before its point, with the sign. -/
def NumberLiteral.intValue (n : NumberLiteral) : Int :=
  if n.neg then -(digitsNat n.int : Int) else (digitsNat n.int : Int)

/-- The number a JSON number literal writes. -/
def NumberLiteral.value (n : NumberLiteral) : ℚ :=
  (if n.neg then -1 else 1) * ((digitsNat (n.int ++ n.frac) : ℚ) / (10 : ℚ) ^ n.frac.length) *
    (10 : ℚ) ^ n.exponent

/-- The number literal "1e2147483648", whose exponent does not fit an `int32`. -/
def hugeExponentLiteral : NumberLiteral :=
  { neg := false, int := utf8 "1", frac := [], hasExp := true, expLetter := 101, expSign := [],
    expDigits := utf8 "2147483648" }

/-- The number literal "-12.50e-3". -/
def sampleLiteral : NumberLiteral :=
  { neg := true, int := utf8 "12", frac := utf8 "50", hasExp := true, expLetter := 101,
    expSign := [45], expDigits := utf8 "3" }

/-! ### A reader of duration texts

The text of a duration can be read back; the statements use this to show that the text
determines the duration. -/

/-- The number written by the decimal digits at the head of a text, continuing the number
`acc`, and the text after them. -/
def readNat : Nat → List Nat → Nat × List Nat
  | acc, [] => (acc, [])
  | acc, c :: cs =>
    if 48 ≤ c ∧ c ≤ 57 then readNat (acc * 10 + (c - 48)) cs else (acc, c :: cs)

/-- The digits at the head of a text: the number they write after `acc`, their count added to
`k`, and the text after them. -/
def readDigits : Nat → Nat → List Nat → Nat × Nat × List Nat
  | acc, k, [] => (acc, k, [])
  | acc, k, c :: cs =>
    if 48 ≤ c ∧ c ≤ 57 then readDigits (acc * 10 + (c - 48)) (k + 1) cs else (acc, k, c :: cs)

/-- The fraction part at the head of a text, a point and digits: the number the digits
write, their count, and the text after them; no digits when there is no point. -/
def readFrac : List Nat → Nat × Nat × List Nat
  | 46 :: cs => readDigits 0 0 cs
  | s => (0, 0, s)

/-- The value of a fraction part in units of `10 ^ -prec`. -/
def fracUnits (prec : Nat) (f : Nat × Nat × List Nat) : Nat := f.1 * 10 ^ (prec - f.2.1)

/-- The first part of a duration text without sign: its nanoseconds, and the text after it
when the text goes on. A number with its fraction and the unit "нс", "мкс", "мс" or "с" ends the
text; a number with the unit "д", "ч" or "м" is followed by the rest of the text. -/
def readPart (s : List Nat) : Option (Nat × Option (List Nat)) :=
  let a := readNat 0 s
  let f := readFrac a.2
  match f.2.2 with
  | [208, 189, 209, 129] => some (a.1, none)
  | [208, 188, 208, 186, 209, 129] => some (a.1 * VMMicrosecond + fracUnits 3 f, none)
  | [208, 188, 209, 129] => some (a.1 * VMMillisecond + fracUnits 6 f, none)
  | [209, 129] => some (a.1 * VMSecond + fracUnits 9 f, none)
  | 208 :: 180 :: r => some (a.1 * VMDay, some r)
  | 209 :: 135 :: r => some (a.1 * VMHour, some r)
  | 208 :: 188 :: r => some (a.1 * VMMinute, some r)
  | _ => none

/-- The nanoseconds a duration text without sign writes, added to `acc`: the sum of its
parts. The fuel bounds the number of parts. -/
def readDuration : Nat → Nat → List Nat → Option Nat
  | 0, _, _ => none
  | fuel + 1, acc, s =>
    match readPart s with
    | some (x, none) => some (acc + x)
    | some (x, some r) => readDuration fuel (acc + x) r
    | none => none

/-- The nanoseconds a duration text writes, with its sign. -/
def readSigned : List Nat → Option Int
  | 45 :: s => (readDuration 4 0 s).map fun n : Nat => -(n : Int)
  | s => (readDuration 4 0 s).map fun n : Nat => (n : Int)

/-! ## Statements -/

theorem callInt_month (t : VMTime) : callInt t.«Месяц» = t.month := rfl

theorem callInt_year (t : VMTime) : callInt t.«Год» = t.year := rfl

theorem pad2_eq (n : Nat) (h : n < 100) : pad2 (n : Int) = (twoDigits n).toList := by
  interval_cases n <;> rfl

theorem index_months2 (m : Nat) (h1 : 1 ≤ m) (h2 : m ≤ 12) :
    index months2 (m : Int) = Except.ok (monthGenitive m).toList := by
  interval_cases m <;> rfl

theorem index_months1 (m : Nat) (h1 : 1 ≤ m) (h2 : m ≤ 12) :
    index months1 (m : Int) = Except.ok (monthNominative m).toList := by
  interval_cases m <;> rfl

/-- C1: `Формат("дд ММММ гггг")` is the two-digit day, a space, the genitive month name, a
space and the decimal year; on 2024-03-09 it is `09 марта 2024`. -/
theorem C1_format_day_month_year (t : VMTime) (h : t.wf) :
    t.«Формат» "дд ММММ гггг"
        = Except.ok (twoDigits t.day ++ " " ++ monthGenitive t.month ++ " " ++ Itoa t.year) ∧
      t20240309.«Формат» "дд ММММ гггг" = Except.ok "09 марта 2024" := by
  refine ⟨?_, by rfl⟩
  obtain ⟨hm1, hm2, hd1, hd2, -⟩ := h
  have hp : "дд ММММ гггг".toList
      = ['д', 'д', ' ', 'М', 'М', 'М', 'М', ' ', 'г', 'г', 'г', 'г'] := rfl
  simp only [VMTime.«Формат», hp, List.length_cons, List.length_nil]
  simp [formatLoop, formatStep, callInt_month, callInt_year, index_months2 t.month hm1 hm2,
    pad2_eq t.day (by omega), Except.map, String.ext_iff]

theorem C1_format_day_month_year_witness :
    t20240309.wf ∧
      (t20240309.«Формат» "дд ММММ гггг"
          = Except.ok (twoDigits t20240309.day ++ " " ++ monthGenitive t20240309.month ++ " "
              ++ Itoa t20240309.year) ∧
        t20240309.«Формат» "дд ММММ гггг" = Except.ok "09 марта 2024") :=
  ⟨by decide, C1_format_day_month_year t20240309 (by decide)⟩

/-- C3: the short weekday token reads `dayssm` at the index `ДеньНедели` yields (1 … 7) while
the table starts at index 0: a Monday is rendered `вт`, a Saturday `вс`, and a Sunday indexes
past the end of the table. -/
theorem C3_short_weekday_shifted :
    t20240311.«Формат» "ддд" = Except.ok "вт" ∧ t20240311.«Формат» "ddd" = Except.ok "вт" ∧
      t20240309.«Формат» "ддд" = Except.ok "вс" ∧
      t20240310.«Формат» "ддд" = Except.error Err.indexOutOfRange ∧
      t20240310.«Формат» "ddd" = Except.error Err.indexOutOfRange := by
  refine ⟨by rfl, by rfl, by rfl, by rfl, by rfl⟩

/-- C4: `Квартал` divides the month number by four: July is put in quarter 2 (and August to
November in quarter 3), also through the `К` and `Q` tokens of `Формат`. -/
theorem C4_quarter_of_july :
    t20240715.«Квартал» = 2 ∧ t20240715.«Формат» "К" = Except.ok "2" ∧
      t20240715.«Формат» "Q" = Except.ok "2" := by
  refine ⟨by rfl, by rfl, by rfl⟩

theorem pad3_eq (n : Nat) (h : n < 1000) : pad3 (n : Int) = (threeDigits n).toList := by
  interval_cases n <;> rfl

theorem millis_eq (t : VMTime) :
    t.«Миллисекунда» = ((t.nanosecond / 1000000 : Nat) : Int) := by
  simp [VMTime.«Миллисекунда»]

/-- C5: for a time with a non-negative year the two-letter tokens give exactly the two
decimal digits of the day, month, year modulo 100, hour, minute and second, and `ссс` the
three decimal digits of the millisecond. -/
theorem C5_padded_tokens (t : VMTime) (h : t.wf) (hy : 0 ≤ t.year) :
    t.«Формат» "дд" = Except.ok (twoDigits t.day) ∧
      t.«Формат» "dd" = Except.ok (twoDigits t.day) ∧
      t.«Формат» "ММ" = Except.ok (twoDigits t.month) ∧
      t.«Формат» "MM" = Except.ok (twoDigits t.month) ∧
      t.«Формат» "гг" = Except.ok (twoDigits (t.year % 100).toNat) ∧
      t.«Формат» "yy" = Except.ok (twoDigits (t.year % 100).toNat) ∧
      t.«Формат» "чч" = Except.ok (twoDigits t.hour) ∧
      t.«Формат» "hh" = Except.ok (twoDigits t.hour) ∧
      t.«Формат» "мм" = Except.ok (twoDigits t.minute) ∧
      t.«Формат» "mm" = Except.ok (twoDigits t.minute) ∧
      t.«Формат» "сс" = Except.ok (twoDigits t.second) ∧
      t.«Формат» "ss" = Except.ok (twoDigits t.second) ∧
      t.«Формат» "ссс" = Except.ok (threeDigits (t.nanosecond / 1000000)) ∧
      t.«Формат» "sss" = Except.ok (threeDigits (t.nanosecond / 1000000)) := by
  obtain ⟨hm1, hm2, hd1, hd2, hh, hmi, hs, hn, -⟩ := h
  have hyy : Int.tmod t.year 100 = (((t.year % 100).toNat : Nat) : Int) := by
    rw [Int.tmod_eq_emod hy (by norm_num)]; omega
  refine ⟨?_, ?_, ?_, ?_, ?_, ?_, ?_, ?_, ?_, ?_, ?_, ?_, ?_, ?_⟩
  · have hp : "дд".toList = ['д', 'д'] := rfl
    simp only [VMTime.«Формат», hp, List.length_cons, List.length_nil]
    simp [formatLoop, formatStep, Except.map, String.ext_iff]
    rw [pad2_eq _ (by omega)]; rfl
  · have hp : "dd".toList = ['d', 'd'] := rfl
    simp only [VMTime.«Формат», hp, List.length_cons, List.length_nil]
    simp [formatLoop, formatStep, Except.map, String.ext_iff]
    rw [pad2_eq _ (by omega)]; rfl
  · have hp : "ММ".toList = ['М', 'М'] := rfl
    simp only [VMTime.«Формат», hp, List.length_cons, List.length_nil]
    simp [formatLoop, formatStep, Except.map, String.ext_iff]
    rw [pad2_eq _ (by omega)]; rfl
  · have hp : "MM".toList = ['M', 'M'] := rfl
    simp only [VMTime.«Формат», hp, List.length_cons, List.length_nil]
    simp [formatLoop, formatStep, Except.map, String.ext_iff]
    rw [pad2_eq _ (by omega)]; rfl
  · have hp : "гг".toList = ['г', 'г'] := rfl
    simp only [VMTime.«Формат», hp, List.length_cons, List.length_nil]
    simp [formatLoop, formatStep, Except.map, String.ext_iff]
    rw [hyy, pad2_eq _ (by omega)]; rfl
  · have hp : "yy".toList = ['y', 'y'] := rfl
    simp only [VMTime.«Формат», hp, List.length_cons, List.length_nil]
    simp [formatLoop, formatStep, Except.map, String.ext_iff]
    rw [hyy, pad2_eq _ (by omega)]; rfl
  · have hp : "чч".toList = ['ч', 'ч'] := rfl
    simp only [VMTime.«Формат», hp, List.length_cons, List.length_nil]
    simp [formatLoop, formatStep, Except.map, String.ext_iff]
    rw [pad2_eq _ (by omega)]; rfl
  · have hp : "hh".toList = ['h', 'h'] := rfl
    simp only [VMTime.«Формат», hp, List.length_cons, List.length_nil]
    simp [formatLoop, formatStep, Except.map, String.ext_iff]
    rw [pad2_eq _ (by omega)]; rfl
  · have hp : "мм".toList = ['м', 'м'] := rfl
    simp only [VMTime.«Формат», hp, List.length_cons, List.length_nil]
    simp [formatLoop, formatStep, Except.map, String.ext_iff]
    rw [pad2_eq _ (by omega)]; rfl
  · have hp : "mm".toList = ['m', 'm'] := rfl
    simp only [VMTime.«Формат», hp, List.length_cons, List.length_nil]
    simp [formatLoop, formatStep, Except.map, String.ext_iff]
    rw [pad2_eq _ (by omega)]; rfl
  · have hp : "сс".toList = ['с', 'с'] := rfl
    simp only [VMTime.«Формат», hp, List.length_cons, List.length_nil]
    simp [formatLoop, formatStep, Except.map, String.ext_iff]
    rw [pad2_eq _ (by omega)]; rfl
  · have hp : "ss".toList = ['s', 's'] := rfl
    simp only [VMTime.«Формат», hp, List.length_cons, List.length_nil]
    simp [formatLoop, formatStep, Except.map, String.ext_iff]
    rw [pad2_eq _ (by omega)]; rfl
  · have hp : "ссс".toList = ['с', 'с', 'с'] := rfl
    simp only [VMTime.«Формат», hp, List.length_cons, List.length_nil]
    simp [formatLoop, formatStep, Except.map, String.ext_iff]
    rw [millis_eq, pad3_eq _ (by omega)]; rfl
  · have hp : "sss".toList = ['s', 's', 's'] := rfl
    simp only [VMTime.«Формат», hp, List.length_cons, List.length_nil]
    simp [formatLoop, formatStep, Except.map, String.ext_iff]
    rw [millis_eq, pad3_eq _ (by omega)]; rfl

theorem C5_padded_tokens_witness :
    t20240309.wf ∧ 0 ≤ t20240309.year ∧ t20240309.«Формат» "дд" = Except.ok "09" ∧
      t20240309.«Формат» "гг" = Except.ok "24" ∧ t20240309.«Формат» "ссс" = Except.ok "000" := by
  have h := C5_padded_tokens t20240309 (by decide) (by decide)
  exact ⟨by decide, by decide, h.1, h.2.2.2.2.1, h.2.2.2.2.2.2.2.2.2.2.2.2.1⟩

/-- The names `MethodMember` resolves are the five of its `switch`. -/
theorem MethodMember_true_iff (gl : Int → String) (t : VMTime) (id : Int) :
    (t.MethodMember gl id).2 = true ↔
      gl id ∈ ["год", "месяц", "день", "неделя", "деньнедели"] := by
  unfold VMTime.MethodMember
  simp only [List.mem_cons, List.mem_singleton, List.not_mem_nil, or_false]
  split_ifs <;> simp_all

/-- C7: `MethodMember` resolves only the five names of its `switch`; the name `квартал`, one
of the thirteen, yields `(nil, false)` while `год` resolves. -/
theorem C7_method_member_quarter_missing :
    lowerNames 1 = "квартал" ∧ t20240309.MethodMember lowerNames 1 = (none, false) ∧
      (t20240309.MethodMember lowerNames 2).2 = true := by
  refine ⟨by rfl, by rfl, by rfl⟩

/-- C8: `Неделя` appends exactly two values after the elements already in `rets`, the ISO
week (1 … 53) and then the ISO year, and returns no error. -/
theorem C8_week_appends_week_then_year (t : VMTime) (h : t.wf) (args rets : VMSlice) :
    t.«Неделя» args rets
        = (rets ++ [VMValuer.VMInt t.isoWeek, VMValuer.VMInt t.isoYear], none) ∧
      1 ≤ t.isoWeek ∧ t.isoWeek ≤ 53 := by
  obtain ⟨-, -, -, -, -, -, -, -, -, hw1, hw2⟩ := h
  refine ⟨?_, hw1, hw2⟩
  simp [VMTime.«Неделя», VMSlice.Append]

theorem C8_week_appends_week_then_year_witness :
    t20240309.wf ∧
      (t20240309.«Неделя» [] [VMValuer.VMNil]
          = ([VMValuer.VMNil] ++ [VMValuer.VMInt t20240309.isoWeek,
              VMValuer.VMInt t20240309.isoYear], none) ∧
        1 ≤ t20240309.isoWeek ∧ t20240309.isoWeek ≤ 53) :=
  ⟨by decide, C8_week_appends_week_then_year t20240309 (by decide) [] [VMValuer.VMNil]⟩

/-- C9: `ДеньНедели` appends exactly one Integer, the ISO number of the weekday (1 for Monday
… 7 for Sunday), which lies in 1 … 7, and returns no error. -/
theorem C9_weekday_one_to_seven (t : VMTime) (h : t.wf) (args rets : VMSlice) :
    t.«ДеньНедели» args rets = (rets ++ [VMValuer.VMInt (isoWeekday t.weekday)], none) ∧
      1 ≤ isoWeekday t.weekday ∧ isoWeekday t.weekday ≤ 7 ∧
      (t.weekday = 1 → isoWeekday t.weekday = 1) ∧ (t.weekday = 6 → isoWeekday t.weekday = 6) ∧
      (t.weekday = 0 → isoWeekday t.weekday = 7) := by
  obtain ⟨-, -, -, -, -, -, -, -, hwd, -⟩ := h
  have hw : t.weekday ≤ 6 := hwd
  refine ⟨?_, ?_, ?_, ?_, ?_, ?_⟩
  · unfold VMTime.«ДеньНедели» isoWeekday VMSlice.Append
    generalize t.weekday = w at hw
    interval_cases w <;> rfl
  all_goals (unfold isoWeekday; omega)

theorem C9_weekday_one_to_seven_witness :
    t20240310.wf ∧ t20240310.«ДеньНедели» [] [] = ([VMValuer.VMInt 7], none) := by
  have h := C9_weekday_one_to_seven t20240310 (by decide) [] []
  exact ⟨by decide, h.1⟩

theorem ite_app {α β : Type} (f : β → α) (c : Prop) [Decidable c] {a b : α} {x y : β}
    (h1 : a = f x) (h2 : b = f y) : (if c then a else b) = f (if c then x else y) := by
  split <;> assumption

theorem formatStep_eq (t : VMTime) (wasday : Bool) (src : List Char) :
    formatStep t wasday src = render t wasday (classify src) := by
  unfold formatStep classify
  refine ite_app _ _ rfl (ite_app _ _ rfl (ite_app _ _ rfl (ite_app _ _ rfl (ite_app _ _ rfl
    (ite_app _ _ rfl (ite_app _ _ rfl (ite_app _ _ rfl (ite_app _ _ rfl (ite_app _ _ rfl
    (ite_app _ _ rfl (ite_app _ _ rfl ?_)))))))))))
  cases src with
  | nil => rfl
  | cons c cs =>
    exact ite_app _ _ rfl (ite_app _ _ rfl (ite_app _ _ rfl (ite_app _ _ rfl (ite_app _ _ rfl
      (ite_app _ _ rfl (ite_app _ _ rfl rfl))))))

theorem prefix_iff_take (A src : List Char) :
    A <+: src ↔ A.length ≤ src.length ∧ src.take A.length = A := by
  constructor
  · intro h
    exact ⟨h.length_le, (List.prefix_iff_eq_take.mp h).symm⟩
  · rintro ⟨-, h⟩
    rw [← h]
    exact List.take_prefix _ _

theorem firstMatch_pair (n : Nat) (A B src : List Char) (tok R : Tok)
    (L : List (List Char × Tok)) (fb : Tok) (hA : A.length = n) (hB : B.length = n)
    (hR : R = ((firstMatch L src).map Prod.snd).getD fb) :
    (if n ≤ src.length ∧ (src.take n = A ∨ src.take n = B) then tok else R)
      = ((firstMatch ((A, tok) :: (B, tok) :: L) src).map Prod.snd).getD fb := by
  have hA' := prefix_iff_take A src
  have hB' := prefix_iff_take B src
  rw [hA] at hA'
  rw [hB] at hB'
  unfold firstMatch at *
  rw [List.find?_cons, List.find?_cons]
  by_cases h1 : A <+: src
  · have : A.isPrefixOf src = true := List.isPrefixOf_iff_prefix.mpr h1
    simp only [this]
    rw [if_pos ⟨(hA'.mp h1).1, Or.inl (hA'.mp h1).2⟩]
    rfl
  · have e1 : A.isPrefixOf src = false := by
      rw [Bool.eq_false_iff]; exact fun h => h1 (List.isPrefixOf_iff_prefix.mp h)
    simp only [e1]
    by_cases h2 : B <+: src
    · have : B.isPrefixOf src = true := List.isPrefixOf_iff_prefix.mpr h2
      simp only [this]
      rw [if_pos ⟨(hB'.mp h2).1, Or.inr (hB'.mp h2).2⟩]
      rfl
    · have e2 : B.isPrefixOf src = false := by
        rw [Bool.eq_false_iff]; exact fun h => h2 (List.isPrefixOf_iff_prefix.mp h)
      simp only [e2]
      rw [if_neg, hR]
      rintro ⟨hl, h | h⟩
      · exact h1 (hA'.mpr ⟨hl, h⟩)
      · exact h2 (hB'.mpr ⟨hl, h⟩)

theorem firstMatch_single (a b c : Char) (cs : List Char) (tok R : Tok)
    (L : List (List Char × Tok)) (fb : Tok)
    (hR : R = ((firstMatch L (c :: cs)).map Prod.snd).getD fb) :
    (if c = a ∨ c = b then tok else R)
      = ((firstMatch (([a], tok) :: ([b], tok) :: L) (c :: cs)).map Prod.snd).getD fb := by
  rw [← firstMatch_pair 1 [a] [b] (c :: cs) tok R L fb rfl rfl hR]
  refine if_congr ?_ rfl rfl
  simp [eq_comm]

theorem classify_eq (src : List Char) :
    classify src = ((firstMatch tokenTable src).map Prod.snd).getD (fallback src) := by
  unfold classify tokenTable
  refine firstMatch_pair 4 _ _ _ _ _ _ _ rfl rfl ?_
  refine firstMatch_pair 4 _ _ _ _ _ _ _ rfl rfl ?_
  refine firstMatch_pair 4 _ _ _ _ _ _ _ rfl rfl ?_
  refine firstMatch_pair 3 _ _ _ _ _ _ _ rfl rfl ?_
  refine firstMatch_pair 3 _ _ _ _ _ _ _ rfl rfl ?_
  refine firstMatch_pair 3 _ _ _ _ _ _ _ rfl rfl ?_
  refine firstMatch_pair 2 _ _ _ _ _ _ _ rfl rfl ?_
  refine firstMatch_pair 2 _ _ _ _ _ _ _ rfl rfl ?_
  refine firstMatch_pair 2 _ _ _ _ _ _ _ rfl rfl ?_
  refine firstMatch_pair 2 _ _ _ _ _ _ _ rfl rfl ?_
  refine firstMatch_pair 2 _ _ _ _ _ _ _ rfl rfl ?_
  refine firstMatch_pair 2 _ _ _ _ _ _ _ rfl rfl ?_
  cases src with
  | nil => rfl
  | cons c cs =>
    refine firstMatch_single _ _ _ _ _ _ _ _ ?_
    refine firstMatch_single _ _ _ _ _ _ _ _ ?_
    refine firstMatch_single _ _ _ _ _ _ _ _ ?_
    refine firstMatch_single _ _ _ _ _ _ _ _ ?_
    refine firstMatch_single _ _ _ _ _ _ _ _ ?_
    refine firstMatch_single _ _ _ _ _ _ _ _ ?_
    refine firstMatch_single _ _ _ _ _ _ _ _ ?_
    rfl

set_option maxRecDepth 100000 in
theorem tokenTable_facts :
    ∀ e ∈ tokenTable, e.1 ≠ [] ∧ e.2.len = e.1.length ∧ e.1.all tokenLetter = true ∧
      e.2.isDay = isDayText e.1 ∧ (isMonthText e.1 = true → e.2 = Tok.MMMM) ∧
      e.2 ≠ Tok.eof := by
  decide

theorem firstMatch_some {tbl : List (List Char × Tok)} {src : List Char}
    {e : List Char × Tok} (h : firstMatch tbl src = some e) : e ∈ tbl ∧ e.1 <+: src := by
  unfold firstMatch at h
  exact ⟨List.mem_of_find?_eq_some h, List.isPrefixOf_iff_prefix.mp
    (List.find?_some (p := fun (e : List Char × Tok) => e.1.isPrefixOf src) h)⟩

theorem firstMatch_none {tbl : List (List Char × Tok)} {src : List Char}
    (h : firstMatch tbl src = none) : ∀ e ∈ tbl, ¬ e.1 <+: src := by
  unfold firstMatch at h
  intro e he hp
  exact (List.find?_eq_none.mp h) e he (List.isPrefixOf_iff_prefix.mpr hp)

/-- What the scanner consumes at a non-empty suffix: between one rune and the whole suffix;
the branch is a day-of-month branch exactly when the text consumed is a day-of-month token, and
it is the full month name branch when the text consumed is `ММММ` or `MMMM`. -/
theorem classify_facts (c : Char) (cs : List Char) :
    1 ≤ (classify (c :: cs)).len ∧ (classify (c :: cs)).len ≤ (c :: cs).length ∧
      (classify (c :: cs)).isDay = isDayText ((c :: cs).take (classify (c :: cs)).len) ∧
      (isMonthText ((c :: cs).take (classify (c :: cs)).len) = true →
        classify (c :: cs) = Tok.MMMM) ∧
      classify (c :: cs) ≠ Tok.eof := by
  rw [classify_eq]
  cases h : firstMatch tokenTable (c :: cs) with
  | none =>
    have h1 := firstMatch_none h (['д'], Tok.d) (by decide)
    have h2 := firstMatch_none h (['d'], Tok.d) (by decide)
    simp only [List.cons_prefix_cons, List.nil_prefix, and_true] at h1 h2
    have h1' : c ≠ 'д' := fun e => h1 e.symm
    have h2' : c ≠ 'd' := fun e => h2 e.symm
    simp [fallback, Tok.len, Tok.isDay, isDayText, isMonthText, h1', h2']
  | some e =>
    obtain ⟨hmem, hpre⟩ := firstMatch_some h
    obtain ⟨hne, hlen, -, hday, hmon, heof⟩ := tokenTable_facts e hmem
    obtain ⟨hle, htake⟩ := (prefix_iff_take _ _).mp hpre
    simp only [Option.map_some', Option.getD_some]
    rw [hlen, htake]
    refine ⟨?_, hle, hday, hmon, heof⟩
    cases he : e.1 with
    | nil => exact absurd he hne
    | cons a as => simp

theorem except_map_ok {ε α β : Type} {f : α → β} {x : Except ε α} {y : β}
    (h : Except.map f x = Except.ok y) : ∃ r, x = Except.ok r ∧ f r = y := by
  cases x with
  | error e => simp [Except.map] at h
  | ok r => exact ⟨r, rfl, by simpa [Except.map] using h⟩

theorem render_facts (t : VMTime) (wd : Bool) (tok : Tok) (out : List Char) (k : Nat)
    (wd' : Bool) (h : render t wd tok = Except.ok (out, k, wd')) :
    k = tok.len ∧ wd' = (wd || tok.isDay) := by
  cases tok <;> simp only [render] at h
  all_goals first
    | split at h
    | skip
  all_goals first
    | (obtain ⟨r, -, hr⟩ := except_map_ok h
       simp only [Prod.mk.injEq] at hr
       simp [Tok.len, Tok.isDay, ← hr.2.1, ← hr.2.2])
    | (simp only [Except.ok.injEq, Prod.mk.injEq] at h
       simp [Tok.len, Tok.isDay, ← h.2.1, ← h.2.2])
    | simp at h

/-- One successful iteration consumes between one rune and the whole suffix, sets `wasday`
exactly on a day-of-month token, and renders `ММММ` by the case `wasday` selects. -/
theorem formatStep_facts (t : VMTime) (wd : Bool) (c : Char) (cs out : List Char) (k : Nat)
    (wd' : Bool) (h : formatStep t wd (c :: cs) = Except.ok (out, k, wd')) :
    1 ≤ k ∧ k ≤ (c :: cs).length ∧ wd' = (wd || isDayText ((c :: cs).take k)) ∧
      (isMonthText ((c :: cs).take k) = true → 1 ≤ t.month → t.month ≤ 12 →
        out = if wd then (monthGenitive t.month).toList
          else (monthNominative t.month).toList) := by
  rw [formatStep_eq] at h
  obtain ⟨hk, hwd⟩ := render_facts t wd _ out k wd' h
  obtain ⟨h1, h2, h3, h4, -⟩ := classify_facts c cs
  rw [hk]
  refine ⟨h1, h2, by rw [hwd, h3], ?_⟩
  intro hm hm1 hm2
  rw [h4 hm] at h
  simp only [render, callInt_month, index_months2 _ hm1 hm2, index_months1 _ hm1 hm2] at h
  cases wd <;> simp [Except.map] at h ⊢ <;> exact h.1.symm

theorem length_drop_lt (c : Char) (cs : List Char) (k : Nat) (hk : 1 ≤ k) :
    ((c :: cs).drop k).length ≤ cs.length := by
  simp only [List.length_drop, List.length_cons]
  omega

/-- More fuel than the runes of the suffix changes nothing. -/
theorem formatLoop_fuel (t : VMTime) :
    ∀ (n m : Nat) (src : List Char) (wd : Bool) (res : List Char),
      src.length ≤ n → src.length ≤ m → formatLoop t n src wd res = formatLoop t m src wd res := by
  intro n
  induction n with
  | zero =>
    intro m src wd res hn _
    have : src = [] := List.length_eq_zero.mp (Nat.le_zero.mp hn)
    subst this
    cases m <;> rfl
  | succ n ih =>
    intro m src wd res hn hm
    cases src with
    | nil => cases m <;> rfl
    | cons c cs =>
      cases m with
      | zero => simp at hm
      | succ m =>
        simp only [formatLoop]
        cases hs : formatStep t wd (c :: cs) with
        | error e => rfl
        | ok r =>
          obtain ⟨out, k, wd'⟩ := r
          obtain ⟨hk, -⟩ := formatStep_facts t wd c cs out k wd' hs
          have hl := length_drop_lt c cs k hk
          simp only [List.length_cons] at hn hm
          exact ih m _ _ _ (by omega) (by omega)

theorem formatRun_nil (t : VMTime) (wd : Bool) (res : List Char) :
    formatRun t [] wd res = Except.ok (res, wd) := rfl

theorem formatRun_cons (t : VMTime) (c : Char) (cs : List Char) (wd : Bool) (res : List Char) :
    formatRun t (c :: cs) wd res =
      match formatStep t wd (c :: cs) with
      | Except.error e => Except.error e
      | Except.ok (out, k, wd') => formatRun t ((c :: cs).drop k) wd' (res ++ out) := by
  unfold formatRun
  simp only [List.length_cons, formatLoop]
  cases hs : formatStep t wd (c :: cs) with
  | error e => rfl
  | ok r =>
    obtain ⟨out, k, wd'⟩ := r
    obtain ⟨hk, -⟩ := formatStep_facts t wd c cs out k wd' hs
    have hl := length_drop_lt c cs k hk
    exact formatLoop_fuel t _ _ _ _ _ hl (le_refl _)

/-- The loop and its trace: the runes appended are those of the iterations, in order, and
`wasday` at the exit records whether a day-of-month token was consumed. -/
theorem formatLoop_trace (t : VMTime) :
    ∀ (n : Nat) (src : List Char) (wd : Bool) (res : List Char),
      formatLoop t n src wd res =
        match formatTrace t n src wd with
        | Except.error e => Except.error e
        | Except.ok tr =>
          Except.ok (res ++ (tr.map Prod.snd).flatten, wd || tr.any fun e => isDayText e.1) := by
  intro n
  induction n with
  | zero =>
    intro src wd res
    cases src <;> simp [formatLoop, formatTrace]
  | succ n ih =>
    intro src wd res
    cases src with
    | nil => simp [formatLoop, formatTrace]
    | cons c cs =>
      simp only [formatLoop, formatTrace]
      cases hs : formatStep t wd (c :: cs) with
      | error e => rfl
      | ok r =>
        obtain ⟨out, k, wd'⟩ := r
        obtain ⟨-, -, hwd, -⟩ := formatStep_facts t wd c cs out k wd' hs
        simp only [ih]
        cases formatTrace t n ((c :: cs).drop k) wd' with
        | error e => rfl
        | ok tr => simp [hwd, Bool.or_assoc]

/-- The trace of a run: the texts consumed make up the suffix, and each `ММММ` is rendered in
the genitive exactly when `wasday` held at the start or an earlier iteration consumed a
day-of-month token. -/
theorem formatTrace_facts (t : VMTime) (hm1 : 1 ≤ t.month) (hm2 : t.month ≤ 12) :
    ∀ (n : Nat) (src : List Char) (wd : Bool) (tr : List (List Char × List Char)),
      formatTrace t n src wd = Except.ok tr →
        (tr.map Prod.fst).flatten = src ∧
        ∀ (j : Nat) (hj : j < tr.length), isMonthText (tr.get ⟨j, hj⟩).1 = true →
          (tr.get ⟨j, hj⟩).2 =
            if (wd || (tr.take j).any fun e => isDayText e.1) then (monthGenitive t.month).toList
            else (monthNominative t.month).toList := by
  intro n
  induction n with
  | zero =>
    intro src wd tr h
    cases src with
    | nil =>
      simp only [formatTrace, Except.ok.injEq] at h
      subst h
      exact ⟨rfl, fun j hj => absurd hj (Nat.not_lt_zero _)⟩
    | cons c cs => simp [formatTrace] at h
  | succ n ih =>
    intro src wd tr h
    cases src with
    | nil =>
      simp only [formatTrace, Except.ok.injEq] at h
      subst h
      exact ⟨rfl, fun j hj => absurd hj (Nat.not_lt_zero _)⟩
    | cons c cs =>
      simp only [formatTrace] at h
      cases hs : formatStep t wd (c :: cs) with
      | error e => simp [hs] at h
      | ok r =>
        obtain ⟨out, k, wd'⟩ := r
        simp only [hs] at h
        cases ht : formatTrace t n ((c :: cs).drop k) wd' with
        | error e => simp [ht] at h
        | ok tr' =>
          simp only [ht, Except.ok.injEq] at h
          subst h
          obtain ⟨-, -, hwd, hmon⟩ := formatStep_facts t wd c cs out k wd' hs
          obtain ⟨hcat, hinv⟩ := ih _ _ _ ht
          refine ⟨?_, ?_⟩
          · simp only [List.map_cons, List.flatten_cons, hcat]
            exact List.take_append_drop k (c :: cs)
          · intro j hj hmj
            cases j with
            | zero =>
              simp only [List.get_eq_getElem, List.getElem_cons_zero] at hmj ⊢
              simpa using hmon hmj hm1 hm2
            | succ j =>
              simp only [List.get_eq_getElem, List.getElem_cons_succ] at hmj ⊢
              have := hinv j (by simpa using hj) (by simpa using hmj)
              simp only [List.get_eq_getElem] at this
              rw [this, hwd]
              simp only [List.take_succ_cons, List.any_cons, Bool.or_assoc]

theorem callInt_weekday (t : VMTime) :
    callInt t.«ДеньНедели» = if t.weekday = 0 then 7 else (t.weekday : Int) := by
  unfold callInt VMTime.«ДеньНедели» VMSlice.Append
  by_cases h : t.weekday = 0
  · simp [h]
  · have : ¬ ((t.weekday : Int) = 0) := by omega
    simp [h, this]

/-- Apart from the short weekday on a Sunday every branch of the loop body succeeds. -/
theorem render_total (t : VMTime) (h : t.wf) (hw : t.weekday ≠ 0) (wd : Bool) (tok : Tok)
    (htok : tok ≠ Tok.eof) : ∃ r, render t wd tok = Except.ok r := by
  obtain ⟨hm1, hm2, -, -, -, -, -, -, hwd, -⟩ := h
  have hwd' : t.weekday ≤ 6 := hwd
  have hday : ∃ r, index days (callInt t.«ДеньНедели») = Except.ok r := by
    rw [callInt_weekday, if_neg hw]
    generalize t.weekday = w at hw hwd'
    interval_cases w <;> first | exact absurd rfl hw | exact ⟨_, rfl⟩
  have hdaysm : ∃ r, index dayssm (callInt t.«ДеньНедели») = Except.ok r := by
    rw [callInt_weekday, if_neg hw]
    generalize t.weekday = w at hw hwd'
    interval_cases w <;> first | exact absurd rfl hw | exact ⟨_, rfl⟩
  have hmon2 : ∃ r, (index months2 (callInt t.«Месяц»)).bind first3 = Except.ok r := by
    rw [callInt_month]
    generalize t.month = m at hm1 hm2
    interval_cases m <;> exact ⟨_, rfl⟩
  have hmon1 : ∃ r, (index months1 (callInt t.«Месяц»)).bind first3 = Except.ok r := by
    rw [callInt_month]
    generalize t.month = m at hm1 hm2
    interval_cases m <;> exact ⟨_, rfl⟩
  cases tok <;> simp only [render]
  case eof => exact absurd rfl htok
  case dddd => obtain ⟨r, hr⟩ := hday; exact ⟨_, by rw [hr]; rfl⟩
  case ddd => obtain ⟨r, hr⟩ := hdaysm; exact ⟨_, by rw [hr]; rfl⟩
  case MMMM =>
    rw [callInt_month, index_months2 _ hm1 hm2, index_months1 _ hm1 hm2]
    cases wd <;> exact ⟨_, rfl⟩
  case MMM =>
    obtain ⟨r1, hr1⟩ := hmon1
    obtain ⟨r2, hr2⟩ := hmon2
    cases wd
    · exact ⟨_, by simp only [hr1]; rfl⟩
    · exact ⟨_, by simp only [hr2]; rfl⟩
  all_goals exact ⟨_, rfl⟩

theorem formatTrace_total (t : VMTime) (h : t.wf) (hw : t.weekday ≠ 0) :
    ∀ (n : Nat) (src : List Char) (wd : Bool), src.length ≤ n →
      ∃ tr, formatTrace t n src wd = Except.ok tr := by
  intro n
  induction n with
  | zero =>
    intro src wd hn
    have : src = [] := List.length_eq_zero.mp (Nat.le_zero.mp hn)
    subst this
    exact ⟨[], rfl⟩
  | succ n ih =>
    intro src wd hn
    cases src with
    | nil => exact ⟨[], rfl⟩
    | cons c cs =>
      obtain ⟨r, hr⟩ := render_total t h hw wd (classify (c :: cs)) (classify_facts c cs).2.2.2.2
      rw [← formatStep_eq] at hr
      obtain ⟨out, k, wd'⟩ := r
      obtain ⟨hk, -⟩ := formatStep_facts t wd c cs out k wd' hr
      have hl := length_drop_lt c cs k hk
      simp only [List.length_cons] at hn
      obtain ⟨tr, htr⟩ := ih ((c :: cs).drop k) wd' (by omega)
      exact ⟨((c :: cs).take k, out) :: tr, by simp only [formatTrace, hr, htr]⟩

/-- C2: in every pattern a `ММММ`/`MMMM` token is rendered with the genitive month name if and
only if an earlier iteration of the scan consumed a day-of-month token (`д`, `дд`, `d`, `dd`),
and with the nominative name otherwise; the weekday tokens `ддд` and `дддд` do not switch the
form. The trace lists, per iteration, the text consumed and the text appended; the output of
`Формат` is the concatenation of the texts appended. -/
theorem C2_month_case_follows_day_token (t : VMTime) (h : t.wf) (p : String) :
    (∀ tr, formatTrace t p.length p.toList false = Except.ok tr →
      t.«Формат» p = Except.ok (String.mk (tr.map Prod.snd).flatten) ∧
      (tr.map Prod.fst).flatten = p.toList ∧
      ∀ (j : Nat) (hj : j < tr.length), isMonthText (tr.get ⟨j, hj⟩).1 = true →
        (tr.get ⟨j, hj⟩).2 =
          if ((tr.take j).any fun e => isDayText e.1) then (monthGenitive t.month).toList
          else (monthNominative t.month).toList) ∧
    (t.weekday ≠ 0 → ∃ tr, formatTrace t p.length p.toList false = Except.ok tr) ∧
    (t.month = 3 → t.«Формат» "ММММ гггг" = Except.ok ("март " ++ Itoa t.year)) ∧
    t20240309.«Формат» "д ММММ" = Except.ok "9 марта" ∧
    t20240309.«Формат» "дддд ддд ММММ" = Except.ok "суббота вс март" := by
  have hm1 : 1 ≤ t.month := h.1
  have hm2 : t.month ≤ 12 := h.2.1
  refine ⟨?_, ?_, ?_, by rfl, by rfl⟩
  · intro tr htr
    obtain ⟨hcat, hinv⟩ := formatTrace_facts t hm1 hm2 _ _ _ _ htr
    refine ⟨?_, hcat, ?_⟩
    · unfold VMTime.«Формат»
      have hl : p.toList.length = p.length := rfl
      simp only [formatLoop_trace, hl, htr, Except.map, List.nil_append]
    · intro j hj hmj
      simpa using hinv j hj hmj
  · intro hw
    exact formatTrace_total t h hw _ _ _ (le_refl _)
  · intro h3
    have hp : "ММММ гггг".toList = ['М', 'М', 'М', 'М', ' ', 'г', 'г', 'г', 'г'] := rfl
    simp only [VMTime.«Формат», hp, List.length_cons, List.length_nil]
    simp [formatLoop, formatStep, callInt_month, callInt_year, h3, index, months1, Except.map,
      String.ext_iff]

theorem C2_month_case_follows_day_token_witness :
    t20240309.wf ∧ t20240309.weekday ≠ 0 ∧
      ∃ tr, formatTrace t20240309 "ддд д ММММ".length "ддд д ММММ".toList false
        = Except.ok tr :=
  ⟨by decide, by decide,
    (C2_month_case_follows_day_token t20240309 (by decide) "ддд д ММММ").2.1 (by decide)⟩

theorem prefix_barrier (A s post : List Char) (c : Char) (hA : A.all tokenLetter = true)
    (hc : tokenLetter c = false) : A <+: s ++ c :: post ↔ A <+: s := by
  constructor
  · intro h
    rcases List.prefix_or_prefix_of_prefix h (List.prefix_append s (c :: post)) with h1 | h1
    · exact h1
    · obtain ⟨u, hu⟩ := h1
      subst hu
      rw [List.prefix_append_right_inj] at h
      cases u with
      | nil => simp
      | cons x u =>
        rw [List.cons_prefix_cons] at h
        have hx : tokenLetter x = true := by
          have := List.all_eq_true.mp hA x (by simp)
          exact this
        rw [h.1, hc] at hx
        exact absurd hx (by decide)
  · intro h
    exact h.trans (List.prefix_append s (c :: post))

theorem firstMatch_congr (tbl : List (List Char × Tok)) (src src' : List Char)
    (h : ∀ e ∈ tbl, (e.1 <+: src ↔ e.1 <+: src')) : firstMatch tbl src = firstMatch tbl src' := by
  induction tbl with
  | nil => rfl
  | cons e tbl ih =>
    have he := h e (List.mem_cons_self _ _)
    have ih' := ih fun e' he' => h e' (List.mem_cons_of_mem _ he')
    unfold firstMatch at ih' ⊢
    rw [List.find?_cons, List.find?_cons]
    have : e.1.isPrefixOf src = e.1.isPrefixOf src' := by
      rw [Bool.eq_iff_iff, List.isPrefixOf_iff_prefix, List.isPrefixOf_iff_prefix]
      exact he
    rw [this, ih']

/-- A rune that is no token letter ends every token before it: the scanner takes the same
branch at `s ++ c :: post` as at `s`. -/
theorem classify_barrier (a : Char) (s post : List Char) (c : Char)
    (hc : tokenLetter c = false) :
    classify ((a :: s) ++ c :: post) = classify (a :: s) := by
  rw [classify_eq, classify_eq]
  have := firstMatch_congr tokenTable ((a :: s) ++ c :: post) (a :: s) fun e he =>
    prefix_barrier e.1 (a :: s) post c (tokenTable_facts e he).2.2.1 hc
  rw [this]
  rfl

theorem classify_lit (c : Char) (cs : List Char) (hc : tokenLetter c = false) :
    classify (c :: cs) = Tok.lit c := by
  rw [classify_eq]
  have : firstMatch tokenTable (c :: cs) = none := by
    unfold firstMatch
    rw [List.find?_eq_none]
    intro e he hp
    obtain ⟨hne, -, hall, -⟩ := tokenTable_facts e he
    have hp' := List.isPrefixOf_iff_prefix.mp hp
    cases hA : e.1 with
    | nil => exact hne hA
    | cons x xs =>
      rw [hA, List.cons_prefix_cons] at hp'
      have hx : tokenLetter x = true := List.all_eq_true.mp hall x (by simp [hA])
      rw [hp'.1, hc] at hx
      exact absurd hx (by decide)
  rw [this]
  rfl

theorem formatRun_barrier (t : VMTime) (c : Char) (post : List Char)
    (hc : tokenLetter c = false) :
    ∀ (n : Nat) (pre : List Char) (wd : Bool) (res : List Char), pre.length ≤ n →
      formatRun t (pre ++ c :: post) wd res =
        match formatRun t pre wd res with
        | Except.error e => Except.error e
        | Except.ok s => formatRun t post s.2 (s.1 ++ [c]) := by
  intro n
  induction n with
  | zero =>
    intro pre wd res hn
    have : pre = [] := List.length_eq_zero.mp (Nat.le_zero.mp hn)
    subst this
    simp only [List.nil_append, formatRun_nil]
    rw [formatRun_cons, formatStep_eq, classify_lit c post hc]
    rfl
  | succ n ih =>
    intro pre wd res hn
    cases pre with
    | nil =>
      simp only [List.nil_append, formatRun_nil]
      rw [formatRun_cons, formatStep_eq, classify_lit c post hc]
      rfl
    | cons a s =>
      have hcons : (a :: s) ++ c :: post = a :: (s ++ c :: post) := rfl
      have hstep : formatStep t wd (a :: (s ++ c :: post)) = formatStep t wd (a :: s) := by
        rw [formatStep_eq, formatStep_eq, ← hcons, classify_barrier a s post c hc]
      rw [hcons, formatRun_cons, formatRun_cons, hstep]
      cases hs : formatStep t wd (a :: s) with
      | error e => rfl
      | ok r =>
        obtain ⟨out, k, wd'⟩ := r
        obtain ⟨hk, hk', -⟩ := formatStep_facts t wd a s out k wd' hs
        have hl := length_drop_lt a s k hk
        simp only [List.length_cons] at hn
        simp only
        rw [← hcons, List.drop_append_of_le_length hk']
        exact ih _ _ _ (by omega)

theorem formatRun_res (t : VMTime) (src : List Char) (wd : Bool) (res : List Char) :
    formatRun t src wd res =
      match formatRun t src wd [] with
      | Except.error e => Except.error e
      | Except.ok s => Except.ok (res ++ s.1, s.2) := by
  unfold formatRun
  rw [formatLoop_trace, formatLoop_trace t _ _ _ []]
  cases formatTrace t src.length src wd with
  | error e => rfl
  | ok tr => simp

theorem formatRun_verbatim (t : VMTime) :
    ∀ (l : List Char) (wd : Bool) (res : List Char), (∀ c ∈ l, tokenLetter c = false) →
      formatRun t l wd res = Except.ok (res ++ l, wd) := by
  intro l
  induction l with
  | nil => intro wd res _; simp [formatRun_nil]
  | cons c cs ih =>
    intro wd res h
    rw [formatRun_cons, formatStep_eq, classify_lit c cs (h c (List.mem_cons_self _ _))]
    simp only [render, List.drop_succ_cons, List.drop_zero]
    rw [ih _ _ fun x hx => h x (List.mem_cons_of_mem _ hx)]
    simp

/-- C6: a pattern without token letters is returned unchanged; and a rune that is no token
letter is copied verbatim between the output of what precedes it and the output of what
follows it, no token reaching across it. -/
theorem C6_unmatched_runes_verbatim (t : VMTime) :
    (∀ p : String, (∀ c ∈ p.toList, tokenLetter c = false) → t.«Формат» p = Except.ok p) ∧
    (∀ (pre post : List Char) (c : Char) (wd : Bool), tokenLetter c = false →
      formatRun t (pre ++ c :: post) wd [] =
        match formatRun t pre wd [] with
        | Except.error e => Except.error e
        | Except.ok s1 =>
          match formatRun t post s1.2 [] with
          | Except.error e => Except.error e
          | Except.ok s2 => Except.ok (s1.1 ++ c :: s2.1, s2.2)) ∧
    (∀ p : String,
      t.«Формат» p = (formatRun t p.toList false []).map fun s => String.mk s.1) := by
  refine ⟨?_, ?_, fun p => rfl⟩
  · intro p hp
    have := formatRun_verbatim t p.toList false [] hp
    unfold formatRun at this
    unfold VMTime.«Формат»
    simp only [this, Except.map, List.nil_append]
    rfl
  · intro pre post c wd hc
    rw [formatRun_barrier t c post hc _ pre wd [] (le_refl _)]
    cases formatRun t pre wd [] with
    | error e => rfl
    | ok s1 =>
      simp only
      rw [formatRun_res]
      cases formatRun t post s1.2 [] with
      | error e => rfl
      | ok s2 => simp

theorem C6_unmatched_runes_verbatim_witness :
    (∀ c ∈ "2024-03-09 / (UTC)".toList, tokenLetter c = false) ∧
      t20240309.«Формат» "2024-03-09 / (UTC)" = Except.ok "2024-03-09 / (UTC)" :=
  ⟨by decide, (C6_unmatched_runes_verbatim t20240309).1 "2024-03-09 / (UTC)" (by decide)⟩


/-! ### `VMTimeDuration.String` -/

theorem putByte_wrote (buf : List Nat) (w b : Nat) (h1 : 1 ≤ w) (h2 : w ≤ buf.length) :
    Wrote (putByte buf w b) buf w [b] := by
  refine ⟨buf.set (w - 1) b, ?_, by simp, ?_⟩
  · unfold putByte
    rw [if_neg (by omega)]
    rfl
  · simp only [List.length_singleton]
    rw [List.set_eq_take_append_cons_drop, if_pos (by omega)]
    rw [List.drop_left' (by simp; omega)]
    have : w - 1 + 1 = w := by omega
    rw [this]
    rfl

theorem putString_wrote (buf : List Nat) (w n : Nat) (s : List Nat) (hn : s.length = n)
    (h1 : n ≤ w) (h2 : w ≤ buf.length) : Wrote (putString buf w n s) buf w s := by
  subst hn
  have hk : min s.length (buf.length - (w - s.length)) = s.length := by omega
  refine ⟨buf.take (w - s.length) ++ s ++ buf.drop w, ?_, ?_, ?_⟩
  · unfold putString
    rw [if_neg (by omega)]
    simp only [hk]
    have : w - s.length + s.length = w := by omega
    rw [this, List.take_length]
  · simp only [List.length_append, List.length_take, List.length_drop]
    omega
  · rw [List.append_assoc, List.drop_left' (by simp; omega)]

theorem digits_length_le : ∀ (k v : Nat), v < 10 ^ k → (Nat.digits 10 v).length ≤ k := by
  intro k
  induction k with
  | zero =>
    intro v hv
    have : v = 0 := by simpa using hv
    subst this
    simp
  | succ k ih =>
    intro v hv
    rcases Nat.eq_zero_or_pos v with h0 | hpos
    · subst h0; simp
    · rw [Nat.digits_def' (by norm_num) hpos]
      have : v / 10 < 10 ^ k := by
        rw [Nat.div_lt_iff_lt_mul (by norm_num)]
        rw [pow_succ] at hv
        exact hv
      have := ih _ this
      simp only [List.length_cons]
      omega

theorem intBytes_length_le (k v : Nat) (hk : 1 ≤ k) (hv : v < 10 ^ k) :
    (intBytes v).length ≤ k := by
  unfold intBytes
  split
  · simpa using hk
  · simpa using digits_length_le k v hv

theorem fmtIntLoop_wrote :
    ∀ (fuel v : Nat) (buf : List Nat) (w : Nat), v < 10 ^ fuel →
      (Nat.digits 10 v).length ≤ w → w ≤ buf.length →
      Wrote (fmtIntLoop fuel buf w v) buf w ((Nat.digits 10 v).reverse.map fun d => d + 48) := by
  intro fuel
  induction fuel with
  | zero =>
    intro v buf w hv _ _
    have : v = 0 := by simpa using hv
    subst this
    exact ⟨buf, by simp [fmtIntLoop], rfl, by simp⟩
  | succ fuel ih =>
    intro v buf w hv hw hb
    cases v with
    | zero => exact ⟨buf, by simp [fmtIntLoop], rfl, by simp⟩
    | succ v =>
      have hd : Nat.digits 10 (v + 1) = (v + 1) % 10 :: Nat.digits 10 ((v + 1) / 10) :=
        Nat.digits_def' (by norm_num) (Nat.succ_pos v)
      have hlt : (v + 1) / 10 < 10 ^ fuel := by
        rw [Nat.div_lt_iff_lt_mul (by norm_num)]
        rw [pow_succ] at hv
        exact hv
      rw [hd] at hw ⊢
      simp only [List.length_cons] at hw
      obtain ⟨buf1, e1, l1, d1⟩ := putByte_wrote buf w ((v + 1) % 10 + 48) (by omega) hb
      obtain ⟨buf2, e2, l2, d2⟩ :=
        ih ((v + 1) / 10) buf1 (w - 1) hlt (by omega) (by rw [l1]; omega)
      simp only [List.length_singleton] at e1 d1
      simp only [List.length_map, List.length_reverse] at e2 d2
      have hidx : w - 1 - (Nat.digits 10 ((v + 1) / 10)).length
          = w - ((Nat.digits 10 ((v + 1) / 10)).length + 1) := by omega
      rw [hidx] at e2 d2
      have hL : (List.map (fun d => d + 48)
          ((v + 1) % 10 :: Nat.digits 10 ((v + 1) / 10)).reverse).length
            = (Nat.digits 10 ((v + 1) / 10)).length + 1 := by simp
      unfold Wrote
      rw [hL]
      refine ⟨buf2, ?_, by rw [l2, l1], ?_⟩
      · simp only [fmtIntLoop, e1, e2]
      · rw [d2, d1]
        simp

theorem fmtInt_wrote (buf : List Nat) (w v : Nat) (hv : v < 10 ^ 20)
    (hw : (intBytes v).length ≤ w) (hb : w ≤ buf.length) :
    Wrote (fmtInt buf w v) buf w (intBytes v) := by
  unfold fmtInt intBytes at *
  by_cases h0 : v = 0
  · simp only [h0, if_true] at hw ⊢
    exact putByte_wrote buf w 48 (by simpa using hw) hb
  · simp only [h0, if_false] at hw ⊢
    exact fmtIntLoop_wrote 20 v buf w hv (by simpa using hw) hb

theorem lowDigits_length (prec v : Nat) : (lowDigits prec v).length = prec := by
  induction prec generalizing v with
  | zero => rfl
  | succ p ih => simp [lowDigits, ih]

theorem fracLoopBytes_length_le (prec v : Nat) (print : Bool) :
    (fracLoopBytes prec v print).length ≤ prec := by
  unfold fracLoopBytes
  simp only [List.length_map, List.length_reverse]
  cases print
  · have := (List.dropWhile_sublist (fun d => d == 0) (l := lowDigits prec v)).length_le
    rw [lowDigits_length] at this
    simpa using this
  · simp [lowDigits_length]

theorem mod_pow_succ_eq_zero (v p : Nat) :
    v % 10 ^ (p + 1) = 0 ↔ v % 10 = 0 ∧ v / 10 % 10 ^ p = 0 := by
  rw [pow_succ, Nat.mul_comm, Nat.mod_mul]
  omega

theorem fracLoopBytes_succ (p v : Nat) (print : Bool) :
    fracLoopBytes (p + 1) v print =
      fracLoopBytes p (v / 10) (print || v % 10 != 0) ++
        (if (print || v % 10 != 0) then [v % 10 + 48] else []) := by
  unfold fracLoopBytes
  cases print
  · by_cases h : v % 10 = 0
    · simp [lowDigits, h, List.dropWhile_cons]
    · simp [lowDigits, h, List.dropWhile_cons]
  · simp [lowDigits]

theorem fmtFracLoop_wrote :
    ∀ (prec v : Nat) (buf : List Nat) (w : Nat) (print : Bool), prec ≤ w → w ≤ buf.length →
      ∃ buf', fmtFracLoop prec buf w v print =
          Except.ok (buf', w - (fracLoopBytes prec v print).length, v / 10 ^ prec,
            print || decide (v % 10 ^ prec ≠ 0)) ∧
        buf'.length = buf.length ∧
        buf'.drop (w - (fracLoopBytes prec v print).length)
          = fracLoopBytes prec v print ++ buf.drop w := by
  intro prec
  induction prec with
  | zero =>
    intro v buf w print _ _
    refine ⟨buf, ?_, rfl, ?_⟩
    · simp [fmtFracLoop, fracLoopBytes, lowDigits, Nat.mod_one]
    · simp [fracLoopBytes, lowDigits]
  | succ p ih =>
    intro v buf w print hw hb
    have hdiv : v / 10 / 10 ^ p = v / 10 ^ (p + 1) := by
      rw [Nat.div_div_eq_div_mul, pow_succ, Nat.mul_comm]
    have hpr : ((print || v % 10 != 0) || decide (v / 10 % 10 ^ p ≠ 0))
        = (print || decide (v % 10 ^ (p + 1) ≠ 0)) := by
      have := mod_pow_succ_eq_zero v p
      cases print
      · by_cases h1 : v % 10 = 0 <;> by_cases h2 : v / 10 % 10 ^ p = 0 <;>
          simp [h1, h2, this]
      · simp
    rw [fracLoopBytes_succ]
    cases hp : (print || v % 10 != 0)
    · -- nothing is written for this digit
      obtain ⟨buf2, e2, l2, d2⟩ := ih (v / 10) buf w false (by omega) hb
      refine ⟨buf2, ?_, l2, ?_⟩
      · simp only [fmtFracLoop, hp, Bool.false_eq_true, if_false, e2, List.append_nil, hdiv]
        rw [← hpr, hp]
      · simpa using d2
    · obtain ⟨buf1, e1, l1, d1⟩ := putByte_wrote buf w (v % 10 + 48) (by omega) hb
      simp only [List.length_singleton] at e1 d1
      obtain ⟨buf2, e2, l2, d2⟩ := ih (v / 10) buf1 (w - 1) true (by omega) (by rw [l1]; omega)
      have hlen := fracLoopBytes_length_le p (v / 10) true
      have hidx : w - 1 - (fracLoopBytes p (v / 10) true).length
          = w - ((fracLoopBytes p (v / 10) true).length + 1) := by omega
      rw [hidx] at e2 d2
      simp only [if_true, List.length_append, List.length_singleton]
      refine ⟨buf2, ?_, by rw [l2, l1], ?_⟩
      · simp only [fmtFracLoop, hp, if_true, e1, e2, hdiv]
        rw [← hpr, hp]
      · rw [d2, d1]
        simp

theorem fracLoopBytes_of_zero (prec v : Nat) (h : v % 10 ^ prec = 0) :
    fracLoopBytes prec v false = [] := by
  induction prec generalizing v with
  | zero => rfl
  | succ p ih =>
    obtain ⟨h1, h2⟩ := (mod_pow_succ_eq_zero v p).mp h
    rw [fracLoopBytes_succ]
    simp [h1, ih _ h2]

theorem fracBytes_length_le (prec v : Nat) : (fracBytes prec v).length ≤ prec + 1 := by
  unfold fracBytes
  split
  · simp
  · have := fracLoopBytes_length_le prec v false
    unfold fracLoopBytes at this
    simpa using this

theorem fmtFrac_wrote (prec v : Nat) (buf : List Nat) (w : Nat) (hw : prec + 1 ≤ w)
    (hb : w ≤ buf.length) :
    ∃ buf', fmtFrac buf w v prec =
        Except.ok (buf', w - (fracBytes prec v).length, v / 10 ^ prec) ∧
      buf'.length = buf.length ∧
      buf'.drop (w - (fracBytes prec v).length) = fracBytes prec v ++ buf.drop w := by
  obtain ⟨buf1, e1, l1, d1⟩ := fmtFracLoop_wrote prec v buf w false (by omega) hb
  have hlen := fracLoopBytes_length_le prec v false
  by_cases h0 : v % 10 ^ prec = 0
  · have hb0 := fracLoopBytes_of_zero prec v h0
    have hf : fracBytes prec v = [] := by unfold fracBytes; rw [if_pos h0]
    rw [hb0] at e1 d1
    rw [hf]
    refine ⟨buf1, ?_, l1, d1⟩
    simp only [fmtFrac, e1, h0]
    simp
  · have hf : fracBytes prec v = 46 :: fracLoopBytes prec v false := by
      unfold fracBytes fracLoopBytes
      rw [if_neg h0]
      simp
    obtain ⟨buf2, e2, l2, d2⟩ :=
      putByte_wrote buf1 (w - (fracLoopBytes prec v false).length) 46 (by omega)
        (by rw [l1]; omega)
    simp only [List.length_singleton] at e2 d2
    have hidx : w - (fracLoopBytes prec v false).length - 1
        = w - ((fracLoopBytes prec v false).length + 1) := by omega
    rw [hidx] at e2 d2
    rw [hf]
    simp only [List.length_cons]
    refine ⟨buf2, ?_, by rw [l2, l1], ?_⟩
    · simp only [fmtFrac, e1, h0]
      simp [e2, h0]
    · rw [d2, d1]
      simp

theorem Wrote.writes {r : Except Err (List Nat × Nat)} {buf : List Nat} {w : Nat}
    {bytes : List Nat} (h : Wrote r buf w bytes) (hle : bytes.length ≤ w) :
    Writes r buf w bytes := by
  obtain ⟨buf', e, l, d⟩ := h
  exact ⟨buf', w - bytes.length, e, by omega, l, d⟩

theorem writes_ok (buf : List Nat) (w : Nat) : Writes (Except.ok (buf, w)) buf w [] :=
  ⟨buf, w, rfl, rfl, rfl, rfl⟩

theorem writes_conv {r : Except Err (List Nat × Nat)} {buf : List Nat} {w : Nat}
    {b b' : List Nat} (h : Writes r buf w b) (e : b = b') : Writes r buf w b' := e ▸ h

theorem writes_bind {r : Except Err (List Nat × Nat)} {buf : List Nat} {w : Nat}
    {b1 b2 : List Nat} {f : List Nat × Nat → Except Err (List Nat × Nat)}
    (h1 : Writes r buf w b1)
    (h2 : ∀ buf' w', buf'.length = buf.length → w' + b1.length = w →
      Writes (f (buf', w')) buf' w' b2) :
    Writes (r.bind f) buf w (b2 ++ b1) := by
  obtain ⟨buf1, w1, e1, hw1, l1, d1⟩ := h1
  obtain ⟨buf2, w2, e2, hw2, l2, d2⟩ := h2 buf1 w1 l1 hw1
  refine ⟨buf2, w2, ?_, ?_, by rw [l2, l1], ?_⟩
  · rw [e1]; exact e2
  · simp only [List.length_append]; omega
  · rw [d2, d1, List.append_assoc]

theorem writes_bind_frac {buf : List Nat} {w v prec : Nat} {b2 : List Nat}
    {f : List Nat × Nat × Nat → Except Err (List Nat × Nat)}
    (hw : prec + 1 ≤ w) (hb : w ≤ buf.length)
    (h2 : ∀ buf' w', buf'.length = buf.length → w' + (fracBytes prec v).length = w →
      Writes (f (buf', w', v / 10 ^ prec)) buf' w' b2) :
    Writes ((fmtFrac buf w v prec).bind f) buf w (b2 ++ fracBytes prec v) := by
  obtain ⟨buf1, e1, l1, d1⟩ := fmtFrac_wrote prec v buf w hw hb
  have hlen := fracBytes_length_le prec v
  obtain ⟨buf2, w2, e2, hw2, l2, d2⟩ := h2 buf1 (w - (fracBytes prec v).length) l1 (by omega)
  refine ⟨buf2, w2, ?_, ?_, by rw [l2, l1], ?_⟩
  · rw [e1]; exact e2
  · simp only [List.length_append]; omega
  · rw [d2, d1, List.append_assoc]

theorem writes_ite {c : Prop} [Decidable c] {r r' : Except Err (List Nat × Nat)}
    {buf : List Nat} {w : Nat} {b b' : List Nat} (h : c → Writes r buf w b)
    (h' : ¬ c → Writes r' buf w b') :
    Writes (if c then r else r') buf w (if c then b else b') := by
  by_cases hc : c
  · simpa [hc] using h hc
  · simpa [hc] using h' hc

theorem utf8_len2 :
    (utf8 "с").length = 2 ∧ (utf8 "м").length = 2 ∧ (utf8 "ч").length = 2 ∧
      (utf8 "д").length = 2 ∧ (utf8 "н").length = 2 ∧ (utf8 "мк").length = 4 := by
  decide

theorem putString_writes (buf : List Nat) (w n : Nat) (s : List Nat) (hn : s.length = n)
    (h1 : n ≤ w) (h2 : w ≤ buf.length) : Writes (putString buf w n s) buf w s :=
  (putString_wrote buf w n s hn h1 h2).writes (by omega)

theorem fmtInt_writes (k : Nat) (buf : List Nat) (w v : Nat) (hk1 : 1 ≤ k) (hk2 : k ≤ 20)
    (hv : v < 10 ^ k) (hw : k ≤ w) (hb : w ≤ buf.length) :
    Writes (fmtInt buf w v) buf w (intBytes v) := by
  have hlen := intBytes_length_le k v hk1 hv
  have hv' : v < 10 ^ 20 := lt_of_lt_of_le hv (Nat.pow_le_pow_right (by norm_num) hk2)
  exact (fmtInt_wrote buf w v hv' (by omega) hb).writes (by omega)

/-- The writes of `stringLarge`: with 30 bytes of room it succeeds for every `uint64`. -/
theorem stringLarge_writes (buf : List Nat) (w u : Nat) (hu : u < 2 ^ 64) (hw : 30 ≤ w)
    (hb : w ≤ buf.length) :
    Writes (stringLarge buf w u) buf w
      ((((if u / 10 ^ 9 / 60 > 0 then
            (if u / 10 ^ 9 / 60 / 60 > 0 then
              (if u / 10 ^ 9 / 60 / 60 / 24 > 0 then
                [] ++ intBytes (u / 10 ^ 9 / 60 / 60 / 24) ++ utf8 "д" else [])
                ++ intBytes (u / 10 ^ 9 / 60 / 60 % 24) ++ utf8 "ч" else [])
              ++ intBytes (u / 10 ^ 9 / 60 % 60) ++ utf8 "м" else [])
          ++ intBytes (u / 10 ^ 9 % 60)) ++ fracBytes 9 u) ++ utf8 "с") := by
  obtain ⟨hc, hm, hh, hd, -, -⟩ := utf8_len2
  have hfrac := fracBytes_length_le 9 u
  have hS := intBytes_length_le 2 (u / 10 ^ 9 % 60) (by norm_num) (by omega)
  have hM := intBytes_length_le 2 (u / 10 ^ 9 / 60 % 60) (by norm_num) (by omega)
  have hH := intBytes_length_le 2 (u / 10 ^ 9 / 60 / 60 % 24) (by norm_num) (by omega)
  have hDlt : u / 10 ^ 9 / 60 / 60 / 24 < 10 ^ 6 := by norm_num at hu ⊢; omega
  have hD := intBytes_length_le 6 (u / 10 ^ 9 / 60 / 60 / 24) (by norm_num) hDlt
  unfold stringLarge
  refine writes_bind (putString_writes buf w 2 _ hc (by omega) hb) ?_
  intro buf1 w1 l1 h1
  refine writes_bind_frac (by omega) (by omega) ?_
  intro buf2 w2 l2 h2
  refine writes_bind (fmtInt_writes 2 buf2 w2 _ (by norm_num) (by norm_num) (by omega)
    (by omega) (by omega)) ?_
  intro buf3 w3 l3 h3
  refine writes_ite (fun _ => ?_) (fun _ => writes_ok _ _)
  refine writes_bind (putString_writes buf3 w3 2 _ hm (by omega) (by omega)) ?_
  intro buf4 w4 l4 h4
  refine writes_bind (fmtInt_writes 2 buf4 w4 _ (by norm_num) (by norm_num) (by omega)
    (by omega) (by omega)) ?_
  intro buf5 w5 l5 h5
  refine writes_ite (fun _ => ?_) (fun _ => writes_ok _ _)
  refine writes_bind (putString_writes buf5 w5 2 _ hh (by omega) (by omega)) ?_
  intro buf6 w6 l6 h6
  refine writes_bind (fmtInt_writes 2 buf6 w6 _ (by norm_num) (by norm_num) (by omega)
    (by omega) (by omega)) ?_
  intro buf7 w7 l7 h7
  refine writes_ite (fun _ => ?_) (fun _ => writes_ok _ _)
  refine writes_bind (putString_writes buf7 w7 2 _ hd (by omega) (by omega)) ?_
  intro buf8 w8 l8 h8
  exact writes_conv (fmtInt_writes 6 buf8 w8 _ (by norm_num) (by norm_num) hDlt
    (by omega) (by omega)) (List.nil_append _).symm

theorem toDigitsCore_eq :
    ∀ (fuel n : Nat) (ds : List Char), n < fuel →
      Nat.toDigitsCore 10 fuel n ds =
        (if n = 0 then ['0'] else (Nat.digits 10 n).reverse.map Nat.digitChar) ++ ds := by
  intro fuel
  induction fuel with
  | zero => intro n ds h; exact absurd h (Nat.not_lt_zero _)
  | succ fuel ih =>
    intro n ds hn
    simp only [Nat.toDigitsCore]
    by_cases hq : n / 10 = 0
    · rw [if_pos hq]
      have hlt : n < 10 := by omega
      by_cases h0 : n = 0
      · subst h0; rfl
      · rw [if_neg h0, Nat.digits_of_lt 10 n h0 hlt, Nat.mod_eq_of_lt hlt]
        rfl
    · rw [if_neg hq]
      have h0 : n ≠ 0 := by omega
      rw [ih (n / 10) _ (by omega), if_neg hq, if_neg h0,
        Nat.digits_def' (by norm_num) (Nat.pos_of_ne_zero h0)]
      simp

/-- The decimal numeral `toString v` is the digits of `v`, most significant first. -/
theorem repr_eq_digits (v : Nat) :
    toString v =
      String.mk (if v = 0 then ['0'] else (Nat.digits 10 v).reverse.map Nat.digitChar) := by
  show Nat.repr v = _
  unfold Nat.repr Nat.toDigits
  rw [toDigitsCore_eq _ _ _ (Nat.lt_succ_self v)]
  simp [List.asString]

theorem utf8_append (a b : String) : utf8 (a ++ b) = utf8 a ++ utf8 b := by
  simp [utf8, String.data_append]

theorem utf8Rune_digitChar (d : Nat) (h : d < 10) : utf8Rune (Nat.digitChar d) = [d + 48] := by
  interval_cases d <;> rfl

theorem utf8_digits (l : List Nat) (h : ∀ d ∈ l, d < 10) :
    utf8 (String.mk (l.map Nat.digitChar)) = l.map fun d => d + 48 := by
  induction l with
  | nil => rfl
  | cons d l ih =>
    have hd := utf8Rune_digitChar d (h d (List.mem_cons_self _ _))
    have := ih fun x hx => h x (List.mem_cons_of_mem _ hx)
    simp only [utf8, String.toList, List.map_cons, List.flatten_cons, List.map_map] at this ⊢
    rw [hd, this]
    rfl

theorem utf8_toString (v : Nat) : utf8 (toString v) = intBytes v := by
  rw [repr_eq_digits]
  unfold intBytes
  by_cases h0 : v = 0
  · simp only [h0, if_true]; rfl
  · simp only [h0, if_false]
    rw [utf8_digits]
    · intro d hd
      exact Nat.digits_lt_base (by norm_num) (List.mem_reverse.mp hd)

theorem lowDigits_eq_range (prec v : Nat) :
    lowDigits prec v = (List.range prec).map fun i => v / 10 ^ i % 10 := by
  induction prec generalizing v with
  | zero => rfl
  | succ p ih =>
    rw [lowDigits, ih, List.range_succ_eq_map, List.map_cons, List.map_map]
    simp only [pow_zero, Nat.div_one, List.cons.injEq, true_and]
    apply List.map_congr_left
    intro i _
    simp only [Function.comp, Nat.div_div_eq_div_mul, pow_succ]
    rw [Nat.mul_comm]

theorem lowDigits_lt (prec v : Nat) : ∀ d ∈ lowDigits prec v, d < 10 := by
  induction prec generalizing v with
  | zero => intro d hd; simp [lowDigits] at hd
  | succ p ih =>
    intro d hd
    simp only [lowDigits, List.mem_cons] at hd
    rcases hd with rfl | hd
    · exact Nat.mod_lt _ (by norm_num)
    · exact ih _ d hd

theorem lowDigits_mod (prec v : Nat) : lowDigits prec (v % 10 ^ prec) = lowDigits prec v := by
  induction prec generalizing v with
  | zero => rfl
  | succ p ih =>
    have h1 : v % 10 ^ (p + 1) % 10 = v % 10 := by
      rw [pow_succ, Nat.mul_comm, Nat.mod_mul]
      omega
    have h2 : v % 10 ^ (p + 1) / 10 = v / 10 % 10 ^ p := by
      rw [pow_succ, Nat.mul_comm, Nat.mod_mul]
      omega
    simp only [lowDigits, h1, h2, ih]

theorem digitChar_eq_zero (d : Nat) (h : d < 10) : (Nat.digitChar d == '0') = (d == 0) := by
  interval_cases d <;> rfl

theorem dropWhile_digitChar (l : List Nat) (h : ∀ d ∈ l, d < 10) :
    (l.map Nat.digitChar).dropWhile (fun c => c == '0')
      = (l.dropWhile fun d => d == 0).map Nat.digitChar := by
  induction l with
  | nil => rfl
  | cons d l ih =>
    have hd := digitChar_eq_zero d (h d (List.mem_cons_self _ _))
    have := ih fun x hx => h x (List.mem_cons_of_mem _ hx)
    simp only [List.map_cons, List.dropWhile_cons, hd]
    split
    · exact this
    · rfl

/-- The bytes `fmtFrac` writes are the text of the fractional part. -/
theorem utf8_fracText (prec v : Nat) :
    utf8 (fracText prec (v % 10 ^ prec)) = fracBytes prec v := by
  unfold fracText fracBytes
  by_cases h0 : v % 10 ^ prec = 0
  · simp only [h0, if_true]; rfl
  · simp only [h0, if_false]
    have hp : paddedDigits prec (v % 10 ^ prec) = ((lowDigits prec v).map Nat.digitChar).reverse := by
      unfold paddedDigits
      rw [← lowDigits_mod, lowDigits_eq_range, List.map_map, List.map_reverse]
      rfl
    rw [hp, List.rdropWhile, List.reverse_reverse, dropWhile_digitChar _ (lowDigits_lt prec v),
      ← List.map_reverse, utf8_append, utf8_digits]
    · rfl
    · intro d hd
      have := List.mem_reverse.mp hd
      exact lowDigits_lt prec v d ((List.dropWhile_sublist _).subset this)

theorem utf8_ite (c : Prop) [Decidable c] (a : String) :
    utf8 (if c then a else "") = if c then utf8 a else [] := by
  split <;> rfl

/-- `String` of a positive duration: the sign branch is not taken. -/
theorem String_of_pos (n : Nat) (h1 : 0 < n) (h2 : n < 2 ^ 63) :
    VMTimeDuration.String ⟨(n : Int)⟩ =
      (if n < VMSecond then stringSmall (List.replicate 40 0) 40 n
        else stringLarge (List.replicate 40 0) 40 n).bind fun s => Except.ok (s.1.drop s.2) := by
  have hu : (((n : Int) % 2 ^ 64).toNat) = n := by
    have : (n : Int) % 2 ^ 64 = n := Int.emod_eq_of_lt (by omega) (by omega)
    rw [this]; rfl
  have hneg : decide ((n : Int) < 0) = false := by simp
  unfold VMTimeDuration.String
  simp only [hu, hneg, List.length_replicate]
  rw [if_neg (by omega)]
  simp only [Bool.false_eq_true, if_false]
  cases (if n < VMSecond then stringSmall (List.replicate 40 0) 40 n
    else stringLarge (List.replicate 40 0) 40 n) with
  | error e => rfl
  | ok s => rfl

/-- C10: a duration of at least one second prints as `[D"д"][H"ч"][M"м"]S[.F]"с"`, the parts
being the days, the hours modulo 24, the minutes modulo 60, the seconds modulo 60 and the
nanoseconds below the second (up to nine digits, trailing zeros omitted); a part is present
from its unit on, and the parts add up to the duration. -/
theorem C10_duration_text_from_a_second (n : Nat) (h1 : VMSecond ≤ n) (h2 : n < 2 ^ 63) :
    VMTimeDuration.String ⟨(n : Int)⟩ = Except.ok (utf8 (durationText n)) ∧
      n / VMDay * VMDay + n / VMHour % 24 * VMHour + n / VMMinute % 60 * VMMinute
        + n / VMSecond % 60 * VMSecond + n % VMSecond = n ∧
      VMTimeDuration.String ⟨1500000000⟩ = Except.ok (utf8 "1.5с") ∧
      VMTimeDuration.String ⟨90000000000⟩ = Except.ok (utf8 "1м30с") := by
  have hs : VMSecond = 1000000000 := by decide
  have hmi : VMMinute = 60000000000 := by decide
  have hho : VMHour = 3600000000000 := by decide
  have hda : VMDay = 86400000000000 := by decide
  have hp : (10 : Nat) ^ 9 = 1000000000 := by norm_num
  rw [hs] at h1
  refine ⟨?_, ?_, by rfl, by rfl⟩
  · obtain ⟨buf', w', e, -, -, d⟩ :=
      stringLarge_writes (List.replicate 40 0) 40 n (by omega) (by norm_num) (by simp)
    rw [String_of_pos n (by omega) h2, hs, if_neg (by omega), e]
    simp only [Except.bind]
    rw [d]
    simp only [List.drop_replicate, Nat.sub_self, List.replicate_zero, List.append_nil,
      List.nil_append]
    congr 1
    unfold durationText
    simp only [utf8_append, utf8_ite, utf8_toString, hs, hmi, hho, hda, hp]
    rw [← hp, utf8_fracText, hp]
    have e1 : n / 1000000000 / 60 % 60 = n / 60000000000 % 60 := by omega
    have e2 : n / 1000000000 / 60 / 60 % 24 = n / 3600000000000 % 24 := by omega
    have e3 : n / 1000000000 / 60 / 60 / 24 = n / 86400000000000 := by omega
    have c1 : n / 1000000000 / 60 > 0 ↔ 60000000000 ≤ n := by omega
    have c2 : n / 1000000000 / 60 / 60 > 0 ↔ 3600000000000 ≤ n := by omega
    have c3 : n / 86400000000000 > 0 ↔ 86400000000000 ≤ n := by omega
    simp only [e1, e2, e3, c1, c2, c3]
    by_cases hm : 60000000000 ≤ n
    · by_cases hh : 3600000000000 ≤ n
      · by_cases hd : 86400000000000 ≤ n
        · simp [hm, hh, hd]
        · simp [hm, hh, hd]
      · have hd : ¬ 86400000000000 ≤ n := by omega
        simp [hm, hh, hd]
    · have hh : ¬ 3600000000000 ≤ n := by omega
      have hd : ¬ 86400000000000 ≤ n := by omega
      simp [hm, hh, hd]
  · rw [hs, hmi, hho, hda]
    omega

theorem C10_duration_text_from_a_second_witness :
    VMSecond ≤ 90061000000500 ∧ 90061000000500 < 2 ^ 63 ∧
      VMTimeDuration.String ⟨(90061000000500 : Nat)⟩
        = Except.ok (utf8 (durationText 90061000000500)) :=
  ⟨by decide, by norm_num, (C10_duration_text_from_a_second 90061000000500 (by decide)
    (by norm_num)).1⟩


theorem writes_bind_map {r : Except Err (List Nat × Nat)} {buf : List Nat} {w p : Nat}
    {b1 b2 : List Nat} {f : Nat × List Nat × Nat → Except Err (List Nat × Nat)}
    (h1 : Writes r buf w b1)
    (h2 : ∀ buf' w', buf'.length = buf.length → w' + b1.length = w →
      Writes (f (p, buf', w')) buf' w' b2) :
    Writes ((r.map fun s => (p, s)).bind f) buf w (b2 ++ b1) := by
  obtain ⟨buf1, w1, e1, hw1, l1, d1⟩ := h1
  obtain ⟨buf2, w2, e2, hw2, l2, d2⟩ := h2 buf1 w1 l1 hw1
  refine ⟨buf2, w2, ?_, ?_, by rw [l2, l1], ?_⟩
  · rw [e1]; exact e2
  · simp only [List.length_append]; omega
  · rw [d2, d1, List.append_assoc]

/-- The writes of `stringSmall`: with 16 bytes of room it succeeds below a second. -/
theorem stringSmall_writes (buf : List Nat) (w u : Nat) (hu : u < 10 ^ 9) (hw : 16 ≤ w)
    (hb : w ≤ buf.length) :
    Writes (stringSmall buf w u) buf w
      (if u < VMMicrosecond then intBytes (u / 10 ^ 0) ++ fracBytes 0 u ++ utf8 "н" ++ utf8 "с"
        else if u < VMMillisecond then
          intBytes (u / 10 ^ 3) ++ fracBytes 3 u ++ utf8 "мк" ++ utf8 "с"
        else intBytes (u / 10 ^ 6) ++ fracBytes 6 u ++ utf8 "м" ++ utf8 "с") := by
  obtain ⟨hc, hm, -, -, hn, hmk⟩ := utf8_len2
  have hmic : VMMicrosecond = 1000 := by decide
  have hmil : VMMillisecond = 1000000 := by decide
  unfold stringSmall
  by_cases h1 : u < VMMicrosecond
  · simp only [if_pos h1]
    have hf := fracBytes_length_le 0 u
    refine writes_bind (putString_writes buf w 2 _ hc (by omega) hb) ?_
    intro buf1 w1 l1 e1
    refine writes_bind_map (putString_writes buf1 w1 2 _ hn (by omega) (by omega)) ?_
    intro buf2 w2 l2 e2
    dsimp only
    refine writes_bind_frac (by omega) (by omega) ?_
    intro buf3 w3 l3 e3
    rw [hmic] at h1
    exact fmtInt_writes 3 buf3 w3 _ (by norm_num) (by norm_num)
      (by simp only [pow_zero, Nat.div_one]; omega) (by omega) (by omega)
  · simp only [if_neg h1]
    by_cases h2 : u < VMMillisecond
    · simp only [if_pos h2]
      have hf := fracBytes_length_le 3 u
      refine writes_bind (putString_writes buf w 2 _ hc (by omega) hb) ?_
      intro buf1 w1 l1 e1
      refine writes_bind_map (putString_writes buf1 w1 4 _ hmk (by omega) (by omega)) ?_
      intro buf2 w2 l2 e2
      dsimp only
      refine writes_bind_frac (by omega) (by omega) ?_
      intro buf3 w3 l3 e3
      rw [hmil] at h2
      exact fmtInt_writes 3 buf3 w3 _ (by norm_num) (by norm_num)
        (by norm_num; omega) (by omega) (by omega)
    · simp only [if_neg h2]
      have hf := fracBytes_length_le 6 u
      refine writes_bind (putString_writes buf w 2 _ hc (by omega) hb) ?_
      intro buf1 w1 l1 e1
      refine writes_bind_map (putString_writes buf1 w1 2 _ hm (by omega) (by omega)) ?_
      intro buf2 w2 l2 e2
      dsimp only
      refine writes_bind_frac (by omega) (by omega) ?_
      intro buf3 w3 l3 e3
      exact fmtInt_writes 3 buf3 w3 _ (by norm_num) (by norm_num)
        (by norm_num at hu ⊢; omega) (by omega) (by omega)

/-- The bytes `stringLarge` writes are the text of the duration. -/
theorem stringLarge_text (buf : List Nat) (w n : Nat) (h1 : VMSecond ≤ n) (h2 : n < 2 ^ 64)
    (hw : 30 ≤ w) (hb : w ≤ buf.length) :
    Writes (stringLarge buf w n) buf w (utf8 (durationText n)) := by
  have hs : VMSecond = 1000000000 := by decide
  have hmi : VMMinute = 60000000000 := by decide
  have hho : VMHour = 3600000000000 := by decide
  have hda : VMDay = 86400000000000 := by decide
  have hp : (10 : Nat) ^ 9 = 1000000000 := by norm_num
  rw [hs] at h1
  refine writes_conv (stringLarge_writes buf w n h2 hw hb) ?_
  unfold durationText
  simp only [utf8_append, utf8_ite, utf8_toString, hs, hmi, hho, hda, hp]
  rw [← hp, utf8_fracText, hp]
  have e1 : n / 1000000000 / 60 % 60 = n / 60000000000 % 60 := by omega
  have e2 : n / 1000000000 / 60 / 60 % 24 = n / 3600000000000 % 24 := by omega
  have e3 : n / 1000000000 / 60 / 60 / 24 = n / 86400000000000 := by omega
  have c1 : n / 1000000000 / 60 > 0 ↔ 60000000000 ≤ n := by omega
  have c2 : n / 1000000000 / 60 / 60 > 0 ↔ 3600000000000 ≤ n := by omega
  have c3 : n / 86400000000000 > 0 ↔ 86400000000000 ≤ n := by omega
  simp only [e1, e2, e3, c1, c2, c3]
  by_cases hm : 60000000000 ≤ n
  · by_cases hh : 3600000000000 ≤ n
    · by_cases hd : 86400000000000 ≤ n
      · simp [hm, hh, hd]
      · simp [hm, hh, hd]
    · have hd : ¬ 86400000000000 ≤ n := by omega
      simp [hm, hh, hd]
  · have hh : ¬ 3600000000000 ≤ n := by omega
    have hd : ¬ 86400000000000 ≤ n := by omega
    simp [hm, hh, hd]

theorem fracBytes_zero (u : Nat) : fracBytes 0 u = [] := by
  unfold fracBytes
  simp [Nat.mod_one]

/-- The bytes `stringSmall` writes are the text of the duration. -/
theorem stringSmall_text (buf : List Nat) (w n : Nat) (h2 : n < VMSecond) (hw : 16 ≤ w)
    (hb : w ≤ buf.length) :
    Writes (stringSmall buf w n) buf w (utf8 (smallDurationText n)) := by
  have hs : VMSecond = 1000000000 := by decide
  have hmic : VMMicrosecond = 1000 := by decide
  have hmil : VMMillisecond = 1000000 := by decide
  have hp3 : (10 : Nat) ^ 3 = 1000 := by norm_num
  have hp6 : (10 : Nat) ^ 6 = 1000000 := by norm_num
  have t1 : utf8 "нс" = utf8 "н" ++ utf8 "с" := by decide
  have t2 : utf8 "мкс" = utf8 "мк" ++ utf8 "с" := by decide
  have t3 : utf8 "мс" = utf8 "м" ++ utf8 "с" := by decide
  have f3 : utf8 (fracText 3 (n % 1000)) = fracBytes 3 n := by
    have := utf8_fracText 3 n
    rwa [hp3] at this
  have f6 : utf8 (fracText 6 (n % 1000000)) = fracBytes 6 n := by
    have := utf8_fracText 6 n
    rwa [hp6] at this
  rw [hs] at h2
  refine writes_conv (stringSmall_writes buf w n (by norm_num; omega) hw hb) ?_
  unfold smallDurationText
  simp only [hmic, hmil, hp3, hp6]
  by_cases h : n < 1000
  · simp only [if_pos h, utf8_append, utf8_toString, fracBytes_zero, pow_zero, Nat.div_one, t1,
      List.append_nil, List.append_assoc]
  · simp only [if_neg h]
    by_cases h' : n < 1000000
    · simp only [if_pos h', utf8_append, utf8_toString, t2, List.append_assoc, f3]
    · simp only [if_neg h', utf8_append, utf8_toString, t3, List.append_assoc, f6]

/-- The writes of `String` for a non-zero magnitude `n`. -/
theorem positive_writes (buf : List Nat) (w n : Nat) (h2 : n < 2 ^ 64)
    (hw : 30 ≤ w) (hb : w ≤ buf.length) :
    Writes (if n < VMSecond then stringSmall buf w n else stringLarge buf w n) buf w
      (utf8 (positiveText n)) := by
  unfold positiveText
  by_cases h : n < VMSecond
  · simp only [if_pos h]
    exact stringSmall_text buf w n h (by omega) hb
  · simp only [if_neg h]
    exact stringLarge_text buf w n (by omega) h2 hw hb

/-- The text of a duration has at most 30 bytes before the sign. -/
theorem positiveText_length (n : Nat) (h2 : n < 2 ^ 64) :
    (utf8 (positiveText n)).length ≤ 30 := by
  obtain ⟨buf', w', -, hw, -, -⟩ :=
    positive_writes (List.replicate 30 0) 30 n h2 (le_refl _) (by simp)
  omega

/-- `String` of a non-zero duration: a minus sign for a negative one, then the text of its
magnitude. No write leaves the buffer. -/
theorem String_nonzero (v : VMTimeDuration) (hr : v.inRange) (h0 : v.ns ≠ 0) :
    v.String = Except.ok ((if v.ns < 0 then [45] else []) ++ utf8 (positiveText v.ns.natAbs)) := by
  obtain ⟨hlo, hhi⟩ := hr
  have hu0 : (v.ns % 2 ^ 64).toNat ≠ 0 := by omega
  have hmag : (if decide (v.ns < 0) = true then (2 ^ 64 - (v.ns % 2 ^ 64).toNat) % 2 ^ 64
      else (v.ns % 2 ^ 64).toNat) = v.ns.natAbs := by
    by_cases hneg : v.ns < 0
    · simp only [hneg, decide_True, if_true]; omega
    · simp only [hneg, decide_False, Bool.false_eq_true, if_false]; omega
  have hlt : v.ns.natAbs < 2 ^ 64 := by omega
  obtain ⟨buf', w', e, hw, l, d⟩ :=
    positive_writes (List.replicate 40 0) 40 v.ns.natAbs hlt (by norm_num) (by simp)
  have hlen := positiveText_length v.ns.natAbs hlt
  unfold VMTimeDuration.String
  simp only [if_neg hu0, hmag, List.length_replicate, e, Except.bind]
  simp only [List.drop_replicate, Nat.sub_self, List.replicate_zero, List.append_nil] at d
  by_cases hneg : v.ns < 0
  · obtain ⟨buf2, e2, l2, d2⟩ := putByte_wrote buf' w' 45 (by omega) (by simp at l; omega)
    simp only [List.length_singleton] at e2 d2
    simp only [hneg, decide_True, if_true, e2]
    rw [d2, d]
  · simp only [hneg, decide_False, Bool.false_eq_true, if_false, d, List.nil_append]

theorem intBytes_head (k : Nat) : ∃ b t, intBytes k = b :: t ∧ 48 ≤ b ∧ b ≤ 57 := by
  unfold intBytes
  by_cases h0 : k = 0
  · exact ⟨48, [], by simp [h0], by norm_num, by norm_num⟩
  · have hne : (Nat.digits 10 k).reverse ≠ [] := by
      simpa using Nat.digits_ne_nil_iff_ne_zero.mpr h0
    cases hd : (Nat.digits 10 k).reverse with
    | nil => exact absurd hd hne
    | cons a t =>
      have ha : a < 10 := by
        have : a ∈ Nat.digits 10 k := by
          rw [← List.mem_reverse, hd]; exact List.mem_cons_self _ _
        exact Nat.digits_lt_base (by norm_num) this
      exact ⟨a + 48, t.map fun d => d + 48, by simp [h0, hd], by omega, by omega⟩

/-- The text of a duration starts with a decimal digit. -/
theorem positiveText_head (n : Nat) :
    ∃ b t, utf8 (positiveText n) = b :: t ∧ 48 ≤ b ∧ b ≤ 57 := by
  have key : ∀ (k : Nat) (r : List Nat), ∃ b t, intBytes k ++ r = b :: t ∧ 48 ≤ b ∧ b ≤ 57 := by
    intro k r
    obtain ⟨b, t, e, h1, h2⟩ := intBytes_head k
    exact ⟨b, t ++ r, by rw [e]; rfl, h1, h2⟩
  unfold positiveText smallDurationText durationText
  by_cases hs : n < VMSecond
  · simp only [if_pos hs]
    by_cases h1 : n < VMMicrosecond
    · simp only [if_pos h1, utf8_append, utf8_toString]
      exact key _ _
    · by_cases h2 : n < VMMillisecond
      · simp only [if_neg h1, if_pos h2, utf8_append, utf8_toString, List.append_assoc]
        exact key _ _
      · simp only [if_neg h1, if_neg h2, utf8_append, utf8_toString, List.append_assoc]
        exact key _ _
  · simp only [if_neg hs, utf8_append, utf8_ite, utf8_toString, List.append_assoc]
    by_cases hd : VMDay ≤ n
    · simp only [if_pos hd, List.append_assoc]
      exact key _ _
    · by_cases hh : VMHour ≤ n
      · simp only [if_neg hd, if_pos hh, List.nil_append, List.append_assoc]
        exact key _ _
      · by_cases hm : VMMinute ≤ n
        · simp only [if_neg hd, if_neg hh, if_pos hm, List.nil_append, List.append_assoc]
          exact key _ _
        · simp only [if_neg hd, if_neg hh, if_neg hm, List.nil_append]
          exact key _ _

/-- C11: a duration `0 < d < 1 s` prints in the largest unit not above it: the nanosecond
count and `нс` below a microsecond, the microseconds with up to three fractional digits and
`мкс` below a millisecond, the milliseconds with up to six fractional digits and `мс`
otherwise; trailing zeros of the fraction are omitted, the point goes with an all-zero
fraction, and the whole and fractional counts add up to the duration. -/
theorem C11_duration_text_below_a_second (n : Nat) (h1 : 0 < n) (h2 : n < VMSecond) :
    VMTimeDuration.String ⟨(n : Int)⟩ = Except.ok (utf8 (smallDurationText n)) ∧
      n / VMMicrosecond * VMMicrosecond + n % VMMicrosecond = n ∧
      n / VMMillisecond * VMMillisecond + n % VMMillisecond = n ∧
      VMTimeDuration.String ⟨500000000⟩ = Except.ok (utf8 "500мс") ∧
      VMTimeDuration.String ⟨1500000⟩ = Except.ok (utf8 "1.5мс") ∧
      VMTimeDuration.String ⟨1500⟩ = Except.ok (utf8 "1.5мкс") ∧
      VMTimeDuration.String ⟨999⟩ = Except.ok (utf8 "999нс") := by
  have hs : VMSecond = 1000000000 := by decide
  refine ⟨?_, Nat.div_add_mod' _ _, Nat.div_add_mod' _ _, by rfl, by rfl, by rfl, by rfl⟩
  have hr : (⟨(n : Int)⟩ : VMTimeDuration).inRange := by
    unfold VMTimeDuration.inRange
    simp only
    omega
  rw [String_nonzero _ hr (by simp only; omega)]
  have hnn : ¬ ((n : Int) < 0) := by omega
  simp only [hnn, if_false, List.nil_append, Int.natAbs_ofNat, positiveText, if_pos h2]

theorem C11_duration_text_below_a_second_witness :
    0 < 1500 ∧ 1500 < VMSecond ∧
      VMTimeDuration.String ⟨((1500 : Nat) : Int)⟩ = Except.ok (utf8 (smallDurationText 1500)) :=
  ⟨by decide, by decide, (C11_duration_text_below_a_second 1500 (by decide) (by decide)).1⟩

/-- C12: for a duration `d > 0` the text of `-d` is the character `-` followed by the text of
`d`; the text of a non-negative duration does not start with `-`; the zero duration prints
as `0с`. -/
theorem C12_duration_sign (n : Nat) (h1 : 0 < n) (h2 : n < 2 ^ 63) :
    (∃ b, VMTimeDuration.String ⟨(n : Int)⟩ = Except.ok b ∧
      VMTimeDuration.String ⟨-(n : Int)⟩ = Except.ok (utf8 "-" ++ b) ∧
      b.head? ≠ some 45) ∧
    VMTimeDuration.String ⟨0⟩ = Except.ok (utf8 "0с") ∧ (utf8 "0с").head? ≠ some 45 ∧
    utf8 "-" = [45] := by
  refine ⟨⟨utf8 (positiveText n), ?_, ?_, ?_⟩, by rfl, by decide, by decide⟩
  · have hr : (⟨(n : Int)⟩ : VMTimeDuration).inRange := by
      unfold VMTimeDuration.inRange
      simp only
      omega
    rw [String_nonzero _ hr (by simp only; omega)]
    have hnn : ¬ ((n : Int) < 0) := by omega
    simp only [hnn, if_false, List.nil_append, Int.natAbs_ofNat]
  · have hr : (⟨-(n : Int)⟩ : VMTimeDuration).inRange := by
      unfold VMTimeDuration.inRange
      simp only
      omega
    rw [String_nonzero _ hr (by simp only; omega)]
    have hneg : -(n : Int) < 0 := by omega
    have hu : utf8 "-" = [45] := by decide
    simp only [hneg, if_true, Int.natAbs_neg, Int.natAbs_ofNat, hu]
  · obtain ⟨b, t, e, hb, -⟩ := positiveText_head n
    rw [e]
    simp only [List.head?_cons, ne_eq, Option.some.injEq]
    omega

theorem C12_duration_sign_witness :
    (0 : Nat) < 90000000000 ∧ 90000000000 < 2 ^ 63 ∧
      VMTimeDuration.String ⟨-((90000000000 : Nat) : Int)⟩ = Except.ok (utf8 "-1м30с") := by
  obtain ⟨⟨b, hb, hneg, -⟩, -⟩ := C12_duration_sign 90000000000 (by decide) (by norm_num)
  refine ⟨by decide, by norm_num, ?_⟩
  have : b = utf8 "1м30с" := by
    have h : VMTimeDuration.String ⟨((90000000000 : Nat) : Int)⟩ = Except.ok (utf8 "1м30с") := by
      rfl
    rw [h] at hb
    exact (Except.ok.inj hb).symm
  rw [hneg, this]
  rfl

/-! ### Serialization of `VMTimeDuration` -/

/-- C13 as stated fails: at 1.5 s `MarshalJSON` gives `"1.5s"`, the text of the standard
library, and not the quoted text `1.5с` of `String`. -/
theorem C13_marshal_json_not_localized :
    ¬ ∀ d : VMTimeDuration, ∃ b, d.String = Except.ok b ∧
        d.MarshalJSON = Except.ok (utf8 "\"" ++ b ++ utf8 "\"") := by
  intro h
  obtain ⟨b, hb, hj⟩ := h ⟨1500000000⟩
  have h1 : VMTimeDuration.String ⟨1500000000⟩ = Except.ok (utf8 "1.5с") := by rfl
  have h2 : VMTimeDuration.MarshalJSON ⟨1500000000⟩ = Except.ok (utf8 "\"1.5s\"") := by rfl
  rw [h1] at hb
  have hb' := Except.ok.inj hb
  rw [h2, ← hb'] at hj
  exact absurd (Except.ok.inj hj) (by decide)

/-- C13, amended: `MarshalJSON` returns, without error, the text of the standard library's
`time.Duration.String` (units `ns`, `µs`, `ms`, `s`, `m`, `h`) between double quotes. -/
theorem C13_marshal_json_go_text (d : VMTimeDuration) :
    d.MarshalJSON = Except.ok (utf8 ("\"" ++ goDurationText d.ns ++ "\"")) ∧
      VMTimeDuration.MarshalJSON ⟨1500000000⟩ = Except.ok (utf8 "\"1.5s\"") ∧
      VMTimeDuration.MarshalJSON ⟨500000000⟩ = Except.ok (utf8 "\"500ms\"") ∧
      VMTimeDuration.MarshalJSON ⟨-3723000000000⟩ = Except.ok (utf8 "\"-1h2m3s\"") ∧
      VMTimeDuration.MarshalJSON ⟨0⟩ = Except.ok (utf8 "\"0s\"") := by
  refine ⟨?_, by rfl, by rfl, by rfl, by rfl⟩
  simp only [VMTimeDuration.MarshalJSON, VMTimeDuration.MarshalText, utf8_append]

theorem littleEndian64_eq (u : Nat) :
    littleEndian64 u =
      [u % 256, u / 256 % 256, u / 65536 % 256, u / 16777216 % 256, u / 4294967296 % 256,
        u / 1099511627776 % 256, u / 281474976710656 % 256, u / 72057594037927936 % 256] := by
  simp [littleEndian64, List.range_succ]

/-- C14: `MarshalBinary` returns, without error, exactly eight bytes, the little-endian
two's complement encoding of the nanosecond count; `UnmarshalBinary` of these bytes succeeds
and restores the duration, and on fewer than eight bytes it returns an error and leaves the
receiver unchanged. -/
theorem C14_binary_round_trip (d : VMTimeDuration) (h : d.inRange) :
    d.MarshalBinary.2 = none ∧ d.MarshalBinary.1.length = 8 ∧
      (∀ b ∈ d.MarshalBinary.1, b < 256) ∧
      (((List.range 8).map fun i => d.MarshalBinary.1.getD i 0 * 256 ^ i).sum : Int)
        = d.ns % 2 ^ 64 ∧
      (∀ x : VMTimeDuration, x.UnmarshalBinary d.MarshalBinary.1 = (d, none)) ∧
      (∀ (x : VMTimeDuration) (data : List Nat), data.length < 8 →
        ∃ e, x.UnmarshalBinary data = (x, some e)) := by
  obtain ⟨hlo, hhi⟩ := h
  have hu : (d.ns % 2 ^ 64).toNat < 2 ^ 64 := by omega
  have hcast : ((d.ns % 2 ^ 64).toNat : Int) = d.ns % 2 ^ 64 := by omega
  have hback : toInt64 (d.ns % 2 ^ 64).toNat = d.ns := by
    unfold toInt64
    split <;> omega
  simp only [VMTimeDuration.MarshalBinary]
  generalize (d.ns % 2 ^ 64).toNat = u at hu hcast hback
  refine ⟨trivial, by simp [littleEndian64], ?_, ?_, ?_, ?_⟩
  · intro b hb
    simp only [littleEndian64, List.mem_map] at hb
    obtain ⟨i, -, rfl⟩ := hb
    exact Nat.mod_lt _ (by norm_num)
  · rw [← hcast, littleEndian64_eq]
    simp only [List.range_succ, List.range_zero, List.nil_append, List.map_append,
      List.map_cons, List.map_nil, List.cons_append, List.getD_cons_zero, List.getD_cons_succ,
      List.sum_cons, List.sum_nil]
    norm_num
    norm_cast
    omega
  · intro x
    have hdec : ofLittleEndian (littleEndian64 u) = u := by
      rw [littleEndian64_eq]
      simp only [ofLittleEndian]
      omega
    unfold VMTimeDuration.UnmarshalBinary
    have hl : (littleEndian64 u).length = 8 := by simp [littleEndian64]
    rw [if_neg (by omega), if_neg (by omega), List.take_of_length_le (by omega), hdec, hback]
  · intro x data hlen
    unfold VMTimeDuration.UnmarshalBinary
    by_cases h0 : data.length = 0
    · exact ⟨"EOF", by rw [if_pos h0]⟩
    · exact ⟨"unexpected EOF", by rw [if_neg h0, if_pos hlen]⟩

theorem C14_binary_round_trip_witness :
    (⟨-2⟩ : VMTimeDuration).inRange ∧
      VMTimeDuration.MarshalBinary ⟨-2⟩ = ([254, 255, 255, 255, 255, 255, 255, 255], none) ∧
      VMTimeDuration.UnmarshalBinary ⟨5⟩ (VMTimeDuration.MarshalBinary ⟨-2⟩).1 = (⟨-2⟩, none) :=
  ⟨by decide, by rfl, (C14_binary_round_trip ⟨-2⟩ (by decide)).2.2.2.2.1 ⟨5⟩⟩

/-! ### Operators and conversions of `VMTime` -/

theorem wrap64_neg (d : Int) (h1 : -2 ^ 63 < d) (h2 : d < 2 ^ 63) : wrap64 (-d) = -d := by
  unfold wrap64 toInt64
  split <;> omega

/-- C15: for a Duration `d` whose negation is representable, `t ADD d` is a Time, `SUB d` of
it is a Time again, and that Time is `EQL` to `t`; and `t SUB d` is `t ADD (-d)`. -/
theorem C15_add_then_sub_duration (env : TimeEnv) (t : VMTime) (d : VMTimeDuration)
    (hr : d.inRange) (hmin : d.ns ≠ -2 ^ 63) :
    ∃ t1 t2 : VMTime,
      t.EvalBinOp env VMOperation.ADD (VMValuer.VMTimeDuration d) = Except.ok (VMValuer.VMTime t1, none) ∧
      t1.EvalBinOp env VMOperation.SUB (VMValuer.VMTimeDuration d)
        = Except.ok (VMValuer.VMTime t2, none) ∧
      t2.EvalBinOp env VMOperation.EQL (VMValuer.VMTime t) = Except.ok (VMValuer.VMBool true, none) ∧
      t.EvalBinOp env VMOperation.SUB (VMValuer.VMTimeDuration d)
        = t.EvalBinOp env VMOperation.ADD (VMValuer.VMTimeDuration ⟨-d.ns⟩) := by
  obtain ⟨hlo, hhi⟩ := hr
  have hw : wrap64 (-d.ns) = -d.ns := wrap64_neg d.ns (by omega) hhi
  refine ⟨t.«Добавить» env d, (t.«Добавить» env d).«Добавить» env ⟨-d.ns⟩, ?_, ?_, ?_, ?_⟩
  · simp [VMTime.EvalBinOp, TimeEnv.durationer, VMTimeDuration.Duration]
  · simp [VMTime.EvalBinOp, TimeEnv.durationer, VMTimeDuration.Duration, hw]
  · simp [VMTime.EvalBinOp, TimeEnv.dateTimer, VMTime.Time, VMTime.«Равно»,
      VMTime.«Добавить»]
  · simp [VMTime.EvalBinOp, TimeEnv.durationer, VMTimeDuration.Duration, hw]

theorem C15_add_then_sub_duration_witness :
    (⟨90000000000⟩ : VMTimeDuration).inRange ∧ (90000000000 : Int) ≠ -2 ^ 63 ∧
      ∃ t1 t2 : VMTime,
        t20240309.EvalBinOp sampleEnv VMOperation.ADD (VMValuer.VMTimeDuration ⟨90000000000⟩)
          = Except.ok (VMValuer.VMTime t1, none) ∧
        t1.EvalBinOp sampleEnv VMOperation.SUB (VMValuer.VMTimeDuration ⟨90000000000⟩)
          = Except.ok (VMValuer.VMTime t2, none) ∧
        t2.EvalBinOp sampleEnv VMOperation.EQL (VMValuer.VMTime t20240309)
          = Except.ok (VMValuer.VMBool true, none) := by
  obtain ⟨t1, t2, h1, h2, h3, -⟩ :=
    C15_add_then_sub_duration sampleEnv t20240309 ⟨90000000000⟩ (by decide) (by decide)
  exact ⟨by decide, by decide, t1, t2, h1, h2, h3⟩

/-- C16: the six comparisons of two Times return a Bool without error and follow the order of
the instants: exactly one of `LSS`, `EQL`, `GTR` holds, `NEQ`, `GEQ`, `LEQ` are the negations of
`EQL`, `LSS`, `GTR`, and `x LSS y` holds exactly when `y GTR x` does. -/
theorem C16_time_comparisons (env : TimeEnv) (x y : VMTime) :
    ∃ lss eql gtr : Bool,
      x.EvalBinOp env VMOperation.LSS (VMValuer.VMTime y) = Except.ok (VMValuer.VMBool lss, none) ∧
      x.EvalBinOp env VMOperation.EQL (VMValuer.VMTime y) = Except.ok (VMValuer.VMBool eql, none) ∧
      x.EvalBinOp env VMOperation.GTR (VMValuer.VMTime y) = Except.ok (VMValuer.VMBool gtr, none) ∧
      x.EvalBinOp env VMOperation.NEQ (VMValuer.VMTime y) = Except.ok (VMValuer.VMBool (!eql), none) ∧
      x.EvalBinOp env VMOperation.GEQ (VMValuer.VMTime y) = Except.ok (VMValuer.VMBool (!lss), none) ∧
      x.EvalBinOp env VMOperation.LEQ (VMValuer.VMTime y) = Except.ok (VMValuer.VMBool (!gtr), none) ∧
      y.EvalBinOp env VMOperation.GTR (VMValuer.VMTime x) = Except.ok (VMValuer.VMBool lss, none) ∧
      ((lss = true ∧ eql = false ∧ gtr = false) ∨ (lss = false ∧ eql = true ∧ gtr = false) ∨
        (lss = false ∧ eql = false ∧ gtr = true)) ∧
      (lss = true ↔ x.instant < y.instant) ∧ (eql = true ↔ x.instant = y.instant) ∧
      (gtr = true ↔ y.instant < x.instant) := by
  refine ⟨x.«Раньше» y, x.«Равно» y, x.«Позже» y, rfl, rfl, rfl, rfl, ?_, ?_, ?_, ?_, ?_, ?_, ?_⟩
  · simp only [VMTime.EvalBinOp, TimeEnv.dateTimer, VMTime.Time, VMTime.«Равно»,
      VMTime.«Позже», VMTime.«Раньше»]
    rcases lt_trichotomy x.instant y.instant with h | h | h <;>
      simp [h, not_lt_of_gt, ne_of_lt, ne_of_gt, le_of_lt]
  · simp only [VMTime.EvalBinOp, TimeEnv.dateTimer, VMTime.Time, VMTime.«Равно»,
      VMTime.«Позже», VMTime.«Раньше»]
    rcases lt_trichotomy x.instant y.instant with h | h | h <;>
      simp [h, not_lt_of_gt, ne_of_lt, ne_of_gt, le_of_lt]
  · simp [VMTime.EvalBinOp, TimeEnv.dateTimer, VMTime.Time, VMTime.«Позже», VMTime.«Раньше»]
  · simp only [VMTime.«Равно», VMTime.«Позже», VMTime.«Раньше», decide_eq_true_eq,
      decide_eq_false_iff_not]
    rcases lt_trichotomy x.instant y.instant with h | h | h
    · exact Or.inl ⟨h, ne_of_lt h, not_lt_of_gt h⟩
    · exact Or.inr (Or.inl ⟨by omega, h, by omega⟩)
    · exact Or.inr (Or.inr ⟨by omega, by omega, h⟩)
  · simp [VMTime.«Раньше»]
  · simp [VMTime.«Равно»]
  · simp [VMTime.«Позже»]

/-- A String operand of a comparison is converted by its method `Time`: when no layout parses
the text, the comparison panics. -/
theorem time_eql_string_panics :
    t20240309.EvalBinOp sampleEnv VMOperation.EQL (VMValuer.VMString (utf8 "abc"))
      = Except.error (Err.panic "Неверный формат даты и времени") := by
  rfl

/-- C17 as stated fails: a Time in the year 10000 converts to no String; the conversion
returns Nil and the error of `json.Marshal`. -/
theorem C17_time_to_string_year_10000 :
    ¬ ∀ (rfc3339 : VMTime → List Nat) (x : VMTime),
        ∃ s, x.ConvertToType rfc3339 ReflectType.ReflectVMString = (VMValuer.VMString s, none) := by
  intro h
  obtain ⟨s, hs⟩ := h (fun _ => []) t100000101
  have : t100000101.ConvertToType (fun _ => []) ReflectType.ReflectVMString
      = (VMValuer.VMNil, some
          ("json: error calling MarshalJSON for type core.VMTime: " ++
            "Time.MarshalJSON: year outside of range [0,9999]")) := by rfl
  rw [this] at hs
  exact absurd (congrArg Prod.snd hs) (by simp)

/-- C17, amended: the target Time returns the Time itself without error; the target String
returns, for a year in 0 … 9999 and a zone offset of less than 24 hours, a String holding the
JSON text of the Time, which begins and ends with a double quote; for any other year, and for
a year in 0 … 9999 with a zone offset of 24 hours or more, it returns Nil with the error of
`json.Marshal`, which wraps the error of `MarshalJSON`; every other target returns Nil with
the type-conversion error. -/
theorem C17_time_convert (rfc3339 : VMTime → List Nat) (x : VMTime) :
    x.ConvertToType rfc3339 ReflectType.ReflectVMTime = (VMValuer.VMTime x, none) ∧
    (0 ≤ x.year → x.year ≤ 9999 → -86400 < x.zoneOffset → x.zoneOffset < 86400 →
      x.MarshalJSON rfc3339 = Except.ok ([34] ++ rfc3339 x ++ [34]) ∧
      x.ConvertToType rfc3339 ReflectType.ReflectVMString
        = (VMValuer.VMString ([34] ++ rfc3339 x ++ [34]), none)) ∧
    (x.year < 0 ∨ 9999 < x.year →
      x.ConvertToType rfc3339 ReflectType.ReflectVMString
        = (VMValuer.VMNil, some
            ("json: error calling MarshalJSON for type core.VMTime: " ++
              "Time.MarshalJSON: year outside of range [0,9999]"))) ∧
    (0 ≤ x.year → x.year ≤ 9999 → (x.zoneOffset ≤ -86400 ∨ 86400 ≤ x.zoneOffset) →
      x.ConvertToType rfc3339 ReflectType.ReflectVMString
        = (VMValuer.VMNil, some
            ("json: error calling MarshalJSON for type core.VMTime: " ++
              "Time.MarshalJSON: timezone hour outside of range [0,23]"))) ∧
    (∀ nt, nt ≠ ReflectType.ReflectVMString → nt ≠ ReflectType.ReflectVMTime →
      x.ConvertToType rfc3339 nt = (VMValuer.VMNil, some errConversion)) ∧
    utf8 "\"" = [34] := by
  have hq : utf8 "\"" = [34] := by decide
  refine ⟨rfl, ?_, ?_, ?_, ?_, hq⟩
  · intro h0 h1 h2 h3
    have hc : ¬ (x.year < 0 ∨ 10000 ≤ x.year) := by omega
    have hz : ¬ 24 ≤ x.zoneOffset.natAbs / 60 / 60 := by omega
    simp only [VMTime.ConvertToType, VMTime.MarshalJSON, goTimeMarshalJSON, jsonMarshal,
      if_neg hc, if_neg hz, hq, and_self]
  · intro h
    have hc : x.year < 0 ∨ 10000 ≤ x.year := by omega
    simp only [VMTime.ConvertToType, VMTime.MarshalJSON, goTimeMarshalJSON, jsonMarshal,
      if_pos hc]
    rfl
  · intro h0 h1 h2
    have hc : ¬ (x.year < 0 ∨ 10000 ≤ x.year) := by omega
    have hz : 24 ≤ x.zoneOffset.natAbs / 60 / 60 := by omega
    simp only [VMTime.ConvertToType, VMTime.MarshalJSON, goTimeMarshalJSON, jsonMarshal,
      if_neg hc, if_pos hz]
    rfl
  · intro nt h1 h2
    cases nt <;> first | exact absurd rfl h1 | exact absurd rfl h2 | rfl

theorem C17_time_convert_witness :
    (0 : Int) ≤ t20240309.year ∧ t20240309.year ≤ 9999 ∧
      -86400 < t20240309.zoneOffset ∧ t20240309.zoneOffset < 86400 ∧
      t20240309.ConvertToType (fun _ => utf8 "2024-03-09T15:04:05Z") ReflectType.ReflectVMString
        = (VMValuer.VMString (utf8 "\"2024-03-09T15:04:05Z\""), none) :=
  ⟨by decide, by decide, by decide, by decide,
    ((C17_time_convert (fun _ => utf8 "2024-03-09T15:04:05Z") t20240309).2.1
      (by decide) (by decide) (by decide) (by decide)).2⟩

/-- A time of 2024 in a zone 25 hours east of UTC converts to no String either: the
conversion returns Nil and the error of `json.Marshal` for the zone hour. -/
theorem time_to_string_zone_25 (rfc3339 : VMTime → List Nat) :
    t20240309plus25.ConvertToType rfc3339 ReflectType.ReflectVMString
      = (VMValuer.VMNil, some
          ("json: error calling MarshalJSON for type core.VMTime: " ++
            "Time.MarshalJSON: timezone hour outside of range [0,23]")) := by
  rfl

/-! ### Operators of `VMString` -/

theorem removeScan_nil (old : List Nat) (fuel : Nat) : removeScan old fuel [] = [] := by
  cases fuel <;> rfl

theorem RemovedAll.cons {y : List Nat} {c : Nat} {cs r : List Nat} (hnp : ¬ y <+: c :: cs)
    (h : RemovedAll y cs r) : RemovedAll y (c :: cs) (c :: r) := by
  cases h with
  | done s hs =>
    refine RemovedAll.done _ ?_
    rw [List.infix_cons_iff]
    exact fun h => h.elim hnp hs
  | step p rest r' hp hr =>
    have := RemovedAll.step (c :: p) rest r' (y := y) (by
      intro i hi
      cases i with
      | zero => exact hnp
      | succ i =>
        simp only [List.length_cons, Nat.add_lt_add_iff_right] at hi
        exact hp i hi) hr
    exact this

/-- The scan removes the instances of a non-empty `y` found from the left. -/
theorem removeScan_removedAll (y : List Nat) (hy : y ≠ []) :
    ∀ (fuel : Nat) (s : List Nat), s.length ≤ fuel → RemovedAll y s (removeScan y fuel s) := by
  have hnil : RemovedAll y [] [] := RemovedAll.done [] (by simpa using hy)
  intro fuel
  induction fuel with
  | zero =>
    intro s hs
    have : s = [] := List.length_eq_zero.mp (Nat.le_zero.mp hs)
    subst this
    exact hnil
  | succ fuel ih =>
    intro s hs
    cases s with
    | nil => exact hnil
    | cons c cs =>
      simp only [removeScan]
      by_cases hp : y.isPrefixOf (c :: cs) = true
      · rw [if_pos hp]
        have hpre : y <+: c :: cs := List.isPrefixOf_iff_prefix.mp hp
        have hsplit : c :: cs = [] ++ y ++ (c :: cs).drop y.length := by
          simpa using (List.prefix_iff_eq_append.mp hpre).symm
        have hylen : 1 ≤ y.length := by
          cases y with
          | nil => exact absurd rfl hy
          | cons a t => simp
        have hlen : ((c :: cs).drop y.length).length ≤ fuel := by
          simp only [List.length_drop, List.length_cons] at hs ⊢
          omega
        have := RemovedAll.step [] ((c :: cs).drop y.length) _ (y := y)
          (fun i hi => absurd hi (Nat.not_lt_zero _)) (ih _ hlen)
        rw [← hsplit] at this
        exact this
      · rw [if_neg hp]
        have hnp : ¬ y <+: c :: cs := fun h => hp (List.isPrefixOf_iff_prefix.mpr h)
        exact RemovedAll.cons hnp (ih cs (by simpa using hs))

/-- C18 as stated fails: `"aabb" SUB "ab"` is `"ab"`, which contains the operand again. -/
theorem C18_result_may_contain_operand :
    ¬ ∀ x y : VMString, y ≠ [] →
        ∃ r, VMString.EvalBinOp x VMOperation.SUB (VMValuer.VMString y)
            = Except.ok (VMValuer.VMString r, none) ∧ ¬ y <:+: r := by
  intro h
  obtain ⟨r, hr, hn⟩ := h (utf8 "aabb") (utf8 "ab") (by decide)
  have he : VMString.EvalBinOp (utf8 "aabb") VMOperation.SUB (VMValuer.VMString (utf8 "ab"))
      = Except.ok (VMValuer.VMString (utf8 "ab"), none) := by rfl
  rw [he] at hr
  have hr' : utf8 "ab" = r := by
    have := congrArg Prod.fst (Except.ok.inj hr)
    exact VMValuer.VMString.inj this
  rw [← hr'] at hn
  exact hn (List.infix_refl _)

/-- C18, amended: `x SUB y` returns, without error, `x` with the instances of `y` removed that
a scan from the left finds, one after the other without overlap; the result is `x` when `y`
is empty or does not occur in `x`. -/
theorem C18_string_sub_removes_scanned_instances (x y : VMString) :
    ∃ r, VMString.EvalBinOp x VMOperation.SUB (VMValuer.VMString y)
        = Except.ok (VMValuer.VMString r, none) ∧
      (y = [] → r = x) ∧ (y ≠ [] → RemovedAll y x r) ∧
      VMString.EvalBinOp (utf8 "a-b-c") VMOperation.SUB (VMValuer.VMString (utf8 "-"))
        = Except.ok (VMValuer.VMString (utf8 "abc"), none) ∧
      VMString.EvalBinOp (utf8 "aabb") VMOperation.SUB (VMValuer.VMString (utf8 "ab"))
        = Except.ok (VMValuer.VMString (utf8 "ab"), none) := by
  refine ⟨stringsRemove x y, rfl, ?_, ?_, by rfl, by rfl⟩
  · intro hy
    simp [stringsRemove, hy]
  · intro hy
    simp only [stringsRemove, if_neg hy]
    exact removeScan_removedAll y hy _ _ (le_refl _)

theorem C18_string_sub_removes_scanned_instances_witness :
    utf8 "ab" ≠ [] ∧
      ∃ r, VMString.EvalBinOp (utf8 "xabyabz") VMOperation.SUB (VMValuer.VMString (utf8 "ab"))
          = Except.ok (VMValuer.VMString r, none) ∧ RemovedAll (utf8 "ab") (utf8 "xabyabz") r := by
  obtain ⟨r, h1, -, h3, -⟩ :=
    C18_string_sub_removes_scanned_instances (utf8 "xabyabz") (utf8 "ab")
  exact ⟨by decide, r, h1, h3 (by decide)⟩

/-- What `x MUL n` does for a count that is not negative: `n` copies of `x`, no error. -/
theorem string_mul_nonneg (x : VMString) (n : Nat) :
    VMString.EvalBinOp x VMOperation.MUL (VMValuer.VMInt n)
      = Except.ok (VMValuer.VMString (List.replicate n x).flatten, none) := by
  have h : ¬ ((n : Int) < 0) := by omega
  simp [VMString.EvalBinOp, stringsRepeat, h]

/-- C19: `x MUL n` with a negative `n` passes `n` to `strings.Repeat`, which panics; no empty
String is returned. A count that is not negative gives that many copies. -/
theorem C19_string_mul_negative_panics :
    VMString.EvalBinOp (utf8 "ab") VMOperation.MUL (VMValuer.VMInt (-1))
        = Except.error Err.negativeRepeat ∧
      VMString.EvalBinOp (utf8 "ab") VMOperation.MUL (VMValuer.VMInt 3)
        = Except.ok (VMValuer.VMString (utf8 "ababab"), none) ∧
      VMString.EvalBinOp (utf8 "ab") VMOperation.MUL (VMValuer.VMInt 0)
        = Except.ok (VMValuer.VMString [], none) := by
  refine ⟨by rfl, by rfl, by rfl⟩

theorem bytesCompare_spec :
    ∀ x y : List Nat,
      (bytesCompare x y = -1 ∧ List.Lex (· < ·) x y) ∨ (bytesCompare x y = 0 ∧ x = y) ∨
        (bytesCompare x y = 1 ∧ List.Lex (· < ·) y x) := by
  intro x
  induction x with
  | nil =>
    intro y
    cases y with
    | nil => exact Or.inr (Or.inl ⟨rfl, rfl⟩)
    | cons b bs => exact Or.inl ⟨rfl, List.Lex.nil⟩
  | cons a as ih =>
    intro y
    cases y with
    | nil => exact Or.inr (Or.inr ⟨rfl, List.Lex.nil⟩)
    | cons b bs =>
      simp only [bytesCompare]
      by_cases h1 : a < b
      · rw [if_pos h1]
        exact Or.inl ⟨rfl, List.Lex.rel h1⟩
      · rw [if_neg h1]
        by_cases h2 : b < a
        · rw [if_pos h2]
          exact Or.inr (Or.inr ⟨rfl, List.Lex.rel h2⟩)
        · rw [if_neg h2]
          have hab : a = b := by omega
          subst hab
          rcases ih bs with ⟨e, h⟩ | ⟨e, h⟩ | ⟨e, h⟩
          · exact Or.inl ⟨e, List.Lex.cons h⟩
          · exact Or.inr (Or.inl ⟨e, by rw [h]⟩)
          · exact Or.inr (Or.inr ⟨e, List.Lex.cons h⟩)

theorem lex_irrefl (x : List Nat) : ¬ List.Lex (· < ·) x x := by
  intro h
  induction x with
  | nil => cases h
  | cons a as ih =>
    cases h with
    | cons h => exact ih h
    | rel h => exact absurd h (lt_irrefl a)

theorem lex_asymm : ∀ x y : List Nat, List.Lex (· < ·) x y → ¬ List.Lex (· < ·) y x := by
  intro x
  induction x with
  | nil => intro y _ h; cases h
  | cons a as ih =>
    intro y h1 h2
    cases h1 with
    | cons h =>
      cases h2 with
      | cons h' => exact ih _ h h'
      | rel h' => exact absurd h' (lt_irrefl a)
    | rel h =>
      cases h2 with
      | cons h' => exact absurd h (lt_irrefl a)
      | rel h' => exact absurd h (lt_asymm h')

/-- C20: the six comparisons of two Strings return a Bool without error and follow the
lexicographic order of the bytes: `LSS` exactly when `x` strictly precedes `y`, `EQL` exactly
when they are identical, `GTR` exactly when `y LSS x`; `NEQ`, `GEQ`, `LEQ` are the negations of
`EQL`, `LSS`, `GTR`; exactly one of `LSS`, `EQL`, `GTR` holds. -/
theorem C20_string_comparisons (x y : VMString) :
    ∃ lss eql gtr : Bool,
      VMString.EvalBinOp x VMOperation.LSS (VMValuer.VMString y)
        = Except.ok (VMValuer.VMBool lss, none) ∧
      VMString.EvalBinOp x VMOperation.EQL (VMValuer.VMString y)
        = Except.ok (VMValuer.VMBool eql, none) ∧
      VMString.EvalBinOp x VMOperation.GTR (VMValuer.VMString y)
        = Except.ok (VMValuer.VMBool gtr, none) ∧
      VMString.EvalBinOp x VMOperation.NEQ (VMValuer.VMString y)
        = Except.ok (VMValuer.VMBool (!eql), none) ∧
      VMString.EvalBinOp x VMOperation.GEQ (VMValuer.VMString y)
        = Except.ok (VMValuer.VMBool (!lss), none) ∧
      VMString.EvalBinOp x VMOperation.LEQ (VMValuer.VMString y)
        = Except.ok (VMValuer.VMBool (!gtr), none) ∧
      VMString.EvalBinOp y VMOperation.LSS (VMValuer.VMString x)
        = Except.ok (VMValuer.VMBool gtr, none) ∧
      (lss = true ↔ List.Lex (· < ·) x y) ∧ (eql = true ↔ x = y) ∧
      (gtr = true ↔ List.Lex (· < ·) y x) ∧
      ((lss = true ∧ eql = false ∧ gtr = false) ∨ (lss = false ∧ eql = true ∧ gtr = false) ∨
        (lss = false ∧ eql = false ∧ gtr = true)) := by
  refine ⟨bytesCompare x y == -1, bytesEqual x y, bytesCompare x y == 1, rfl, rfl, rfl, rfl,
    ?_, ?_, ?_, ?_, ?_, ?_, ?_⟩
  all_goals try simp only [VMString.EvalBinOp, bytesEqual]
  all_goals
    rcases bytesCompare_spec x y with ⟨e, h⟩ | ⟨e, h⟩ | ⟨e, h⟩
  all_goals rcases bytesCompare_spec y x with ⟨e', h'⟩ | ⟨e', h'⟩ | ⟨e', h'⟩
  all_goals first
    | exact absurd h' (lex_asymm _ _ h)
    | exact absurd h (lex_asymm _ _ h')
    | (subst h; exact absurd h' (lex_irrefl _))
    | (subst h'; exact absurd h (lex_irrefl _))
    | (have hne : x ≠ y := fun hxy => by subst hxy; exact lex_irrefl _ h
       have hn := lex_asymm _ _ h
       simp [e, e', h, hne, hn])
    | (subst h; simp [e, lex_irrefl])

/-! ### The operator tables -/

theorem mapIndex_mem {κ ν : Type} [DecidableEq κ] (m : List (κ × ν)) (k : κ) (v : ν)
    (h : mapIndex m k = some v) : (k, v) ∈ m := by
  unfold mapIndex at h
  cases hf : m.find? (fun e => decide (e.1 = k)) with
  | none => rw [hf] at h; cases h
  | some e =>
    rw [hf] at h
    have h1 := List.find?_some hf
    have h2 := List.mem_of_find?_eq_some hf
    simp only [Option.map_some', Option.some.injEq] at h
    simp only [decide_eq_true_eq] at h1
    obtain ⟨a, b⟩ := e
    simp only at h h1
    subst h h1
    exact h2

/-- C29: `OperMap` and `OperMapR` are mutually inverse: every symbol of `OperMap` is mapped
back by `OperMapR` and every code of `OperMapR` is mapped back by `OperMap`; each table has 18
entries with pairwise distinct keys, the codes are pairwise distinct and are exactly 1 … 18
(`ADD` = 1, `SHR` = 18), and 0 is no operator code. -/
theorem C29_operator_tables_inverse :
    (∀ s c, mapIndex bincode.OperMap s = some c → mapIndex bincode.OperMapR c = some s) ∧
    (∀ c s, mapIndex bincode.OperMapR c = some s → mapIndex bincode.OperMap s = some c) ∧
    bincode.OperMap.length = 18 ∧ bincode.OperMapR.length = 18 ∧
    (bincode.OperMap.map Prod.fst).Nodup ∧ (bincode.OperMapR.map Prod.fst).Nodup ∧
    (bincode.OperMap.map Prod.snd).Nodup ∧
    (∀ c : Int, (∃ s, mapIndex bincode.OperMapR c = some s) ↔ 1 ≤ c ∧ c ≤ 18) ∧
    (∀ c : Int, (∃ s, mapIndex bincode.OperMap s = some c) ↔ 1 ≤ c ∧ c ≤ 18) ∧
    [bincode.ADD, bincode.SUB, bincode.MUL, bincode.QUO, bincode.REM, bincode.EQL,
      bincode.NEQ, bincode.GTR, bincode.GEQ, bincode.LSS, bincode.LEQ, bincode.OR,
      bincode.LOR, bincode.AND, bincode.LAND, bincode.POW, bincode.SHL, bincode.SHR] =
      (List.range 18).map (fun i => ((i + 1 : Nat) : Int)) ∧
    mapIndex bincode.OperMapR 0 = none ∧
    (∀ s, mapIndex bincode.OperMap s ≠ some 0) := by
  have hall : ∀ p ∈ bincode.OperMap, mapIndex bincode.OperMapR p.2 = some p.1 := by decide
  have hallR : ∀ p ∈ bincode.OperMapR, mapIndex bincode.OperMap p.2 = some p.1 := by decide
  have hcodes : ∀ p ∈ bincode.OperMap, 1 ≤ p.2 ∧ p.2 ≤ 18 := by decide
  have hcodesR : ∀ p ∈ bincode.OperMapR, 1 ≤ p.1 ∧ p.1 ≤ 18 := by decide
  have hrange : ∀ i : Fin 18, (mapIndex bincode.OperMapR ((i.val + 1 : Nat) : Int)).isSome = true := by
    decide
  have hR : ∀ c : Int, (∃ s, mapIndex bincode.OperMapR c = some s) ↔ 1 ≤ c ∧ c ≤ 18 := by
    intro c
    constructor
    · rintro ⟨s, hs⟩
      exact hcodesR _ (mapIndex_mem _ _ _ hs)
    · rintro ⟨h1, h2⟩
      have h := hrange ⟨(c - 1).toNat, by omega⟩
      have e : (((c - 1).toNat + 1 : Nat) : Int) = c := by omega
      simp only [e] at h
      exact Option.isSome_iff_exists.mp h
  refine ⟨fun s c h => hall _ (mapIndex_mem _ _ _ h), fun c s h => hallR _ (mapIndex_mem _ _ _ h),
    by decide, by decide, by decide, by decide, by decide, hR, ?_, by decide, by decide, ?_⟩
  · intro c
    constructor
    · rintro ⟨s, hs⟩
      exact hcodes _ (mapIndex_mem _ _ _ hs)
    · intro h
      obtain ⟨s, hs⟩ := (hR c).mpr h
      exact ⟨s, hallR _ (mapIndex_mem _ _ _ hs)⟩
  · intro s h
    have := hcodes _ (mapIndex_mem _ _ _ h)
    simp at this

/-! ### `VMString.EvalBinOp` on operands of other variants -/

/-- C21 (as stated, refuted): comparing the String "abc" against Nil with `EQL` or `NEQ`
returns Nil with the error of an undefined operation, and no Bool. -/
theorem C21_string_eql_nil_fails :
    VMString.EvalBinOp (utf8 "abc") VMOperation.EQL VMValuer.VMNil =
      Except.ok (VMValuer.VMNil, some errOperation) ∧
    VMString.EvalBinOp (utf8 "abc") VMOperation.NEQ VMValuer.VMNil =
      Except.ok (VMValuer.VMNil, some errOperation) ∧
    ¬ (∃ b, VMString.EvalBinOp (utf8 "abc") VMOperation.EQL VMValuer.VMNil =
      Except.ok (VMValuer.VMBool b, none)) ∧
    ¬ (∃ b, VMString.EvalBinOp (utf8 "abc") VMOperation.NEQ VMValuer.VMNil =
      Except.ok (VMValuer.VMBool b, none)) := by
  refine ⟨rfl, rfl, ?_, ?_⟩ <;> rintro ⟨b, hb⟩ <;> simp [VMString.EvalBinOp] at hb

/-- C21 (amended): for every String `x`, every operator applied to `x` and Nil through
`VMString.EvalBinOp` fails, `EQL` and `NEQ` included: each of the 18 operators returns Nil with
the error "Операция между значениями невозможна" (and any other tag Nil with "Неизвестная
операция"). -/
theorem C21_string_nil_operand_fails (x : VMString) (op : VMOperation) :
    VMString.EvalBinOp x op VMValuer.VMNil =
      Except.ok (VMValuer.VMNil,
        some (match op with
          | VMOperation.other _ => errUnknownOperation
          | _ => errOperation)) := by
  cases op <;> rfl

/-- C22: for every String `x`, `VMString.EvalBinOp` returns Nil with the error "Операция между
значениями невозможна" for `ADD`, `SUB` and the six comparisons when the operand is not a
String (in particular when it is neither a String nor Nil), for `MUL` when the operand is not
an Integer, and for `QUO`, `REM`, `OR`, `LOR`, `AND`, `LAND`, `POW`, `SHL`, `SHR` with every
operand; a tag outside the 18 operators returns Nil with the error "Неизвестная операция". -/
theorem C22_string_undefined_operations (x : VMString) (y : VMValuer) :
    (∀ op ∈ [VMOperation.ADD, VMOperation.SUB, VMOperation.EQL, VMOperation.NEQ,
        VMOperation.GTR, VMOperation.GEQ, VMOperation.LSS, VMOperation.LEQ],
      (∀ s, y ≠ VMValuer.VMString s) →
        VMString.EvalBinOp x op y = Except.ok (VMValuer.VMNil, some errOperation)) ∧
    ((∀ n, y ≠ VMValuer.VMInt n) →
      VMString.EvalBinOp x VMOperation.MUL y = Except.ok (VMValuer.VMNil, some errOperation)) ∧
    (∀ op ∈ [VMOperation.QUO, VMOperation.REM, VMOperation.OR, VMOperation.LOR,
        VMOperation.AND, VMOperation.LAND, VMOperation.POW, VMOperation.SHL, VMOperation.SHR],
      VMString.EvalBinOp x op y = Except.ok (VMValuer.VMNil, some errOperation)) ∧
    (∀ tag, VMString.EvalBinOp x (VMOperation.other tag) y =
      Except.ok (VMValuer.VMNil, some errUnknownOperation)) ∧
    errOperation = "Операция между значениями невозможна" ∧
    errUnknownOperation = "Неизвестная операция" := by
  refine ⟨?_, ?_, ?_, fun _ => rfl, rfl, rfl⟩
  · intro op hop hy
    simp only [List.mem_cons, List.mem_singleton, List.not_mem_nil, or_false] at hop
    rcases hop with h | h | h | h | h | h | h | h <;> subst h <;>
      cases y <;> first | rfl | exact absurd rfl (hy _)
  · intro hy
    cases y <;> first | rfl | exact absurd rfl (hy _)
  · intro op hop
    simp only [List.mem_cons, List.mem_singleton, List.not_mem_nil, or_false] at hop
    rcases hop with h | h | h | h | h | h | h | h | h <;> subst h <;> rfl

/-! ### `DecryptAES128` -/

theorem aesNewCipher_aesKey : aesNewCipher aesKey = Except.ok aesKey := by decide

/-- C28: for every byte string shorter than the nonce size of AES-GCM (12 bytes), the empty
one included, `DecryptAES128` returns the error `VMErrorSmallDecodeBuffer` and no plaintext;
for an input of at least 12 bytes it never returns that error: it returns what `gcm.Open`
returns for the first 12 bytes as nonce and the rest as ciphertext. -/
theorem C28_small_decode_buffer
    (gcmOpen : List Nat → List Nat → List Nat → Option (List Nat) × Option GoError)
    (ciphertext : List Nat) :
    (ciphertext.length < 12 →
      DecryptAES128 gcmOpen ciphertext = (none, some CryptError.VMErrorSmallDecodeBuffer)) ∧
    (12 ≤ ciphertext.length →
      (DecryptAES128 gcmOpen ciphertext).2 ≠ some CryptError.VMErrorSmallDecodeBuffer ∧
      DecryptAES128 gcmOpen ciphertext =
        ((gcmOpen aesKey (ciphertext.take 12) (ciphertext.drop 12)).1,
         (gcmOpen aesKey (ciphertext.take 12) (ciphertext.drop 12)).2.map CryptError.lib)) ∧
    DecryptAES128 gcmOpen [] = (none, some CryptError.VMErrorSmallDecodeBuffer) := by
  have key : DecryptAES128 gcmOpen ciphertext =
      if ciphertext.length < 12 then (none, some CryptError.VMErrorSmallDecodeBuffer)
      else ((gcmOpen aesKey (ciphertext.take 12) (ciphertext.drop 12)).1,
         (gcmOpen aesKey (ciphertext.take 12) (ciphertext.drop 12)).2.map CryptError.lib) := by
    simp only [DecryptAES128, aesNewCipher_aesKey, cipherNewGCM, gcmNonceSize]
  refine ⟨fun h => ?_, fun h => ?_, ?_⟩
  · rw [key, if_pos h]
  · rw [key, if_neg (by omega)]
    refine ⟨?_, rfl⟩
    cases (gcmOpen aesKey (ciphertext.take 12) (ciphertext.drop 12)).2 <;> simp
  · simp only [DecryptAES128, aesNewCipher_aesKey, cipherNewGCM, gcmNonceSize]
    rfl

/-! ### `strconv.ParseInt` and `VMString.Int` -/

theorem digitIndex_small (base : Nat) (hb : base = 10 ∨ base = 16) :
    ∀ c, c < 128 → digitIndex base c = (digitValue c).filter (fun d => decide (d < base)) := by
  rcases hb with h | h <;> subst h <;> decide

theorem digitIndex_eq (base : Nat) (hb : base = 10 ∨ base = 16) (c : Nat) :
    digitIndex base c = (digitValue c).filter (fun d => decide (d < base)) := by
  by_cases hc : c < 128
  · exact digitIndex_small base hb c hc
  · have hv : digitValue c = none := by
      unfold digitValue
      rw [if_neg (by omega), if_neg (by omega), if_neg (by omega)]
    have hl : ∀ l : List Nat, (∀ x ∈ l, x < 128) → c ∉ l := fun l hl hm => hc (hl c hm)
    have h1 : ∀ x ∈ utf8 "0123456789abcdefghijklmnopqrstuvwxyz", x < 128 := by decide
    have h2 : ∀ x ∈ utf8 "0123456789ABCDEFGHIJKLMNOPQRSTUVWXYZ", x < 128 := by decide
    unfold digitIndex
    simp only
    rw [if_neg (hl _ fun x hx => h1 x (List.mem_of_mem_take hx)),
      if_neg (hl _ fun x hx => h2 x (List.mem_of_mem_take hx)), hv]
    rfl

theorem mapM_option_length {α β : Type} (f : α → Option β) :
    ∀ (l : List α) (r : List β), l.mapM f = some r → r.length = l.length := by
  intro l
  induction l with
  | nil =>
    intro r h
    simp only [List.mapM_nil, Option.pure_def, Option.some.injEq] at h
    subst h
    rfl
  | cons a l ih =>
    intro r h
    rw [List.mapM_cons] at h
    cases ha : f a with
    | none => rw [ha] at h; simp at h
    | some b =>
      cases hl : l.mapM f with
      | none => rw [ha, hl] at h; simp at h
      | some r' =>
        rw [ha, hl] at h
        simp only [Option.pure_def, Option.bind_eq_bind, Option.some_bind,
          Option.some.injEq] at h
        subst h
        simp [ih r' hl]

theorem parseUintLoop_digits (base maxVal : Nat) (hb : base = 10 ∨ base = 16) :
    ∀ (cs : List Nat) (n : Nat) (ds : List Nat), cs.mapM (digitIndex base) = some ds →
      n * base ^ cs.length + Nat.ofDigits base ds.reverse ≤ maxVal →
      parseUintLoop base maxVal n cs =
        (n * base ^ cs.length + Nat.ofDigits base ds.reverse, none) := by
  intro cs
  induction cs with
  | nil =>
    intro n ds h _
    simp only [List.mapM_nil, Option.pure_def, Option.some.injEq] at h
    subst h
    simp [parseUintLoop]
  | cons c cs ih =>
    intro n ds h hle
    rw [List.mapM_cons] at h
    cases hd : digitIndex base c with
    | none => rw [hd] at h; simp at h
    | some d =>
      cases hr : cs.mapM (digitIndex base) with
      | none => rw [hd, hr] at h; simp at h
      | some ds' =>
        rw [hd, hr] at h
        simp only [Option.pure_def, Option.bind_eq_bind, Option.some_bind, Option.some.injEq] at h
        subst h
        rw [digitIndex_eq base hb] at hd
        cases hv : digitValue c with
        | none => rw [hv] at hd; simp at hd
        | some d' =>
          rw [hv] at hd
          simp only [Option.filter] at hd
          split at hd
          · rename_i hlt
            simp only [Option.some.injEq] at hd
            subst hd
            simp only [decide_eq_true_eq] at hlt
            have e : n * base ^ (c :: cs).length + Nat.ofDigits base (d' :: ds').reverse =
                (n * base + d') * base ^ cs.length + Nat.ofDigits base ds'.reverse := by
              rw [List.reverse_cons, Nat.ofDigits_append, Nat.ofDigits_singleton,
                List.length_reverse, List.length_cons, pow_succ]
              have hlen : ds'.length = cs.length := by
                exact mapM_option_length _ _ _ hr
              rw [hlen]
              ring
            rw [e] at hle ⊢
            have hpos : 1 ≤ base ^ cs.length := Nat.one_le_pow _ _ (by omega)
            have hle2 : n * base + d' ≤ maxVal :=
              le_trans (le_trans (Nat.le_mul_of_pos_right _ hpos) (Nat.le_add_right _ _)) hle
            rw [parseUintLoop, hv]
            simp only
            rw [if_neg (by omega), if_neg (by omega)]
            exact ih _ _ hr hle
          · cases hd

theorem parseUintLoop_error_ne (base maxVal : Nat) :
    ∀ (cs : List Nat) (n : Nat), (parseUintLoop base maxVal n cs).2 = none ∨
      (parseUintLoop base maxVal n cs) = (0, some errSyntax) ∨
      (parseUintLoop base maxVal n cs) = (maxVal, some errRange) := by
  intro cs
  induction cs with
  | nil => intro n; left; rfl
  | cons c cs ih =>
    intro n
    rw [parseUintLoop]
    cases digitValue c with
    | none => right; left; rfl
    | some d =>
      simp only
      split_ifs
      · right; left; rfl
      · right; right; rfl
      · exact ih _

theorem parseUintLoop_sound (base maxVal : Nat) (hb : base = 10 ∨ base = 16) :
    ∀ (cs : List Nat) (n r : Nat), parseUintLoop base maxVal n cs = (r, none) →
      ∃ ds, cs.mapM (digitIndex base) = some ds ∧
        r = n * base ^ cs.length + Nat.ofDigits base ds.reverse ∧ (n ≤ maxVal → r ≤ maxVal) := by
  intro cs
  induction cs with
  | nil =>
    intro n r h
    simp only [parseUintLoop, Prod.mk.injEq, and_true] at h
    subst h
    exact ⟨[], by simp only [List.mapM_nil, Option.pure_def], by simp, fun h => h⟩
  | cons c cs ih =>
    intro n r h
    rw [parseUintLoop] at h
    cases hv : digitValue c with
    | none => rw [hv] at h; simp at h
    | some d =>
      rw [hv] at h
      simp only at h
      by_cases h1 : base ≤ d
      · rw [if_pos h1] at h; simp at h
      · rw [if_neg h1] at h
        by_cases h2 : maxVal < n * base + d
        · rw [if_pos h2] at h; simp at h
        · rw [if_neg h2] at h
          obtain ⟨ds, hds, hr, hle⟩ := ih _ _ h
          have hlen : ds.length = cs.length := mapM_option_length _ _ _ hds
          refine ⟨d :: ds, ?_, ?_, fun _ => hle (by omega)⟩
          · rw [List.mapM_cons, digitIndex_eq base hb, hv, hds]
            simp [Option.filter, Nat.lt_of_not_le h1]
          · rw [hr, List.reverse_cons, Nat.ofDigits_append, Nat.ofDigits_singleton,
              List.length_reverse, List.length_cons, pow_succ, hlen]
            ring

/-- `ParseUint` succeeds exactly on the unsigned numerals of the base whose value fits the
size, and returns the value. -/
theorem ParseUint_eq_ok (s : List Nat) (base bitSize : Nat) (hb : base = 10 ∨ base = 16)
    (v : Nat) :
    ParseUint s base bitSize = (v, none) ↔
      unsignedValue base s = some v ∧ v ≤ 2 ^ bitSize - 1 := by
  unfold ParseUint unsignedValue
  by_cases hs : s = []
  · simp [hs]
  · rw [if_neg hs, if_neg hs]
    constructor
    · intro h
      obtain ⟨ds, hds, hr, hle⟩ := parseUintLoop_sound base _ hb s 0 v h
      simp only [zero_mul, zero_add] at hr
      exact ⟨by rw [hds, hr]; rfl, hle (Nat.zero_le _)⟩
    · rintro ⟨h, hle⟩
      cases hds : s.mapM (digitIndex base) with
      | none => rw [hds] at h; simp at h
      | some ds =>
        rw [hds] at h
        simp only [Option.map_some', Option.some.injEq] at h
        have := parseUintLoop_digits base (2 ^ bitSize - 1) hb s 0 ds hds (by simpa [h] using hle)
        simpa [h] using this

theorem ParseUint_cases (s : List Nat) (base bitSize : Nat) :
    (ParseUint s base bitSize).2 = none ∨ ParseUint s base bitSize = (0, some errSyntax) ∨
      ParseUint s base bitSize = (2 ^ bitSize - 1, some errRange) := by
  unfold ParseUint
  split_ifs
  · right; left; rfl
  · exact parseUintLoop_error_ne _ _ _ _

theorem numeralValue_cons (base c : Nat) (r : List Nat) :
    numeralValue base (c :: r) =
      if c = 43 then (unsignedValue base r).map fun v : Nat => (v : Int)
      else if c = 45 then (unsignedValue base r).map fun v : Nat => -(v : Int)
      else (unsignedValue base (c :: r)).map fun v : Nat => (v : Int) := by
  by_cases h1 : c = 43
  · subst h1; rfl
  · by_cases h2 : c = 45
    · subst h2; rfl
    · rw [if_neg h1, if_neg h2]
      unfold numeralValue
      split
      · rename_i h; simp only [List.cons.injEq] at h; exact absurd h.1 h1
      · rename_i h; simp only [List.cons.injEq] at h; exact absurd h.1 h2
      · rfl

theorem numeralValue_nil (base : Nat) : numeralValue base [] = none := by
  unfold numeralValue
  simp [unsignedValue]

theorem ParseInt_cons (base bitSize c : Nat) (r : List Nat) :
    ParseInt (c :: r) base bitSize =
      let p := ParseUint (if c = 43 ∨ c = 45 then r else c :: r) base bitSize
      if p.2 ≠ none ∧ p.2 ≠ some errRange then (0, p.2)
      else if (decide (c = 45)) = false ∧ 2 ^ (bitSize - 1) ≤ p.1 then
        (((2 ^ (bitSize - 1) - 1 : Nat) : Int), some errRange)
      else if (decide (c = 45)) = true ∧ 2 ^ (bitSize - 1) < p.1 then
        (-((2 ^ (bitSize - 1) : Nat) : Int), some errRange)
      else (if decide (c = 45) then -(p.1 : Int) else (p.1 : Int), none) := by
  simp [ParseInt]

theorem pow_pred_lt (bitSize : Nat) (h : 2 ≤ bitSize) :
    2 ^ (bitSize - 1) < 2 ^ bitSize - 1 ∧ 2 ^ bitSize = 2 * 2 ^ (bitSize - 1) := by
  obtain ⟨k, rfl⟩ : ∃ k, bitSize = k + 2 := ⟨bitSize - 2, by omega⟩
  have h2 : 2 ^ (k + 2) = 2 * 2 ^ (k + 1) := by ring
  have h3 : 2 ^ (k + 1) = 2 * 2 ^ k := by ring
  have h4 : 1 ≤ 2 ^ k := Nat.one_le_two_pow
  simp only [Nat.add_sub_cancel, Nat.add_succ_sub_one]
  omega

/-- `ParseInt` succeeds exactly on the numerals of the base whose value is in the signed range
of the size, and returns the value. -/
theorem ParseInt_eq_ok (s : List Nat) (base bitSize : Nat) (hb : base = 10 ∨ base = 16)
    (hbits : 2 ≤ bitSize) (v : Int) :
    ParseInt s base bitSize = (v, none) ↔
      numeralValue base s = some v ∧ -2 ^ (bitSize - 1) ≤ v ∧ v < 2 ^ (bitSize - 1) := by
  obtain ⟨hp1, hp2⟩ := pow_pred_lt bitSize hbits
  obtain ⟨P, hP⟩ : ∃ P : ℕ, P = 2 ^ (bitSize - 1) := ⟨_, rfl⟩
  have e : (2 : ℤ) ^ (bitSize - 1) = (P : ℤ) := by rw [hP]; push_cast; rfl
  rw [e]
  cases s with
  | nil => simp [ParseInt, numeralValue_nil]
  | cons c r =>
    rw [ParseInt_cons, numeralValue_cons, ← hP]
    rw [← hP] at hp1 hp2
    generalize hs1 : (if c = 43 ∨ c = 45 then r else c :: r) = s1
    have huv : (if c = 43 then (unsignedValue base r).map fun v : Nat => (v : Int)
        else if c = 45 then (unsignedValue base r).map fun v : Nat => -(v : Int)
        else (unsignedValue base (c :: r)).map fun v : Nat => (v : Int)) =
        (unsignedValue base s1).map fun v : Nat => if c = 45 then -(v : Int) else (v : Int) := by
      subst hs1
      by_cases h1 : c = 43
      · subst h1; simp
      · by_cases h2 : c = 45
        · subst h2; simp
        · simp [h1, h2]
    rw [huv]
    simp only
    constructor
    · intro h
      rcases ParseUint_cases s1 base bitSize with hc | hc | hc
      · have hpu : ParseUint s1 base bitSize = ((ParseUint s1 base bitSize).1, none) := by
          rw [← hc]
        obtain ⟨hu, hle⟩ := (ParseUint_eq_ok s1 base bitSize hb _).mp hpu
        rw [hc] at h
        simp only [ne_eq, not_true_eq_false, false_and, ↓reduceIte] at h
        rw [hu]
        by_cases hn : c = 45
        · simp only [hn, decide_True, Bool.true_eq_false, false_and, ↓reduceIte, true_and] at h
          split_ifs at h with hlt
          · simp at h
          · simp only [Prod.mk.injEq, and_true] at h
            simp only [hn, ↓reduceIte, Option.map_some', h, true_and]
            omega
        · simp only [hn, decide_False, true_and, Bool.false_eq_true, false_and,
            ↓reduceIte] at h
          split_ifs at h with hlt
          · simp at h
          · simp only [Prod.mk.injEq, and_true] at h
            simp only [hn, ↓reduceIte, Option.map_some', h, true_and]
            omega
      · rw [hc] at h
        simp [errSyntax, errRange] at h
      · rw [hc] at h
        simp only [ne_eq, not_true_eq_false, and_false, ↓reduceIte] at h
        by_cases hn : c = 45
        · simp [hn, hp1] at h
        · simp [hn, le_of_lt hp1] at h
    · rintro ⟨hv, h1, h2⟩
      cases hu : unsignedValue base s1 with
      | none => rw [hu] at hv; simp at hv
      | some u =>
        rw [hu] at hv
        simp only [Option.map_some', Option.some.injEq] at hv
        have hule : u ≤ 2 ^ bitSize - 1 := by
          by_cases hn : c = 45
          · simp only [hn, ↓reduceIte] at hv
            omega
          · simp only [hn, ↓reduceIte] at hv
            omega
        have hpu := (ParseUint_eq_ok s1 base bitSize hb u).mpr ⟨hu, hule⟩
        rw [hpu]
        simp only [ne_eq, not_true_eq_false, false_and, ↓reduceIte]
        by_cases hn : c = 45
        · simp only [hn, ↓reduceIte] at hv
          have : u ≤ P := by omega
          simp [hn, hv, Nat.not_lt.mpr this]
        · simp only [hn, ↓reduceIte] at hv
          have : u < P := by omega
          simp [hn, hv, Nat.not_le.mpr this]

theorem utf8_0x : utf8 "0x" = [48, 120] := by decide

theorem numeralValue_10_no_prefix (s : List Nat) (v : Int) (h : numeralValue 10 s = some v) :
    (utf8 "0x").isPrefixOf s = false := by
  rw [utf8_0x]
  match s, h with
  | [], _ => rfl
  | [_], _ => simp [List.isPrefixOf]
  | a :: b :: r, h =>
    by_cases ha : a = 48
    · by_cases hb : b = 120
      · subst ha hb
        rw [numeralValue_cons, if_neg (by decide), if_neg (by decide)] at h
        have hd : digitIndex 10 120 = none := by decide
        have hm : (48 :: 120 :: r).mapM (digitIndex 10) = none := by
          rw [List.mapM_cons, List.mapM_cons, hd]
          cases digitIndex 10 48 <;> rfl
        simp only [unsignedValue, hm, reduceCtorEq, if_false, Option.map_none'] at h
      · simp only [List.isPrefixOf, Bool.and_eq_false_imp, beq_iff_eq, Bool.and_true,
          beq_eq_false_iff_ne, ne_eq]
        exact fun _ h2 => hb h2.symm
    · simp only [List.isPrefixOf, Bool.and_eq_false_imp, beq_iff_eq, Bool.and_true,
          beq_eq_false_iff_ne, ne_eq]
      exact fun h1 => absurd h1.symm ha

/-- What `VMString.Int` returns: the value of the numeral, hexadecimal after "0x" and decimal
otherwise, when it is within the signed 64-bit range, and a panic with the error of
`strconv.ParseInt` in every other case. -/
theorem VMString_Int_eq (x : VMString) :
    (∀ v, VMString.Int x = Except.ok v ↔
      (if (utf8 "0x").isPrefixOf x then numeralValue 16 (x.drop 2) else numeralValue 10 x)
        = some v ∧ -2 ^ 63 ≤ v ∧ v < 2 ^ 63) ∧
    ((∀ v, VMString.Int x ≠ Except.ok v) → ∃ err, VMString.Int x = Except.error (Err.panic err)) := by
  have key : ∀ (s : List Nat) (base : Nat), base = 10 ∨ base = 16 →
      (∀ v, (match (ParseInt s base 64).2 with
          | some err => Except.error (Err.panic err)
          | none => (Except.ok (ParseInt s base 64).1 : Except Err ℤ)) = Except.ok v ↔
        numeralValue base s = some v ∧ -2 ^ 63 ≤ v ∧ v < 2 ^ 63) := by
    intro s base hb v
    have h := ParseInt_eq_ok s base 64 hb (by decide) v
    simp only [Nat.add_one_sub_one, show (64 - 1 : Nat) = 63 from rfl] at h
    rw [← h]
    cases h2 : (ParseInt s base 64).2 with
    | some err =>
      simp only [reduceCtorEq, false_iff]
      intro he
      rw [he] at h2
      cases h2
    | none =>
      simp only [Except.ok.injEq]
      constructor
      · intro h1
        rw [← h1, ← h2]
      · intro h1
        rw [h1]
  constructor
  · intro v
    unfold VMString.Int
    by_cases hp : (utf8 "0x").isPrefixOf x = true
    · simp only [hp, if_true]
      exact key _ 16 (Or.inr rfl) v
    · simp only [hp, Bool.false_eq_true, if_false]
      exact key _ 10 (Or.inl rfl) v
  · intro _
    unfold VMString.Int at *
    simp only at *
    generalize (if (utf8 "0x").isPrefixOf x = true then ParseInt (List.drop 2 x) 16 64
      else ParseInt x 10 64) = r at *
    cases h2 : r.2 with
    | some err => exact ⟨err, rfl⟩
    | none =>
      rename_i h
      rw [h2] at h
      exact absurd rfl (h r.1)

/-- C23: converting a String to Integer (`VMString.Int`, and `VMString.ConvertToType` with the
target Integer) reads it as hexadecimal when it begins with "0x" and as decimal otherwise: for
`s = "0x" ++ h` with `h` a numeral of base 16 whose value is in the signed 64-bit range the
result is that value, and for `s` a numeral of base 10 in that range the result is its value;
"0x10" gives 16 and "10" gives 10. -/
theorem C23_string_to_integer (env : StringEnv) (s : VMString) (v : Int)
    (hv : -2 ^ 63 ≤ v ∧ v < 2 ^ 63) :
    (∀ h, s = utf8 "0x" ++ h → numeralValue 16 h = some v →
      VMString.Int s = Except.ok v ∧
      VMString.ConvertToType env s ReflectType.ReflectVMInt
        = Except.ok (VMValuer.VMInt v, none)) ∧
    (numeralValue 10 s = some v →
      VMString.Int s = Except.ok v ∧
      VMString.ConvertToType env s ReflectType.ReflectVMInt
        = Except.ok (VMValuer.VMInt v, none)) ∧
    VMString.Int (utf8 "0x10") = Except.ok 16 ∧ VMString.Int (utf8 "10") = Except.ok 10 ∧
    VMString.ConvertToType env (utf8 "0x10") ReflectType.ReflectVMInt
      = Except.ok (VMValuer.VMInt 16, none) ∧
    VMString.ConvertToType env (utf8 "10") ReflectType.ReflectVMInt
      = Except.ok (VMValuer.VMInt 10, none) := by
  have conv : ∀ x w, VMString.Int x = Except.ok w →
      VMString.ConvertToType env x ReflectType.ReflectVMInt
        = Except.ok (VMValuer.VMInt w, none) := by
    intro x w h
    simp only [VMString.ConvertToType, h]
    rfl
  have h16 : VMString.Int (utf8 "0x10") = Except.ok 16 := by decide
  have h10 : VMString.Int (utf8 "10") = Except.ok 10 := by decide
  refine ⟨?_, ?_, h16, h10, conv _ _ h16, conv _ _ h10⟩
  · intro h hs hn
    have hp : (utf8 "0x").isPrefixOf s = true := by
      rw [hs, List.isPrefixOf_iff_prefix]
      exact List.prefix_append _ _
    have hd : s.drop 2 = h := by
      rw [hs, utf8_0x]
      rfl
    have := ((VMString_Int_eq s).1 v).mpr (by rw [if_pos hp, hd]; exact ⟨hn, hv⟩)
    exact ⟨this, conv _ _ this⟩
  · intro hn
    have hp := numeralValue_10_no_prefix s v hn
    have := ((VMString_Int_eq s).1 v).mpr (by rw [hp]; exact ⟨hn, hv⟩)
    exact ⟨this, conv _ _ this⟩

theorem C23_string_to_integer_witness :
    VMString.Int (utf8 "0x7fffffffffffffff") = Except.ok 9223372036854775807 ∧
    VMString.Int (utf8 "-9223372036854775808") = Except.ok (-9223372036854775808) :=
  ⟨((C23_string_to_integer sampleStringEnv (utf8 "0x7fffffffffffffff") 9223372036854775807
      (by decide)).1 (utf8 "7fffffffffffffff") (by decide) (by decide)).1,
   ((C23_string_to_integer sampleStringEnv (utf8 "-9223372036854775808") (-9223372036854775808)
      (by decide)).2.1 (by decide)).1⟩

/-- C24 as stated fails: "abc" is no Integer literal, and `ConvertToType` with the target
Integer returns no error result for it: the call panics. -/
theorem C24_integer_target_panics :
    ¬ ∀ (env : StringEnv) (s : VMString), (∀ v, VMString.Int s ≠ Except.ok v) →
        ∃ v err, VMString.ConvertToType env s ReflectType.ReflectVMInt
          = Except.ok (v, some err) := by
  intro h
  have hp : VMString.Int (utf8 "abc") = Except.error (Err.panic errSyntax) := by decide
  obtain ⟨v, err, he⟩ := h sampleStringEnv (utf8 "abc") (by
    intro v hv
    rw [hp] at hv
    cases hv)
  have : VMString.ConvertToType sampleStringEnv (utf8 "abc") ReflectType.ReflectVMInt
      = Except.error (Err.panic errSyntax) := by decide
  rw [this] at he
  cases he

/-- C24, amended: for a String `s` that is not a well-formed literal of the target kind,
`VMString.ConvertToType` does not return with the targets Integer, Decimal and Time: it panics
with the error of the parser (of `strconv.ParseInt`, of `decimal.NewFromString`, and with
"Неверный формат даты и времени" when none of the nine layouts parses `s`); with the targets
Slice and StringMap it returns an empty container with the error of the JSON decoder; with a
struct target it returns Nil with the error of the JSON decoder; and for every target type it
does not support (any other type that is not a struct) it returns Nil with the error
"Приведение к типу невозможно". -/
theorem C24_string_convert_failures (env : StringEnv) (s : VMString) :
    ((¬ ∃ v, (if (utf8 "0x").isPrefixOf s then numeralValue 16 (s.drop 2)
          else numeralValue 10 s) = some v ∧ -2 ^ 63 ≤ v ∧ v < 2 ^ 63) →
      ∃ err, VMString.ConvertToType env s ReflectType.ReflectVMInt
        = Except.error (Err.panic err)) ∧
    (∀ err, decimalNewFromString s = Except.error err →
      VMString.ConvertToType env s ReflectType.ReflectVMDecimal
        = Except.error (Err.panic err)) ∧
    ((∀ layout, env.timeParse layout s = none ∧ env.timeParseInLocal layout s = none) →
      VMString.ConvertToType env s ReflectType.ReflectVMTime
        = Except.error (Err.panic "Неверный формат даты и времени")) ∧
    (∀ err, jsonUnmarshalRawSlice s = Except.error err →
      VMString.ConvertToType env s ReflectType.ReflectVMSlice
        = Except.ok (VMValuer.VMSlice [], some err)) ∧
    (∀ err, jsonUnmarshalRawMap env.unquote s = Except.error err →
      VMString.ConvertToType env s ReflectType.ReflectVMStringMap
        = Except.ok (VMValuer.VMStringMap [], some err)) ∧
    (∀ name err, env.unmarshalStruct name s = Except.error err →
      VMString.ConvertToType env s (ReflectType.other true name)
        = Except.ok (VMValuer.VMNil, some err)) ∧
    (∀ name, VMString.ConvertToType env s (ReflectType.other false name)
        = Except.ok (VMValuer.VMNil, some errConversion)) ∧
    errConversion = "Приведение к типу невозможно" ∧
    VMString.ConvertToType env (utf8 "abc") ReflectType.ReflectVMInt
      = Except.error (Err.panic errSyntax) ∧
    VMString.ConvertToType env (utf8 "abc") ReflectType.ReflectVMDecimal
      = Except.error (Err.panic "can't convert to decimal") ∧
    VMString.ConvertToType env (utf8 "abc") ReflectType.ReflectVMSlice
      = Except.ok (VMValuer.VMSlice [], some errJsonSyntax) := by
  refine ⟨?_, ?_, ?_, ?_, ?_, ?_, fun _ => rfl, rfl, ?_, ?_, ?_⟩
  · intro h
    have hne : ∀ v, VMString.Int s ≠ Except.ok v := by
      intro v hv
      exact h ⟨v, ((VMString_Int_eq s).1 v).mp hv⟩
    obtain ⟨err, he⟩ := (VMString_Int_eq s).2 hne
    exact ⟨err, by simp only [VMString.ConvertToType, he]; rfl⟩
  · intro err he
    simp only [VMString.ConvertToType, VMString.Decimal, he]
    rfl
  · intro h
    simp only [VMString.ConvertToType, VMString.Time, (h _).1, (h _).2]
    rfl
  · intro err he
    simp only [VMString.ConvertToType, VMSliceFromJson, sliceFromJson, he]
    rfl
  · intro err he
    simp only [VMString.ConvertToType, VMStringMapFromJson, stringMapFromJson, he]
    rfl
  · intro name err he
    simp only [VMString.ConvertToType, he, if_true]
  · have : VMString.Int (utf8 "abc") = Except.error (Err.panic errSyntax) := by decide
    simp only [VMString.ConvertToType, this]
    rfl
  · have : decimalNewFromString (utf8 "abc") = Except.error "can't convert to decimal" := by
      decide
    simp only [VMString.ConvertToType, VMString.Decimal, this]
    rfl
  · have : jsonUnmarshalRawSlice (utf8 "abc") = Except.error errJsonSyntax := by decide
    simp only [VMString.ConvertToType, VMSliceFromJson, sliceFromJson, this]
    rfl

theorem C24_string_convert_failures_witness :
    VMString.ConvertToType sampleStringEnv (utf8 "abc") ReflectType.ReflectVMTime
      = Except.error (Err.panic "Неверный формат даты и времени") ∧
    ∃ err, VMString.ConvertToType sampleStringEnv (utf8 "12x") ReflectType.ReflectVMInt
      = Except.error (Err.panic err) :=
  ⟨(C24_string_convert_failures sampleStringEnv (utf8 "abc")).2.2.1 (fun _ => ⟨rfl, rfl⟩),
   (C24_string_convert_failures sampleStringEnv (utf8 "12x")).1 (by
      rintro ⟨v, hv, -⟩
      have hn : (if (utf8 "0x").isPrefixOf (utf8 "12x") then
          numeralValue 16 ((utf8 "12x").drop 2) else numeralValue 10 (utf8 "12x")) = none := by
        decide
      rw [hn] at hv
      cases hv)⟩

/-! ### The JSON loaders -/

theorem scanRun_length : ∀ (data : List Nat) (s : Scanner),
    (scanRun s data).1.length = data.length := by
  intro data
  induction data with
  | nil => intro s; rfl
  | cons c cs ih =>
    intro s
    simp only [scanRun, List.length_cons, ih]

theorem splitTop_length (sep : ScanCode) : ∀ (t : List (Nat × ScanCode × Nat)),
    ∀ seg ∈ splitTop sep t, seg.length ≤ t.length := by
  intro t
  induction t with
  | nil =>
    intro seg h
    simp only [splitTop, List.mem_singleton] at h
    subst h
    exact le_refl _
  | cons e t ih =>
    intro seg h
    rw [splitTop] at h
    split_ifs at h with h1 h2
    · simp only [List.mem_singleton] at h
      subst h
      exact Nat.zero_le _
    · simp only [List.mem_cons] at h
      rcases h with h | h
      · subst h
        exact Nat.zero_le _
      · exact le_trans (ih seg h) (Nat.le_succ _)
    · cases hs : splitTop sep t with
      | nil =>
        rw [hs] at h
        simp only [List.mem_singleton] at h
        subst h
        simp
      | cons seg0 segs =>
        rw [hs] at h
        simp only [List.mem_cons] at h
        rcases h with h | h
        · subst h
          have := ih seg0 (by rw [hs]; exact List.mem_cons_self _ _)
          simp only [List.length_cons]
          omega
        · have := ih seg (by rw [hs]; exact List.mem_cons_of_mem _ h)
          simp only [List.length_cons]
          omega

theorem rdropWhile_length_le {α : Type} (p : α → Bool) (l : List α) :
    (l.rdropWhile p).length ≤ l.length := by
  unfold List.rdropWhile
  rw [List.length_reverse]
  exact le_trans (List.Sublist.length_le (List.dropWhile_sublist _)) (by simp)

theorem trimSpace_length (s : List Nat) : (trimSpace s).length ≤ s.length := by
  unfold trimSpace
  exact le_trans (rdropWhile_length_le _ _) (List.Sublist.length_le (List.dropWhile_sublist _))

theorem topBody_length (data : List Nat) :
    topBody data = [] ∨ (topBody data).length < data.length := by
  unfold topBody
  cases h : (scanRun Scanner.reset data).1.dropWhile fun e => decide (e.2.2 = 0) with
  | nil => left; rfl
  | cons e t =>
    right
    have h1 := List.Sublist.length_le
      (List.dropWhile_sublist (fun e : Nat × ScanCode × Nat => decide (e.2.2 = 0))
        (l := (scanRun Scanner.reset data).1))
    rw [h, scanRun_length] at h1
    simp only [List.tail_cons]
    simp only [List.length_cons] at h1
    omega

theorem arrayElements_length (data : List Nat) :
    ∀ raw ∈ arrayElements data, raw.length < data.length := by
  intro raw h
  unfold arrayElements at h
  simp only at h
  split_ifs at h with h1
  · cases h
  · simp only [List.mem_map] at h
    obtain ⟨seg, hseg, rfl⟩ := h
    rcases topBody_length data with h0 | h0
    · rw [h0] at h1
      exact absurd (by decide) h1
    · have := splitTop_length _ _ seg hseg
      have h2 := trimSpace_length (seg.map fun e => e.1)
      simp only [List.length_map] at h2
      omega

theorem objectMembers_length (data : List Nat) :
    ∀ m ∈ objectMembers data, m.2.length < data.length := by
  intro m h
  unfold objectMembers at h
  simp only at h
  split_ifs at h with h1
  · cases h
  · simp only [List.mem_map] at h
    obtain ⟨seg, hseg, rfl⟩ := h
    rcases topBody_length data with h0 | h0
    · rw [h0] at h1
      exact absurd (by decide) h1
    · have := splitTop_length _ _ seg hseg
      simp only
      refine lt_of_le_of_lt (trimSpace_length _) ?_
      rw [List.length_map, List.length_tail]
      have h3 := List.Sublist.length_le (List.dropWhile_sublist
        (fun e : Nat × ScanCode × Nat =>
          !decide (e.2.1 = ScanCode.scanObjectKey ∧ e.2.2 = 1)) (l := seg))
      omega

theorem jsonUnmarshalRawSlice_length (x : List Nat) (rm : List (List Nat))
    (h : jsonUnmarshalRawSlice x = Except.ok rm) : ∀ raw ∈ rm, raw.length < x.length := by
  unfold jsonUnmarshalRawSlice at h
  split_ifs at h
  split at h
  · simp only [Except.ok.injEq] at h
    subst h
    exact arrayElements_length x
  · simp only [Except.ok.injEq] at h
    subst h
    simp
  · cases h

theorem mapAssign_mem {ν : Type} (m : List (List Nat × ν)) (k : List Nat) (v : ν) :
    ∀ e ∈ mapAssign m k v, e ∈ m ∨ e.2 = v := by
  intro e h
  unfold mapAssign at h
  split_ifs at h
  · simp only [List.mem_map] at h
    obtain ⟨e0, he0, rfl⟩ := h
    split_ifs
    · right; rfl
    · left; exact he0
  · simp only [List.mem_append, List.mem_singleton] at h
    rcases h with h | h
    · left; exact h
    · right; rw [h]

theorem foldl_mapAssign_mem (unquote : List Nat → List Nat) :
    ∀ (ms : List (List Nat × List Nat)) (init : List (List Nat × List Nat)),
      ∀ e ∈ ms.foldl (fun m e => mapAssign m (unquote e.1) e.2) init,
        e ∈ init ∨ ∃ m ∈ ms, e.2 = m.2 := by
  intro ms
  induction ms with
  | nil => intro init e h; left; exact h
  | cons m ms ih =>
    intro init e h
    simp only [List.foldl_cons] at h
    rcases ih _ e h with h1 | ⟨m', hm', he⟩
    · rcases mapAssign_mem _ _ _ e h1 with h2 | h2
      · left; exact h2
      · right; exact ⟨m, List.mem_cons_self _ _, h2⟩
    · right; exact ⟨m', List.mem_cons_of_mem _ hm', he⟩

theorem jsonUnmarshalRawMap_length (unquote : List Nat → List Nat) (x : List Nat)
    (rm : List (List Nat × List Nat)) (h : jsonUnmarshalRawMap unquote x = Except.ok rm) :
    ∀ e ∈ rm, e.2.length < x.length := by
  unfold jsonUnmarshalRawMap at h
  split_ifs at h
  split at h
  · simp only [Except.ok.injEq] at h
    subst h
    intro e he
    rcases foldl_mapAssign_mem unquote _ _ e he with h1 | ⟨m, hm, hme⟩
    · cases h1
    · rw [hme]
      exact objectMembers_length x m hm
  · simp only [Except.ok.injEq] at h
    subst h
    simp
  · cases h

theorem sliceFill_congr (conv conv' : List Nat → Except Err (VMValuer × Option GoError)) :
    ∀ rm : List (List Nat), (∀ raw ∈ rm, conv raw = conv' raw) →
      sliceFill conv rm = sliceFill conv' rm := by
  intro rm
  induction rm with
  | nil => intro _; rfl
  | cons raw rm ih =>
    intro h
    rw [sliceFill, sliceFill, h raw (List.mem_cons_self _ _),
      ih fun r hr => h r (List.mem_cons_of_mem _ hr)]

theorem mapFill_congr (conv conv' : List Nat → Except Err (VMValuer × Option GoError)) :
    ∀ rm : List (List Nat × List Nat), (∀ e ∈ rm, conv e.2 = conv' e.2) →
      mapFill conv rm = mapFill conv' rm := by
  intro rm
  induction rm with
  | nil => intro _; rfl
  | cons e rm ih =>
    intro h
    obtain ⟨i, raw⟩ := e
    rw [mapFill, mapFill, h (i, raw) (List.mem_cons_self _ _),
      ih fun r hr => h r (List.mem_cons_of_mem _ hr)]

theorem sliceFromJson_congr (conv conv' : List Nat → Except Err (VMValuer × Option GoError))
    (x : List Nat) (h : ∀ raw, raw.length < x.length → conv raw = conv' raw) :
    sliceFromJson conv x = sliceFromJson conv' x := by
  unfold sliceFromJson
  cases hr : jsonUnmarshalRawSlice x with
  | error err => rfl
  | ok rm =>
    exact sliceFill_congr _ _ _ fun raw hraw =>
      h raw (jsonUnmarshalRawSlice_length x rm hr raw hraw)

theorem stringMapFromJson_congr (unquote : List Nat → List Nat)
    (conv conv' : List Nat → Except Err (VMValuer × Option GoError))
    (x : List Nat) (h : ∀ raw, raw.length < x.length → conv raw = conv' raw) :
    stringMapFromJson unquote conv x = stringMapFromJson unquote conv' x := by
  unfold stringMapFromJson
  cases hr : jsonUnmarshalRawMap unquote x with
  | error err => rfl
  | ok rm =>
    exact mapFill_congr _ _ _ fun e he =>
      h e.2 (jsonUnmarshalRawMap_length unquote x rm hr e he)

/-- The result of `VMValuerFromJSON` does not depend on the fuel, once the fuel exceeds the
length of the text. -/
theorem VMValuerFromJSONFuel_stable (env : StringEnv) :
    ∀ (f g : Nat) (s : List Nat), s.length < f → s.length < g →
      VMValuerFromJSONFuel env f s = VMValuerFromJSONFuel env g s := by
  intro f
  induction f with
  | zero => intro g s h; omega
  | succ f ih =>
    intro g s hf hg
    obtain ⟨g, rfl⟩ : ∃ g', g = g' + 1 := ⟨g - 1, by omega⟩
    have h1 : sliceFromJson (VMValuerFromJSONFuel env f) s
        = sliceFromJson (VMValuerFromJSONFuel env g) s :=
      sliceFromJson_congr _ _ s fun raw hraw => ih g raw (by omega) (by omega)
    have h2 : stringMapFromJson env.unquote (VMValuerFromJSONFuel env f) s
        = stringMapFromJson env.unquote (VMValuerFromJSONFuel env g) s :=
      stringMapFromJson_congr _ _ _ s fun raw hraw => ih g raw (by omega) (by omega)
    simp only [VMValuerFromJSONFuel, h1, h2]

theorem VMValuerFromJSONFuel_eq (env : StringEnv) (f : Nat) (s : List Nat)
    (h : s.length < f) : VMValuerFromJSONFuel env f s = VMValuerFromJSON env s :=
  VMValuerFromJSONFuel_stable env f (s.length + 1) s h (Nat.lt_succ_self _)

theorem VMSliceFromJson_eq (env : StringEnv) (x : List Nat) :
    VMSliceFromJson env x = sliceFromJson (VMValuerFromJSON env) x :=
  sliceFromJson_congr _ _ x fun raw hraw => VMValuerFromJSONFuel_eq env _ raw hraw

theorem VMStringMapFromJson_eq (env : StringEnv) (x : List Nat) :
    VMStringMapFromJson env x = stringMapFromJson env.unquote (VMValuerFromJSON env) x :=
  stringMapFromJson_congr _ _ _ x fun raw hraw => VMValuerFromJSONFuel_eq env _ raw hraw

theorem sliceFill_total (conv : List Nat → Except Err (VMValuer × Option GoError)) :
    ∀ rm : List (List Nat), (∀ raw ∈ rm, ∃ r, conv raw = Except.ok r) →
      ∃ r, sliceFill conv rm = Except.ok r := by
  intro rm
  induction rm with
  | nil => intro _; exact ⟨_, rfl⟩
  | cons raw rm ih =>
    intro h
    obtain ⟨⟨v, e⟩, hr⟩ := h raw (List.mem_cons_self _ _)
    obtain ⟨⟨vs, e'⟩, hvs⟩ := ih fun r hr => h r (List.mem_cons_of_mem _ hr)
    rw [sliceFill, hr]
    cases e with
    | some err => exact ⟨_, rfl⟩
    | none => simp only [hvs]; exact ⟨_, rfl⟩

theorem mapFill_total (conv : List Nat → Except Err (VMValuer × Option GoError)) :
    ∀ rm : List (List Nat × List Nat), (∀ e ∈ rm, ∃ r, conv e.2 = Except.ok r) →
      ∃ r, mapFill conv rm = Except.ok r := by
  intro rm
  induction rm with
  | nil => intro _; exact ⟨_, rfl⟩
  | cons e0 rm ih =>
    intro h
    obtain ⟨i, raw⟩ := e0
    obtain ⟨⟨v, e⟩, hr⟩ := h (i, raw) (List.mem_cons_self _ _)
    obtain ⟨⟨vs, e'⟩, hvs⟩ := ih fun r hr => h r (List.mem_cons_of_mem _ hr)
    rw [mapFill]
    simp only at hr
    rw [hr]
    cases e with
    | some err => exact ⟨_, rfl⟩
    | none => simp only [hvs]; exact ⟨_, rfl⟩

/-- `VMValuerFromJSON` returns: with enough fuel there is no failure of the model, and the
function itself never panics. -/
theorem VMValuerFromJSONFuel_total (env : StringEnv) :
    ∀ (f : Nat) (s : List Nat), s.length < f →
      ∃ r, VMValuerFromJSONFuel env f s = Except.ok r := by
  intro f
  induction f with
  | zero => intro s h; omega
  | succ f ih =>
    intro s hf
    have h1 : ∃ r, sliceFromJson (VMValuerFromJSONFuel env f) s = Except.ok r := by
      unfold sliceFromJson
      cases hr : jsonUnmarshalRawSlice s with
      | error err => exact ⟨_, rfl⟩
      | ok rm =>
        exact sliceFill_total _ _ fun raw hraw =>
          ih raw (by have := jsonUnmarshalRawSlice_length s rm hr raw hraw; omega)
    have h2 : ∃ r, stringMapFromJson env.unquote (VMValuerFromJSONFuel env f) s
        = Except.ok r := by
      unfold stringMapFromJson
      cases hr : jsonUnmarshalRawMap env.unquote s with
      | error err => exact ⟨_, rfl⟩
      | ok rm =>
        exact mapFill_total _ _ fun e he =>
          ih e.2 (by have := jsonUnmarshalRawMap_length _ s rm hr e he; omega)
    obtain ⟨r1, hr1⟩ := h1
    obtain ⟨r2, hr2⟩ := h2
    simp only [VMValuerFromJSONFuel, hr1, hr2]
    generalize (if (utf8 "0x").isPrefixOf s = true then ParseInt (List.drop 2 s) 16 64
      else ParseInt s 10 64) = r
    by_cases hr : r.2 = none
    · rw [if_pos hr]
      exact ⟨_, rfl⟩
    · rw [if_neg hr]
      cases decimalNewFromString s with
      | ok d => exact ⟨_, rfl⟩
      | error _ =>
        cases jsonUnmarshalInterface env.unquote s with
        | error err => exact ⟨_, rfl⟩
        | ok a => cases a <;> exact ⟨_, rfl⟩

theorem VMValuerFromJSON_total (env : StringEnv) (s : List Nat) :
    ∃ r, VMValuerFromJSON env s = Except.ok r :=
  VMValuerFromJSONFuel_total env _ s (Nat.lt_succ_self _)

theorem sliceFill_spec (conv : List Nat → Except Err (VMValuer × Option GoError)) :
    ∀ rm : List (List Nat), (∀ raw ∈ rm, ∃ r, conv raw = Except.ok r) →
      ∃ vs e, sliceFill conv rm = Except.ok (vs, e) ∧ vs.length = rm.length ∧
        (e = none → ∀ (i : Nat) (raw : List Nat), rm[i]? = some raw →
          ∃ v, vs[i]? = some v ∧ conv raw = Except.ok (v, none)) ∧
        (∀ err, e = some err → ∃ (i : Nat) (raw : List Nat) (v : VMValuer), rm[i]? = some raw ∧ vs[i]? = some v ∧
          conv raw = Except.ok (v, some err) ∧
          (∀ j : Nat, j < i → ∀ r, rm[j]? = some r →
            ∃ w, vs[j]? = some w ∧ conv r = Except.ok (w, none)) ∧
          (∀ j : Nat, i < j → j < rm.length → vs[j]? = some VMValuer.nil)) := by
  intro rm
  induction rm with
  | nil =>
    intro _
    refine ⟨[], none, rfl, rfl, ?_, ?_⟩
    · intro _ i raw h
      simp at h
    · intro err h
      cases h
  | cons raw rm ih =>
    intro h
    obtain ⟨⟨v, e0⟩, hr⟩ := h raw (List.mem_cons_self _ _)
    obtain ⟨vs, e, hvs, hlen, hnone, hsome⟩ := ih fun r hr => h r (List.mem_cons_of_mem _ hr)
    cases e0 with
    | some err =>
      refine ⟨v :: List.replicate rm.length VMValuer.nil, some err, ?_, ?_, ?_, ?_⟩
      · rw [sliceFill, hr]
      · simp
      · intro h0
        cases h0
      · intro err' h0
        simp only [Option.some.injEq] at h0
        subst h0
        refine ⟨0, raw, v, List.getElem?_cons_zero, List.getElem?_cons_zero, hr, ?_, ?_⟩
        · intro j hj
          omega
        · intro j hj hj2
          obtain ⟨k, rfl⟩ : ∃ k, j = k + 1 := ⟨j - 1, by omega⟩
          simp only [List.length_cons] at hj2
          simp only [List.getElem?_cons_succ]
          rw [List.getElem?_replicate]
          simp only [ite_eq_left_iff, not_lt, reduceCtorEq, imp_false, not_le]
          omega
    | none =>
      refine ⟨v :: vs, e, ?_, ?_, ?_, ?_⟩
      · rw [sliceFill, hr]
        simp only [hvs]
      · simp [hlen]
      · intro h0 i r hi
        cases i with
        | zero =>
          simp only [List.getElem?_cons_zero, Option.some.injEq] at hi
          subst hi
          exact ⟨v, List.getElem?_cons_zero, hr⟩
        | succ i =>
          simp only [List.getElem?_cons_succ] at hi ⊢
          exact hnone h0 i r hi
      · intro err h0
        obtain ⟨i, r, w, h1, h2, h3, h4, h5⟩ := hsome err h0
        refine ⟨i + 1, r, w, by simpa using h1, by simpa using h2, h3, ?_, ?_⟩
        · intro j hj r' hr'
          cases j with
          | zero =>
            simp only [List.getElem?_cons_zero, Option.some.injEq] at hr'
            subst hr'
            exact ⟨v, List.getElem?_cons_zero, hr⟩
          | succ j =>
            simp only [List.getElem?_cons_succ] at hr' ⊢
            exact h4 j (by omega) r' hr'
        · intro j hj hj2
          obtain ⟨k, rfl⟩ : ∃ k, j = k + 1 := ⟨j - 1, by omega⟩
          simp only [List.length_cons] at hj2
          simp only [List.getElem?_cons_succ]
          exact h5 k (by omega) (by omega)

theorem jsonUnmarshalRawSlice_cases (x : List Nat) :
    (∀ elems, IsJsonArray x elems → jsonUnmarshalRawSlice x = Except.ok elems) ∧
    (IsJsonNull x → jsonUnmarshalRawSlice x = Except.ok []) ∧
    ((¬ ∃ elems, IsJsonArray x elems) → ¬ IsJsonNull x →
      ∃ err, jsonUnmarshalRawSlice x = Except.error err) := by
  refine ⟨?_, ?_, ?_⟩
  · rintro elems ⟨h1, h2, h3⟩
    simp [jsonUnmarshalRawSlice, h1, h2, h3]
  · rintro ⟨h1, h2⟩
    simp [jsonUnmarshalRawSlice, h1, h2]
  · intro ha hn
    unfold jsonUnmarshalRawSlice
    by_cases hv : checkValid x = true
    · rw [if_neg (by simp [hv])]
      split
      · rename_i h
        exact absurd ⟨_, hv, h, rfl⟩ ha
      · rename_i h
        exact absurd ⟨hv, h⟩ hn
      · exact ⟨_, rfl⟩
    · rw [if_pos (by simpa using hv)]
      exact ⟨_, rfl⟩

/-- C27 as stated fails: the text "null" is not a JSON array, and `VMSliceFromJson` returns
no error for it, but the empty Slice. -/
theorem C27_null_is_no_error :
    ¬ ∀ (env : StringEnv) (x : List Nat),
        (∃ vs err, VMSliceFromJson env x = Except.ok (vs, some err)) ↔
          ((¬ ∃ elems, IsJsonArray x elems) ∨
            ∃ elems, IsJsonArray x elems ∧
              ∃ raw ∈ elems, ∃ v err, VMValuerFromJSON env raw = Except.ok (v, some err)) := by
  intro h
  have h1 : VMSliceFromJson sampleStringEnv (utf8 "null") = Except.ok ([], none) := by decide
  have h2 : ¬ ∃ elems, IsJsonArray (utf8 "null") elems := by
    rintro ⟨elems, -, hh, -⟩
    revert hh
    decide
  obtain ⟨vs, err, he⟩ := (h sampleStringEnv (utf8 "null")).mpr (Or.inl h2)
  rw [h1] at he
  cases he

/-- What `VMSliceFromJson` returns, by the kind of its text. -/
theorem VMSliceFromJson_result (env : StringEnv) (x : List Nat) :
    ∃ vs e, VMSliceFromJson env x = Except.ok (vs, e) ∧
      (∀ elems, IsJsonArray x elems →
        vs.length = elems.length ∧
        (e = none ↔ ∀ raw ∈ elems, ∃ v, VMValuerFromJSON env raw = Except.ok (v, none)) ∧
        (e = none → ∀ (i : Nat) (raw : List Nat), elems[i]? = some raw →
          ∃ v, vs[i]? = some v ∧ VMValuerFromJSON env raw = Except.ok (v, none)) ∧
        (∀ err, e = some err → ∃ (i : Nat) (raw : List Nat) (v : VMValuer),
          elems[i]? = some raw ∧ vs[i]? = some v ∧
          VMValuerFromJSON env raw = Except.ok (v, some err) ∧
          (∀ j : Nat, j < i → ∀ r, elems[j]? = some r →
            ∃ w, vs[j]? = some w ∧ VMValuerFromJSON env r = Except.ok (w, none)) ∧
          (∀ j : Nat, i < j → j < elems.length → vs[j]? = some VMValuer.nil))) ∧
      (IsJsonNull x → vs = [] ∧ e = none) ∧
      ((¬ ∃ elems, IsJsonArray x elems) → ¬ IsJsonNull x → vs = [] ∧ e ≠ none) := by
  obtain ⟨hA, hN, hO⟩ := jsonUnmarshalRawSlice_cases x
  cases hr : jsonUnmarshalRawSlice x with
  | error err =>
    have hs : VMSliceFromJson env x = Except.ok ([], some err) := by
      rw [VMSliceFromJson_eq, sliceFromJson, hr]
    refine ⟨[], some err, hs, ?_, ?_, ?_⟩
    · intro elems he
      rw [hA elems he] at hr
      cases hr
    · intro hn
      rw [hN hn] at hr
      cases hr
    · intro _ _
      exact ⟨rfl, by simp⟩
  | ok rm =>
    obtain ⟨vs, e, hvs, hlen, hnone, hsome⟩ := sliceFill_spec (VMValuerFromJSON env) rm
      fun raw _ => VMValuerFromJSON_total env raw
    have hs : VMSliceFromJson env x = Except.ok (vs, e) := by
      rw [VMSliceFromJson_eq, sliceFromJson, hr]
      exact hvs
    refine ⟨vs, e, hs, ?_, ?_, ?_⟩
    · intro elems he
      rw [hA elems he] at hr
      simp only [Except.ok.injEq] at hr
      subst hr
      refine ⟨hlen, ⟨?_, ?_⟩, hnone, hsome⟩
      · intro h0 raw hraw
        obtain ⟨i, hi⟩ := List.getElem?_of_mem hraw
        obtain ⟨v, -, hv⟩ := hnone h0 i raw hi
        exact ⟨v, hv⟩
      · intro hall
        cases he' : e with
        | none => rfl
        | some err =>
          obtain ⟨i, raw, v, h1, -, h3, -, -⟩ := hsome err he'
          obtain ⟨w, hw⟩ := hall raw (List.getElem?_mem h1)
          rw [hw] at h3
          simp at h3
    · intro hn
      rw [hN hn] at hr
      simp only [Except.ok.injEq] at hr
      subst hr
      simp only [List.length_nil, List.length_eq_zero] at hlen
      subst hlen
      refine ⟨rfl, ?_⟩
      simp only [sliceFill, Except.ok.injEq, Prod.mk.injEq, true_and] at hvs
      exact hvs.symm
    · intro ha hn
      obtain ⟨err, he⟩ := hO ha hn
      rw [he] at hr
      cases hr

/-- C27, amended: `VMSliceFromJson(x)` always returns. For a JSON array text `x` with `n`
elements it returns a Slice of length `n`; when every element converts, the `i`-th element of
the Slice is `VMValuerFromJSON` of the `i`-th element text, in the order of the array, and
there is no error; otherwise the error is that of the first element that fails to convert (the
elements before it are converted, the ones after it are nil). For the JSON text null it returns
the empty Slice without error, and for every other text the empty Slice with an error: it
returns an error iff `x` is neither a JSON array nor null, or some element fails to convert.
"[1,2,3]" yields the Integers 1, 2, 3. `VMString.ConvertToType` with the target Slice returns
the same result. -/
theorem C27_slice_from_json (env : StringEnv) (x : List Nat) :
    ∃ vs e, VMSliceFromJson env x = Except.ok (vs, e) ∧
      VMString.ConvertToType env x ReflectType.ReflectVMSlice
        = Except.ok (VMValuer.VMSlice vs, e) ∧
      (∀ elems, IsJsonArray x elems →
        vs.length = elems.length ∧
        (e = none ↔ ∀ raw ∈ elems, ∃ v, VMValuerFromJSON env raw = Except.ok (v, none)) ∧
        (e = none → ∀ (i : Nat) (raw : List Nat), elems[i]? = some raw →
          ∃ v, vs[i]? = some v ∧ VMValuerFromJSON env raw = Except.ok (v, none)) ∧
        (∀ err, e = some err → ∃ (i : Nat) (raw : List Nat) (v : VMValuer),
          elems[i]? = some raw ∧ vs[i]? = some v ∧
          VMValuerFromJSON env raw = Except.ok (v, some err) ∧
          (∀ j : Nat, j < i → ∀ r, elems[j]? = some r →
            ∃ w, vs[j]? = some w ∧ VMValuerFromJSON env r = Except.ok (w, none)) ∧
          (∀ j : Nat, i < j → j < elems.length → vs[j]? = some VMValuer.nil))) ∧
      (IsJsonNull x → vs = [] ∧ e = none) ∧
      ((¬ ∃ elems, IsJsonArray x elems) → ¬ IsJsonNull x → vs = [] ∧ e ≠ none) ∧
      VMSliceFromJson env (utf8 "[1,2,3]")
        = Except.ok ([VMValuer.VMInt 1, VMValuer.VMInt 2, VMValuer.VMInt 3], none) ∧
      VMSliceFromJson env (utf8 "null") = Except.ok ([], none) := by
  obtain ⟨vs, e, hs, h1, h2, h3⟩ := VMSliceFromJson_result env x
  refine ⟨vs, e, hs, ?_, h1, h2, h3, by rfl, by rfl⟩
  simp only [VMString.ConvertToType, hs]
  rfl

theorem C27_slice_from_json_witness :
    IsJsonArray (utf8 "[1, [true], \"a\"]") [utf8 "1", utf8 "[true]", utf8 "\"a\""] ∧
    ∃ vs, VMSliceFromJson sampleStringEnv (utf8 "[1, [true], \"a\"]") = Except.ok (vs, none) ∧
      vs.length = 3 := by
  have ha : IsJsonArray (utf8 "[1, [true], \"a\"]") [utf8 "1", utf8 "[true]", utf8 "\"a\""] := by
    unfold IsJsonArray
    decide
  obtain ⟨vs, e, h1, -, h3, -⟩ :=
    C27_slice_from_json sampleStringEnv (utf8 "[1, [true], \"a\"]")
  obtain ⟨hlen, hiff, -, -⟩ := h3 _ ha
  have he : e = none := hiff.mpr (by
    intro raw hraw
    simp only [List.mem_cons, List.mem_singleton, List.not_mem_nil, or_false] at hraw
    rcases hraw with h | h | h <;> subst h
    · exact ⟨VMValuer.VMInt 1, by decide⟩
    · exact ⟨VMValuer.VMSlice [VMValuer.VMBool true], by decide⟩
    · exact ⟨VMValuer.VMString (utf8 "a"), by decide⟩)
  subst he
  exact ⟨ha, vs, h1, hlen⟩

/-- C25: the code at the inputs of the claim. `VMValuerFromJSON` applied to the JSON text
"null" returns Nil together with the error "Невозможно определить значение", and so
`VMSliceFromJson` on an array containing null returns an error: on "[1,null]" that error, with
the Slice holding 1 and Nil. -/
theorem C25_json_null_is_an_error (env : StringEnv) :
    VMValuerFromJSON env (utf8 "null")
      = Except.ok (VMValuer.VMNil, some "Невозможно определить значение") ∧
    (∀ x elems, IsJsonArray x elems → utf8 "null" ∈ elems →
      ∃ vs err, VMSliceFromJson env x = Except.ok (vs, some err)) ∧
    VMSliceFromJson env (utf8 "[1,null]")
      = Except.ok ([VMValuer.VMInt 1, VMValuer.VMNil], some "Невозможно определить значение") ∧
    VMString.ConvertToType env (utf8 "[1,null]") ReflectType.ReflectVMSlice
      = Except.ok (VMValuer.VMSlice [VMValuer.VMInt 1, VMValuer.VMNil],
          some "Невозможно определить значение") := by
  have hnull : VMValuerFromJSON env (utf8 "null")
      = Except.ok (VMValuer.VMNil, some "Невозможно определить значение") := by rfl
  refine ⟨hnull, ?_, by rfl, by rfl⟩
  intro x elems ha hmem
  obtain ⟨vs, e, hs, h1, -, -⟩ := VMSliceFromJson_result env x
  obtain ⟨-, hiff, -, -⟩ := h1 elems ha
  cases he : e with
  | some err => exact ⟨vs, err, by rw [hs, he]⟩
  | none =>
    obtain ⟨v, hv⟩ := hiff.mp he _ hmem
    rw [hnull] at hv
    simp at hv

/-! ### Number literals -/

theorem digitIndex_digit (c : Nat) (h : 48 ≤ c ∧ c ≤ 57) : digitIndex 10 c = some (c - 48) := by
  rw [digitIndex_eq 10 (Or.inl rfl)]
  unfold digitValue
  rw [if_pos h]
  simp only [Option.filter]
  rw [if_pos (by simp only [decide_eq_true_eq]; omega)]

theorem mapM_digits : ∀ ds : List Nat, (∀ c ∈ ds, 48 ≤ c ∧ c ≤ 57) →
    ds.mapM (digitIndex 10) = some (ds.map fun c => c - 48) := by
  intro ds
  induction ds with
  | nil => intro _; simp only [List.mapM_nil, Option.pure_def, List.map_nil]
  | cons c cs ih =>
    intro h
    rw [List.mapM_cons, digitIndex_digit c (h c (List.mem_cons_self _ _)),
      ih fun d hd => h d (List.mem_cons_of_mem _ hd)]
    rfl

theorem mapM_none_of_mem {α β : Type} (f : α → Option β) :
    ∀ (l : List α) (a : α), a ∈ l → f a = none → l.mapM f = none := by
  intro l
  induction l with
  | nil => intro a h; cases h
  | cons b l ih =>
    intro a h hf
    rw [List.mapM_cons]
    cases hb : f b with
    | none => rfl
    | some y =>
      have hne : a ≠ b := by
        intro e
        rw [e, hb] at hf
        cases hf
      have hm : a ∈ l := by
        rcases List.mem_cons.mp h with h | h
        · exact absurd h hne
        · exact h
      rw [ih a hm hf]
      rfl

theorem unsignedValue_digits (ds : List Nat) (hne : ds ≠ [])
    (h : ∀ c ∈ ds, 48 ≤ c ∧ c ≤ 57) : unsignedValue 10 ds = some (digitsNat ds) := by
  unfold unsignedValue digitsNat
  rw [if_neg hne, mapM_digits ds h]
  simp only [Option.map_some', List.map_reverse]

theorem unsignedValue_none (ds : List Nat) (bad : Nat) (hb : bad ∈ ds)
    (h : digitIndex 10 bad = none) : unsignedValue 10 ds = none := by
  unfold unsignedValue
  split_ifs
  · rfl
  · rw [mapM_none_of_mem _ ds bad hb h]
    rfl

theorem digitsNat_append (a b : List Nat) :
    digitsNat (a ++ b) = digitsNat a * 10 ^ b.length + digitsNat b := by
  unfold digitsNat
  rw [List.reverse_append, List.map_append, Nat.ofDigits_append, List.length_map,
    List.length_reverse]
  ring

theorem digitsNat_zeros (k : Nat) : digitsNat (List.replicate k 48) = 0 := by
  induction k with
  | zero => rfl
  | succ k ih =>
    rw [List.replicate_succ, show (48 :: List.replicate k 48) = [48] ++ List.replicate k 48
      from rfl, digitsNat_append, ih]
    simp [digitsNat]

theorem bigDigits_digits : ∀ (ds : List Nat) (n : Nat), (∀ c ∈ ds, 48 ≤ c ∧ c ≤ 57) →
    bigDigits n ds = some (n * 10 ^ ds.length + digitsNat ds) := by
  intro ds
  induction ds with
  | nil => intro n _; simp [bigDigits, digitsNat]
  | cons c cs ih =>
    intro n h
    rw [bigDigits, if_pos (h c (List.mem_cons_self _ _)),
      ih _ fun d hd => h d (List.mem_cons_of_mem _ hd)]
    rw [show (c :: cs) = [c] ++ cs from rfl, digitsNat_append]
    simp only [List.singleton_append, List.length_cons, digitsNat, List.reverse_cons,
      List.reverse_nil, List.nil_append, List.map_cons, List.map_nil, Nat.ofDigits_singleton,
      Option.some.injEq]
    ring

theorem numeralValue_none (t : List Nat) (bad : Nat) (hb : bad ∈ t.tail)
    (h : digitIndex 10 bad = none) : numeralValue 10 t = none := by
  cases t with
  | nil => exact numeralValue_nil 10
  | cons c r =>
    simp only [List.tail_cons] at hb
    rw [numeralValue_cons]
    split_ifs
    · rw [unsignedValue_none r bad hb h]; rfl
    · rw [unsignedValue_none r bad hb h]; rfl
    · rw [unsignedValue_none (c :: r) bad (List.mem_cons_of_mem _ hb) h]; rfl

/-- The value of a signed decimal numeral: a sign "" , "+" or "-" and digits. -/
theorem numeralValue_signed (sign ds : List Nat) (hs : sign = [] ∨ sign = [43] ∨ sign = [45])
    (hne : ds ≠ []) (h : ∀ c ∈ ds, 48 ≤ c ∧ c ≤ 57) :
    numeralValue 10 (sign ++ ds)
      = some (if sign = [45] then -(digitsNat ds : Int) else (digitsNat ds : Int)) := by
  rcases hs with hs | hs | hs <;> subst hs
  · cases ds with
    | nil => exact absurd rfl hne
    | cons c r =>
      have hc := h c (List.mem_cons_self _ _)
      rw [List.nil_append, numeralValue_cons, if_neg (by omega), if_neg (by omega),
        unsignedValue_digits _ hne h]
      simp
  · rw [List.singleton_append, numeralValue_cons, if_pos rfl, unsignedValue_digits _ hne h]
    simp
  · rw [List.singleton_append, numeralValue_cons, if_neg (by decide), if_pos rfl,
      unsignedValue_digits _ hne h]
    simp

theorem bigSetString_signed (neg : Bool) (ds : List Nat) (hne : ds ≠ [])
    (h : ∀ c ∈ ds, 48 ≤ c ∧ c ≤ 57) :
    bigSetString ((if neg then [45] else []) ++ ds)
      = some (if neg then -(digitsNat ds : Int) else (digitsNat ds : Int)) := by
  cases ds with
  | nil => exact absurd rfl hne
  | cons c r =>
    have hc := h c (List.mem_cons_self _ _)
    cases neg with
    | true =>
      simp only [if_true, List.singleton_append, bigSetString, List.head?_cons,
        Option.some.injEq, decide_True, or_true, List.tail_cons, reduceCtorEq, if_false,
        bigDigits_digits _ 0 h, zero_mul, zero_add, Option.map_some']
    | false =>
      have h1 : ¬ c = 45 := by omega
      have h2 : ¬ c = 43 := by omega
      simp only [Bool.false_eq_true, if_false, List.nil_append, bigSetString,
        List.head?_cons, Option.some.injEq, h1, h2, decide_False, or_self, reduceCtorEq,
        bigDigits_digits _ 0 h, zero_mul, zero_add, Option.map_some']

theorem indexAnyEe_none (l : List Nat) (h : ∀ c ∈ l, c ≠ 69 ∧ c ≠ 101) :
    indexAnyEe l = none := by
  unfold indexAnyEe
  have hp : ∀ x ∈ l, (fun c => decide (c = 69 ∨ c = 101)) x = false := by
    intro x hx
    have := h x hx
    simp only [decide_eq_false_iff_not]
    omega
  simp only [List.findIdx_eq_length_of_false hp, lt_self_iff_false, if_false]

theorem indexAnyEe_some (pre post : List Nat) (c : Nat) (h : ∀ c ∈ pre, c ≠ 69 ∧ c ≠ 101)
    (hc : c = 101 ∨ c = 69) : indexAnyEe (pre ++ c :: post) = some pre.length := by
  unfold indexAnyEe
  have hp : ∀ x ∈ pre, (fun c => decide (c = 69 ∨ c = 101)) x = false := by
    intro x hx
    have := h x hx
    simp only [decide_eq_false_iff_not]
    omega
  have hpc : decide (c = 69 ∨ c = 101) = true := by
    simp only [decide_eq_true_eq]
    omega
  simp only [List.findIdx_append, List.findIdx_eq_length_of_false hp, lt_self_iff_false,
    if_false, List.findIdx_cons, hpc, cond_true, zero_add, List.length_append,
    List.length_cons]
  rw [if_pos (by omega)]

theorem splitPoint_none : ∀ l : List Nat, (∀ c ∈ l, c ≠ 46) → splitPoint l = [l] := by
  intro l
  induction l with
  | nil => intro _; rfl
  | cons c cs ih =>
    intro h
    rw [splitPoint, if_neg (h c (List.mem_cons_self _ _)),
      ih fun d hd => h d (List.mem_cons_of_mem _ hd)]

theorem splitPoint_one : ∀ pre post : List Nat, (∀ c ∈ pre, c ≠ 46) → (∀ c ∈ post, c ≠ 46) →
    splitPoint (pre ++ 46 :: post) = [pre, post] := by
  intro pre
  induction pre with
  | nil =>
    intro post _ h
    rw [List.nil_append, splitPoint, if_pos rfl, splitPoint_none post h]
  | cons c cs ih =>
    intro post h1 h2
    rw [List.cons_append, splitPoint, if_neg (h1 c (List.mem_cons_self _ _)),
      ih post (fun d hd => h1 d (List.mem_cons_of_mem _ hd)) h2]

theorem trimRightZeros_spec (l : List Nat) :
    ∃ k, l = trimRightZeros l ++ List.replicate k 48 := by
  induction l using List.reverseRecOn with
  | nil => exact ⟨0, rfl⟩
  | append_singleton l x ih =>
    obtain ⟨k, hk⟩ := ih
    unfold trimRightZeros at *
    by_cases hx : x = 48
    · subst hx
      rw [List.rdropWhile_concat_pos _ _ _ (by simp)]
      refine ⟨k + 1, ?_⟩
      rw [List.replicate_succ', ← List.append_assoc, ← hk]
    · rw [List.rdropWhile_concat_neg _ _ _ (by simpa using hx)]
      exact ⟨0, by simp⟩

theorem trimRightZeros_mem (l : List Nat) : ∀ c ∈ trimRightZeros l, c ∈ l := by
  intro c hc
  exact (List.rdropWhile_prefix (fun c => decide (c = 48)) (l := l)).subset hc

/-- What `decimalFromParts` returns for the text of a number literal before its exponent: the
digits without the trailing zeros of the fraction, and the exponent lowered by the number of
fraction digits kept. -/
theorem decimalFromParts_literal (neg : Bool) (int frac : List Nat) (exp : Int)
    (hne : int ≠ []) (hint : ∀ c ∈ int, 48 ≤ c ∧ c ≤ 57) (hfrac : ∀ c ∈ frac, 48 ≤ c ∧ c ≤ 57)
    (h1 : -2 ^ 31 + (frac.length : Int) ≤ exp) (h2 : exp ≤ 2 ^ 31 - 1) :
    ∃ d, decimalFromParts ((if neg then [45] else []) ++ int ++
        (if frac = [] then [] else 46 :: frac)) exp = Except.ok d ∧
      d.toRat = (if neg then -1 else 1) *
        ((digitsNat (int ++ frac) : ℚ) / (10 : ℚ) ^ frac.length) * (10 : ℚ) ^ exp := by
  have hsgn : ∀ c ∈ (if neg then [45] else [] : List Nat) ++ int, c ≠ 46 := by
    intro c hc
    rw [List.mem_append] at hc
    rcases hc with hc | hc
    · cases neg <;> simp at hc
      omega
    · have := hint c hc
      omega
  by_cases hf : frac = []
  · subst hf
    simp only [if_true, List.append_nil, decimalFromParts, splitPoint_none _ hsgn,
      bigSetString_signed neg int hne hint]
    simp only [List.length_nil, Nat.cast_zero, add_zero] at h1
    rw [if_neg (by omega)]
    refine ⟨_, rfl, ?_⟩
    simp only [VMDecimal.toRat, List.append_nil, List.length_nil, pow_zero, div_one]
    cases neg <;> simp
  · obtain ⟨k, hk⟩ := trimRightZeros_spec frac
    have hfr : ∀ c ∈ trimRightZeros frac, 48 ≤ c ∧ c ≤ 57 :=
      fun c hc => hfrac c (trimRightZeros_mem frac c hc)
    have hfrac46 : ∀ c ∈ frac, c ≠ 46 := by
      intro c hc
      have := hfrac c hc
      omega
    have hlen : frac.length = (trimRightZeros frac).length + k := by
      conv_lhs => rw [hk]
      simp
    have hdig : ∀ c ∈ int ++ trimRightZeros frac, 48 ≤ c ∧ c ≤ 57 := by
      intro c hc
      rw [List.mem_append] at hc
      rcases hc with hc | hc
      · exact hint c hc
      · exact hfr c hc
    have hbig := bigSetString_signed neg (int ++ trimRightZeros frac) (by simp [hne]) hdig
    rw [← List.append_assoc] at hbig
    simp only [if_neg hf, decimalFromParts, splitPoint_one _ _ hsgn hfrac46, hbig]
    rw [if_neg (by omega)]
    refine ⟨_, rfl, ?_⟩
    have hval : digitsNat (int ++ frac) = digitsNat (int ++ trimRightZeros frac) * 10 ^ k := by
      conv_lhs => rw [hk, ← List.append_assoc, digitsNat_append, digitsNat_zeros]
      simp
    simp only [VMDecimal.toRat, hval, hlen]
    have h10 : (10 : ℚ) ≠ 0 := by norm_num
    rw [zpow_sub₀ h10, zpow_natCast]
    push_cast
    rw [pow_add]
    cases neg
    · simp only [Bool.false_eq_true, if_false]
      field_simp
      ring
    · simp only [if_true]
      field_simp
      ring

/-- The text of a number literal before its exponent part. -/
theorem NumberLiteral.text_eq (n : NumberLiteral) :
    n.text = ((if n.neg then [45] else []) ++ n.int ++
      (if n.frac = [] then [] else 46 :: n.frac)) ++
      (if n.hasExp then n.expLetter :: (n.expSign ++ n.expDigits) else []) := rfl

theorem mantissa_no_e (n : NumberLiteral) (hwf : n.wf) :
    ∀ c ∈ (if n.neg then [45] else [] : List Nat) ++ n.int ++
      (if n.frac = [] then [] else 46 :: n.frac), c ≠ 69 ∧ c ≠ 101 := by
  obtain ⟨-, hint, -, hfrac, -⟩ := hwf
  intro c hc
  simp only [List.mem_append] at hc
  rcases hc with (hc | hc) | hc
  · by_cases hneg : n.neg = true <;> simp [hneg] at hc
    omega
  · have := hint c hc
    omega
  · split_ifs at hc
    · cases hc
    · rcases List.mem_cons.mp hc with hc | hc
      · omega
      · have := hfrac c hc
        omega

theorem NumberLiteral.text_no_0x (n : NumberLiteral) (hwf : n.wf) :
    (utf8 "0x").isPrefixOf n.text = false := by
  obtain ⟨hne, hint, hzero, hfrac, hexp⟩ := hwf
  rw [utf8_0x]
  unfold NumberLiteral.text
  cases hn : n.neg
  · simp only [Bool.false_eq_true, if_false, List.nil_append]
    rcases hzero with hz | hz
    · rw [hz]
      by_cases hf : n.frac = []
      · simp only [hf, if_true, List.append_nil]
        cases he : n.hasExp
        · simp only [Bool.false_eq_true, if_false]
          decide
        · obtain ⟨hl, -⟩ := hexp he
          simp only [if_true, List.singleton_append, List.isPrefixOf,
            Bool.and_eq_false_imp, beq_iff_eq, Bool.and_true, beq_eq_false_iff_ne, ne_eq]
          intro _
          omega
      · simp only [hf, if_false, List.singleton_append, List.cons_append, List.isPrefixOf,
          Bool.and_eq_false_imp, beq_iff_eq, Bool.and_true, beq_eq_false_iff_ne, ne_eq]
        intro _
        omega
    · cases hi : n.int with
      | nil => exact absurd hi hne
      | cons c r =>
        rw [hi] at hz
        simp only [List.head?_cons, ne_eq, Option.some.injEq] at hz
        simp only [List.cons_append, List.isPrefixOf, Bool.and_eq_false_imp, beq_iff_eq]
        intro h
        exact absurd h.symm hz
  · simp only [if_true, List.singleton_append, List.cons_append, List.isPrefixOf,
      Bool.and_eq_false_imp, beq_iff_eq]
    intro h
    omega

theorem NumberLiteral.text_integer (n : NumberLiteral) (hwf : n.wf) (hi : n.isInteger) :
    numeralValue 10 n.text = some n.intValue := by
  obtain ⟨hne, hint, -, -, -⟩ := hwf
  obtain ⟨hf, he⟩ := hi
  unfold NumberLiteral.text NumberLiteral.intValue
  simp only [hf, he, if_true, Bool.false_eq_true, if_false, List.append_nil]
  cases n.neg
  · simpa using numeralValue_signed [] n.int (Or.inl rfl) hne hint
  · simpa using numeralValue_signed [45] n.int (Or.inr (Or.inr rfl)) hne hint

theorem NumberLiteral.text_not_integer (n : NumberLiteral) (hwf : n.wf) (hi : ¬ n.isInteger) :
    numeralValue 10 n.text = none := by
  obtain ⟨hne, hint, -, -, hexp⟩ := hwf
  have key : ∃ bad rest pre, n.text = ((if n.neg then [45] else []) ++ n.int) ++ pre ++ bad :: rest ∧
      digitIndex 10 bad = none := by
    by_cases hf : n.frac = []
    · have he : n.hasExp = true := by
        cases h : n.hasExp
        · exact absurd ⟨hf, h⟩ hi
        · rfl
      obtain ⟨hl, -⟩ := hexp he
      refine ⟨n.expLetter, n.expSign ++ n.expDigits, [], ?_, ?_⟩
      · simp [NumberLiteral.text, hf, he]
      · rcases hl with hl | hl <;> rw [hl] <;> decide
    · refine ⟨46, n.frac ++ (if n.hasExp then n.expLetter :: (n.expSign ++ n.expDigits) else []),
        [], ?_, by decide⟩
      simp [NumberLiteral.text, hf]
  obtain ⟨bad, rest, pre, ht, hb⟩ := key
  refine numeralValue_none n.text bad ?_ hb
  rw [ht]
  cases hi' : n.int with
  | nil => exact absurd hi' hne
  | cons c r =>
    cases n.neg <;> simp

/-- `VMValuerFromJSON` on the text of a JSON number literal: an Integer for an integer numeral
in the signed 64-bit range, and otherwise a Decimal with exactly the value of the literal,
provided the exponent, lowered by the number of fraction digits, fits an `int32`. -/
theorem VMValuerFromJSON_number (env : StringEnv) (n : NumberLiteral) (hwf : n.wf) :
    (n.isInteger → -2 ^ 63 ≤ n.intValue → n.intValue < 2 ^ 63 →
      VMValuerFromJSON env n.text = Except.ok (VMValuer.VMInt n.intValue, none)) ∧
    (¬ (n.isInteger ∧ -2 ^ 63 ≤ n.intValue ∧ n.intValue < 2 ^ 63) →
      -2 ^ 31 + (n.frac.length : Int) ≤ n.exponent → n.exponent ≤ 2 ^ 31 - 1 →
      ∃ d, VMValuerFromJSON env n.text = Except.ok (VMValuer.VMDecimal d, none) ∧
        d.toRat = n.value) := by
  have hp := n.text_no_0x hwf
  constructor
  · intro hi h1 h2
    have hpi := (ParseInt_eq_ok n.text 10 64 (Or.inl rfl) (by decide) n.intValue).mpr
      ⟨n.text_integer hwf hi, h1, h2⟩
    simp only [VMValuerFromJSON, VMValuerFromJSONFuel, hp, Bool.false_eq_true, if_false, hpi,
      if_true]
  · intro hni h1 h2
    have hpi : (ParseInt n.text 10 64).2 ≠ none := by
      intro h
      have he : ParseInt n.text 10 64 = ((ParseInt n.text 10 64).1, none) := by rw [← h]
      have := (ParseInt_eq_ok n.text 10 64 (Or.inl rfl) (by decide) _).mp he
      simp only [Nat.add_one_sub_one, show (64 - 1 : Nat) = 63 from rfl] at this
      obtain ⟨hv, hr1, hr2⟩ := this
      by_cases hi : n.isInteger
      · rw [n.text_integer hwf hi] at hv
        simp only [Option.some.injEq] at hv
        rw [← hv] at hr1 hr2
        exact hni ⟨hi, hr1, hr2⟩
      · rw [n.text_not_integer hwf hi] at hv
        cases hv
    obtain ⟨hne, hint, hzero, hfrac, hexp⟩ := hwf
    have hdec : ∃ d, decimalNewFromString n.text = Except.ok d ∧ d.toRat = n.value := by
      cases he : n.hasExp
      · have hexp0 : n.exponent = 0 := by simp [NumberLiteral.exponent, he]
        rw [hexp0] at h1 h2
        obtain ⟨d, hd, hv⟩ := decimalFromParts_literal n.neg n.int n.frac 0 hne hint hfrac h1 h2
        refine ⟨d, ?_, ?_⟩
        · have hidx := indexAnyEe_none _ (mantissa_no_e n ⟨hne, hint, hzero, hfrac, hexp⟩)
          rw [NumberLiteral.text_eq]
          simp only [he, Bool.false_eq_true, if_false, List.append_nil]
          simp only [decimalNewFromString, hidx, hd]
        · rw [hv, NumberLiteral.value, hexp0]
      · obtain ⟨hl, hs, hdne, hdig⟩ := hexp he
        obtain ⟨d, hd, hv⟩ := decimalFromParts_literal n.neg n.int n.frac n.exponent hne hint
          hfrac h1 h2
        refine ⟨d, ?_, ?_⟩
        · have hidx := indexAnyEe_some _ (n.expSign ++ n.expDigits) n.expLetter
            (mantissa_no_e n ⟨hne, hint, hzero, hfrac, hexp⟩) hl
          have hnum := numeralValue_signed n.expSign n.expDigits hs hdne hdig
          have hexpv : (if n.expSign = [45] then -(digitsNat n.expDigits : Int)
              else (digitsNat n.expDigits : Int)) = n.exponent := by
            simp [NumberLiteral.exponent, he]
          rw [hexpv] at hnum
          have hpe := (ParseInt_eq_ok (n.expSign ++ n.expDigits) 10 32 (Or.inl rfl)
            (by decide) n.exponent).mpr ⟨hnum, by
              simp only [show (32 - 1 : Nat) = 31 from rfl]
              constructor
              · have : (0 : Int) ≤ (n.frac.length : Int) := Int.natCast_nonneg _
                omega
              · omega⟩
          rw [NumberLiteral.text_eq]
          simp only [he, if_true]
          have hdrop : ∀ (m r : List Nat) (c : Nat), (m ++ c :: r).drop (m.length + 1) = r := by
            intro m r c
            rw [show m ++ c :: r = (m ++ [c]) ++ r by simp,
              show m.length + 1 = (m ++ [c]).length by simp, List.drop_left]
          simp only [decimalNewFromString, hidx, hdrop, List.take_left', hpe, hd]
        · rw [hv, NumberLiteral.value]
    obtain ⟨d, hd, hv⟩ := hdec
    refine ⟨d, ?_, hv⟩
    simp only [VMValuerFromJSON, VMValuerFromJSONFuel, hp, Bool.false_eq_true, if_false, hpi,
      hd]

theorem numeralValue_none_of_mem (t : List Nat) (bad : Nat) (hb : bad ∈ t)
    (h : digitIndex 10 bad = none) (hs : bad ≠ 43 ∧ bad ≠ 45) : numeralValue 10 t = none := by
  cases t with
  | nil => cases hb
  | cons c r =>
    rcases List.mem_cons.mp hb with hc | hr
    · subst hc
      rw [numeralValue_cons, if_neg hs.1, if_neg hs.2,
        unsignedValue_none _ bad (List.mem_cons_self _ _) h]
      rfl
    · exact numeralValue_none _ bad (by simpa using hr) h

theorem ParseInt_error_of_numeralValue_none (t : List Nat) (bitSize : Nat) (hbits : 2 ≤ bitSize)
    (h : numeralValue 10 t = none) : (ParseInt t 10 bitSize).2 ≠ none := by
  intro hn
  have he : ParseInt t 10 bitSize = ((ParseInt t 10 bitSize).1, none) := by rw [← hn]
  have := ((ParseInt_eq_ok t 10 bitSize (Or.inl rfl) hbits _).mp he).1
  rw [h] at this
  cases this

theorem splitPoint_cons (c : Nat) (cs : List Nat) (hc : c ≠ 46) :
    ∃ p ps, splitPoint (c :: cs) = (c :: p) :: ps := by
  rw [splitPoint, if_neg hc]
  cases splitPoint cs with
  | nil => exact ⟨[], [], rfl⟩
  | cons p ps => exact ⟨p, ps, rfl⟩

theorem bigSetString_quote (x : List Nat) : bigSetString (34 :: x) = none := by
  simp [bigSetString, bigDigits]

theorem decimalFromParts_quote (x : List Nat) (exp : Int) :
    ∃ err, decimalFromParts (34 :: x) exp = Except.error err := by
  obtain ⟨p, ps, hsp⟩ := splitPoint_cons 34 x (by decide)
  unfold decimalFromParts
  rw [hsp]
  match ps with
  | [] => simp only [bigSetString_quote]; exact ⟨_, rfl⟩
  | [p1] => simp only [List.cons_append, bigSetString_quote]; exact ⟨_, rfl⟩
  | _ :: _ :: _ => exact ⟨_, rfl⟩

theorem decimalNewFromString_quoted (body : List Nat) :
    ∃ err, decimalNewFromString (34 :: body ++ [34]) = Except.error err := by
  unfold decimalNewFromString
  cases hidx : indexAnyEe (34 :: body ++ [34]) with
  | none => exact decimalFromParts_quote _ 0
  | some i =>
    simp only
    have hi : i < (34 :: body ++ [34]).length - 1 := by
      unfold indexAnyEe at hidx
      simp only at hidx
      split_ifs at hidx with hlt
      simp only [Option.some.injEq] at hidx
      obtain ⟨x, hx, hpx⟩ : ∃ x, (34 :: body ++ [34])[List.findIdx
          (fun c => decide (c = 69 ∨ c = 101)) (34 :: body ++ [34])]? = some x ∧
          decide (x = 69 ∨ x = 101) = true :=
        ⟨_, List.getElem?_eq_getElem hlt, List.findIdx_getElem (w := hlt)⟩
      rw [hidx] at hx hlt
      by_contra hcon
      have hlast : i = (34 :: body).length := by
        simp only [List.length_append, List.length_cons, List.length_nil] at hlt hcon ⊢
        omega
      rw [hlast, List.getElem?_append_right (le_refl _)] at hx
      simp only [Nat.sub_self, List.getElem?_cons_zero, Option.some.injEq] at hx
      subst hx
      simp at hpx
    have hmem : 34 ∈ (34 :: body ++ [34]).drop (i + 1) := by
      rw [List.drop_append_of_le_length (by
        simp only [List.length_cons, List.length_append, List.length_nil] at hi ⊢
        omega)]
      simp
    have hpe := ParseInt_error_of_numeralValue_none _ 32 (by decide)
      (numeralValue_none_of_mem _ 34 hmem (by decide) (by decide))
    cases hr : (ParseInt ((34 :: body ++ [34]).drop (i + 1)) 10 32).2 with
    | none => exact absurd hr hpe
    | some err =>
      simp only
      split_ifs <;> exact ⟨_, rfl⟩

theorem trimSpace_quoted (body : List Nat) :
    trimSpace (34 :: body ++ [34]) = 34 :: body ++ [34] := by
  unfold trimSpace
  rw [List.cons_append, List.dropWhile_cons_of_neg (by decide), ← List.cons_append,
    List.rdropWhile_concat_neg _ _ _ (by decide)]

/-- `VMValuerFromJSON` on a JSON string literal: a String, with the decoded text the library
gives, whatever the content of the literal. -/
theorem VMValuerFromJSON_string (env : StringEnv) (body : List Nat)
    (hvalid : checkValid (34 :: body ++ [34]) = true) :
    VMValuerFromJSON env (34 :: body ++ [34])
      = Except.ok (VMValuer.VMString (env.unquote (34 :: body ++ [34])), none) := by
  have hp : (utf8 "0x").isPrefixOf (34 :: body ++ [34]) = false := by
    rw [utf8_0x]
    simp [List.isPrefixOf]
  have hpi := ParseInt_error_of_numeralValue_none (34 :: body ++ [34]) 64 (by decide)
    (numeralValue_none_of_mem _ 34 (by simp) (by decide) (by decide))
  obtain ⟨err, hdec⟩ := decimalNewFromString_quoted body
  have hj : jsonUnmarshalInterface env.unquote (34 :: body ++ [34])
      = Except.ok (JsonAny.string (env.unquote (34 :: body ++ [34]))) := by
    unfold jsonUnmarshalInterface
    rw [if_neg (by rw [hvalid]; decide), trimSpace_quoted]
    rfl
  simp only [VMValuerFromJSON, VMValuerFromJSONFuel, hp, Bool.false_eq_true, if_false, hpi,
    hdec, hj]

set_option exponentiation.threshold 1100 in
theorem floatRangeTest_large (m e : Int) (hm : 1 ≤ m.natAbs) (he : 0 ≤ e)
    (hk : 1024 ≤ e.toNat) : floatRangeTest m e = true := by
  unfold floatRangeTest
  rw [if_pos he]
  apply decide_eq_true
  have h1 : float64Limit ≤ 2 ^ 1024 := Nat.sub_le _ _
  have h2 : 2 ^ 1024 ≤ 10 ^ 1024 := Nat.pow_le_pow_left (show 2 ≤ 10 by decide) 1024
  have h3 : 10 ^ 1024 ≤ 10 ^ e.toNat := Nat.pow_le_pow_right (show 0 < 10 by decide) hk
  have h4 : 10 ^ e.toNat ≤ m.natAbs * 10 ^ e.toNat := Nat.le_mul_of_pos_left _ hm
  exact h1.trans (h2.trans (h3.trans h4))

theorem floatOutOfRange_huge : floatOutOfRange (utf8 "1e2147483648") = true := by
  have hparts : numberParts (utf8 "1e2147483648") = (1, 2147483648) := by decide
  unfold floatOutOfRange
  rw [hparts]
  exact floatRangeTest_large 1 2147483648 (by decide) (by omega) (by omega)

theorem jsonValue_digit (unquote : List Nat → List Nat) (lit : List Nat)
    (h : lit.head? = some 49) : jsonValue unquote lit = jsonNumber lit := by
  unfold jsonValue
  rw [h]

theorem VMValuerFromJSON_json_error (env : StringEnv) (s : List Nat) (e err : GoError)
    (hp : (utf8 "0x").isPrefixOf s = false) (hpi : (ParseInt s 10 64).2 ≠ none)
    (hdec : decimalNewFromString s = Except.error e)
    (hj : jsonUnmarshalInterface env.unquote s = Except.error err) :
    VMValuerFromJSON env s = Except.ok (VMValuer.nil, some err) := by
  simp only [VMValuerFromJSON, VMValuerFromJSONFuel, hp, Bool.false_eq_true, if_false, hpi,
    hdec, hj]

theorem VMValuerFromJSON_huge (env : StringEnv) :
    VMValuerFromJSON env (utf8 "1e2147483648") = Except.ok (VMValuer.nil, some errJsonType) := by
  have hvalid : checkValid (utf8 "1e2147483648") = true := by decide
  have htrim : trimSpace (utf8 "1e2147483648") = utf8 "1e2147483648" := by decide
  have hj : jsonUnmarshalInterface env.unquote (utf8 "1e2147483648")
      = Except.error errJsonType := by
    unfold jsonUnmarshalInterface
    rw [if_neg (by rw [hvalid]; decide), htrim, jsonValue_digit _ _ (by decide), jsonNumber,
      floatOutOfRange_huge]
    rfl
  exact VMValuerFromJSON_json_error env _ "can't convert to decimal: fractional part too long"
    _ (by decide) (by decide) (by decide) hj

/-- C26 as stated fails: for the JSON number literal "1e2147483648" `VMValuerFromJSON`
returns an error, and neither an Integer nor a Decimal. -/
theorem C26_huge_exponent_is_an_error :
    ¬ ∀ (env : StringEnv) (n : NumberLiteral), n.wf →
        ∃ v, VMValuerFromJSON env n.text = Except.ok (v, none) ∧
          ((∃ i : Int, v = VMValuer.VMInt i ∧ (i : ℚ) = n.value) ∨
           (∃ d, v = VMValuer.VMDecimal d ∧ d.toRat = n.value)) := by
  intro h
  obtain ⟨v, hv, -⟩ := h sampleStringEnv hugeExponentLiteral (by decide)
  have ht : hugeExponentLiteral.text = utf8 "1e2147483648" := by decide
  rw [ht, VMValuerFromJSON_huge] at hv
  cases hv

/-- C26, amended: for a JSON number literal `VMValuerFromJSON` returns, without error, an
Integer equal to it when it is a base-10 integer numeral within the signed 64-bit range, and
otherwise a Decimal exactly equal to it, provided its exponent `e` fits an `int32` also after
it is lowered by the number of fraction digits (`-2^31 + digits ≤ e ≤ 2^31 - 1`): "1.5", "1e2"
and "9223372036854775808" give Decimals. A JSON string literal, also one whose content is
numeric such as "\"12\"", gives a String, and true and false give a Bool. -/
theorem C26_json_scalars (env : StringEnv) (n : NumberLiteral) (hwf : n.wf) :
    (n.isInteger → -2 ^ 63 ≤ n.intValue → n.intValue < 2 ^ 63 →
      VMValuerFromJSON env n.text = Except.ok (VMValuer.VMInt n.intValue, none) ∧
      (n.intValue : ℚ) = n.value) ∧
    (¬ (n.isInteger ∧ -2 ^ 63 ≤ n.intValue ∧ n.intValue < 2 ^ 63) →
      -2 ^ 31 + (n.frac.length : Int) ≤ n.exponent → n.exponent ≤ 2 ^ 31 - 1 →
      ∃ d, VMValuerFromJSON env n.text = Except.ok (VMValuer.VMDecimal d, none) ∧
        d.toRat = n.value) ∧
    (∀ body, checkValid (34 :: body ++ [34]) = true →
      VMValuerFromJSON env (34 :: body ++ [34])
        = Except.ok (VMValuer.VMString (env.unquote (34 :: body ++ [34])), none)) ∧
    VMValuerFromJSON env (utf8 "\"12\"")
      = Except.ok (VMValuer.VMString (env.unquote (utf8 "\"12\"")), none) ∧
    VMValuerFromJSON env (utf8 "true") = Except.ok (VMValuer.VMBool true, none) ∧
    VMValuerFromJSON env (utf8 "false") = Except.ok (VMValuer.VMBool false, none) ∧
    VMValuerFromJSON env (utf8 "12") = Except.ok (VMValuer.VMInt 12, none) ∧
    VMValuerFromJSON env (utf8 "1.5") = Except.ok (VMValuer.VMDecimal ⟨15, -1⟩, none) ∧
    VMValuerFromJSON env (utf8 "1e2") = Except.ok (VMValuer.VMDecimal ⟨1, 2⟩, none) ∧
    VMValuerFromJSON env (utf8 "9223372036854775808")
      = Except.ok (VMValuer.VMDecimal ⟨9223372036854775808, 0⟩, none) := by
  obtain ⟨h1, h2⟩ := VMValuerFromJSON_number env n hwf
  refine ⟨?_, h2, VMValuerFromJSON_string env, ?_, by rfl, by rfl, by rfl, by rfl, by rfl,
    by rfl⟩
  · intro hi hr1 hr2
    refine ⟨h1 hi hr1 hr2, ?_⟩
    obtain ⟨hf, he⟩ := hi
    simp only [NumberLiteral.value, NumberLiteral.intValue, NumberLiteral.exponent, hf, he,
      List.append_nil, List.length_nil, pow_zero, div_one, Bool.false_eq_true, if_false,
      zpow_zero, mul_one]
    cases n.neg <;> simp
  · have hq : utf8 "\"12\"" = 34 :: utf8 "12" ++ [34] := by decide
    rw [hq]
    exact VMValuerFromJSON_string env _ (by decide)

theorem C26_json_scalars_witness :
    sampleLiteral.wf ∧ sampleLiteral.text = utf8 "-12.50e-3" ∧
    ∃ d, VMValuerFromJSON sampleStringEnv (utf8 "-12.50e-3")
        = Except.ok (VMValuer.VMDecimal d, none) ∧ d.toRat = sampleLiteral.value := by
  have ht : sampleLiteral.text = utf8 "-12.50e-3" := by decide
  obtain ⟨d, hd, hv⟩ := (C26_json_scalars sampleStringEnv sampleLiteral (by decide)).2.1
    (by decide) (by decide) (by decide)
  rw [ht] at hd
  exact ⟨by decide, ht, d, hd, hv⟩

/-! ### The text of a duration determines it -/


theorem readNat_digits : ∀ (ds : List Nat) (acc : Nat) (rest : List Nat),
    (∀ d ∈ ds, d < 10) → (∀ c, rest.head? = some c → c < 48 ∨ 57 < c) →
    readNat acc ((ds.map fun d => d + 48) ++ rest)
      = (acc * 10 ^ ds.length + Nat.ofDigits 10 ds.reverse, rest) := by
  intro ds
  induction ds with
  | nil =>
    intro acc rest _ hr
    simp only [List.map_nil, List.nil_append, List.length_nil, pow_zero, mul_one,
      List.reverse_nil, Nat.ofDigits_nil, add_zero]
    cases rest with
    | nil => rfl
    | cons c cs =>
      have := hr c rfl
      rw [readNat, if_neg (by omega)]
  | cons d ds ih =>
    intro acc rest hd hr
    have h0 := hd d (List.mem_cons_self _ _)
    rw [List.map_cons, List.cons_append, readNat, if_pos (by omega),
      ih _ rest (fun x hx => hd x (List.mem_cons_of_mem _ hx)) hr]
    simp only [Nat.add_sub_cancel, List.length_cons, List.reverse_cons, Nat.ofDigits_append,
      Nat.ofDigits_singleton, List.length_reverse, Prod.mk.injEq, and_true]
    ring

theorem readDigits_digits : ∀ (ds : List Nat) (acc k : Nat) (rest : List Nat),
    (∀ d ∈ ds, d < 10) → (∀ c, rest.head? = some c → c < 48 ∨ 57 < c) →
    readDigits acc k ((ds.map fun d => d + 48) ++ rest)
      = (acc * 10 ^ ds.length + Nat.ofDigits 10 ds.reverse, k + ds.length, rest) := by
  intro ds
  induction ds with
  | nil =>
    intro acc k rest _ hr
    simp only [List.map_nil, List.nil_append, List.length_nil, pow_zero, mul_one,
      List.reverse_nil, Nat.ofDigits_nil, add_zero]
    cases rest with
    | nil => rfl
    | cons c cs =>
      have := hr c rfl
      rw [readDigits, if_neg (by omega)]
  | cons d ds ih =>
    intro acc k rest hd hr
    have h0 := hd d (List.mem_cons_self _ _)
    rw [List.map_cons, List.cons_append, readDigits, if_pos (by omega),
      ih _ _ rest (fun x hx => hd x (List.mem_cons_of_mem _ hx)) hr]
    simp only [Nat.add_sub_cancel, List.length_cons, List.reverse_cons, Nat.ofDigits_append,
      Nat.ofDigits_singleton, List.length_reverse, Prod.mk.injEq, and_true]
    constructor
    · ring
    · omega

theorem readNat_intBytes (a : Nat) (rest : List Nat)
    (hr : ∀ c, rest.head? = some c → c < 48 ∨ 57 < c) :
    readNat 0 (intBytes a ++ rest) = (a, rest) := by
  unfold intBytes
  by_cases h0 : a = 0
  · subst h0
    have := readNat_digits [0] 0 rest (by simp) hr
    simpa using this
  · rw [if_neg h0]
    have := readNat_digits (Nat.digits 10 a).reverse 0 rest
      (fun d hd => Nat.digits_lt_base (by norm_num) (List.mem_reverse.mp hd)) hr
    rw [this]
    simp [Nat.ofDigits_digits]

theorem ofDigits_lowDigits (prec v : Nat) :
    Nat.ofDigits 10 (lowDigits prec v) = v % 10 ^ prec := by
  induction prec generalizing v with
  | zero => simp [lowDigits, Nat.mod_one]
  | succ p ih =>
    rw [lowDigits, Nat.ofDigits_cons, ih, pow_succ, Nat.mul_comm (10 ^ p) 10, Nat.mod_mul]

theorem ofDigits_dropWhile_zero : ∀ l : List Nat,
    Nat.ofDigits 10 l =
      10 ^ (l.length - (l.dropWhile fun d => d == 0).length) *
        Nat.ofDigits 10 (l.dropWhile fun d => d == 0) := by
  intro l
  induction l with
  | nil => simp
  | cons d l ih =>
    by_cases hd : d = 0
    · subst hd
      have hle : (l.dropWhile fun d => d == 0).length ≤ l.length :=
        List.Sublist.length_le (List.dropWhile_sublist _)
      rw [List.dropWhile_cons_of_pos (by simp), Nat.ofDigits_cons, ih]
      simp only [List.length_cons, Nat.cast_zero, zero_add]
      rw [show l.length + 1 - (l.dropWhile fun d => d == 0).length
        = (l.length - (l.dropWhile fun d => d == 0).length) + 1 by omega, pow_succ]
      ring
    · rw [List.dropWhile_cons_of_neg (by simpa using hd)]
      simp

theorem readFrac_fracBytes (prec v : Nat) (rest : List Nat)
    (hr : ∀ c, rest.head? = some c → 57 < c) :
    ∃ x k, readFrac (fracBytes prec v ++ rest) = (x, k, rest) ∧
      fracUnits prec (x, k, rest) = v % 10 ^ prec := by
  unfold fracBytes
  by_cases h0 : v % 10 ^ prec = 0
  · rw [if_pos h0, List.nil_append]
    refine ⟨0, 0, ?_, by simp [fracUnits, h0]⟩
    cases rest with
    | nil => rfl
    | cons c cs =>
      have := hr c rfl
      unfold readFrac
      split
      · rename_i heq
        simp only [List.cons.injEq] at heq
        omega
      · rfl
  · rw [if_neg h0, List.cons_append]
    have hlt : ∀ d ∈ ((lowDigits prec v).dropWhile fun d => d == 0).reverse, d < 10 := by
      intro d hd
      exact lowDigits_lt prec v d
        ((List.dropWhile_sublist _).subset (List.mem_reverse.mp hd))
    have hrd := readDigits_digits ((lowDigits prec v).dropWhile fun d => d == 0).reverse 0 0
      rest hlt (fun c hc => Or.inr (hr c hc))
    refine ⟨0 * 10 ^ ((lowDigits prec v).dropWhile fun d => d == 0).reverse.length +
        Nat.ofDigits 10 ((lowDigits prec v).dropWhile fun d => d == 0).reverse.reverse,
      0 + ((lowDigits prec v).dropWhile fun d => d == 0).reverse.length, hrd, ?_⟩
    simp only [fracUnits, zero_mul, zero_add, List.reverse_reverse, List.length_reverse]
    have h1 := ofDigits_dropWhile_zero (lowDigits prec v)
    rw [ofDigits_lowDigits, lowDigits_length] at h1
    rw [h1]
    ring

theorem readFrac_unit (rest : List Nat) (hr : ∀ c, rest.head? = some c → 57 < c) :
    readFrac rest = (0, 0, rest) := by
  cases rest with
  | nil => rfl
  | cons c cs =>
    have := hr c rfl
    unfold readFrac
    split
    · rename_i heq
      simp only [List.cons.injEq] at heq
      omega
    · rfl

theorem fracBytes_append_head (prec v : Nat) (rest : List Nat)
    (hr : ∀ c, rest.head? = some c → 57 < c) :
    ∀ c, (fracBytes prec v ++ rest).head? = some c → c < 48 ∨ 57 < c := by
  intro c hc
  unfold fracBytes at hc
  by_cases h0 : v % 10 ^ prec = 0
  · rw [if_pos h0, List.nil_append] at hc
    exact Or.inr (hr c hc)
  · rw [if_neg h0] at hc
    simp only [List.cons_append, List.head?_cons, Option.some.injEq] at hc
    omega

theorem readPart_ns (a : Nat) : readPart (intBytes a ++ utf8 "нс") = some (a, none) := by
  have e : utf8 "нс" = [208, 189, 209, 129] := by decide
  have hr : ∀ c, [208, 189, 209, 129].head? = some c → 57 < c := by
    intro c hc
    simp only [List.head?_cons, Option.some.injEq] at hc
    omega
  rw [e]
  unfold readPart
  simp only [readNat_intBytes a _ (fun c hc => Or.inr (hr c hc)), readFrac_unit _ hr]

theorem readPart_mks (a v : Nat) :
    readPart (intBytes a ++ (fracBytes 3 v ++ utf8 "мкс"))
      = some (a * VMMicrosecond + v % 10 ^ 3, none) := by
  have e : utf8 "мкс" = [208, 188, 208, 186, 209, 129] := by decide
  have hr : ∀ c, [208, 188, 208, 186, 209, 129].head? = some c → 57 < c := by
    intro c hc
    simp only [List.head?_cons, Option.some.injEq] at hc
    omega
  rw [e]
  obtain ⟨x, k, hf, hu⟩ := readFrac_fracBytes 3 v _ hr
  unfold readPart
  simp only [readNat_intBytes a _ (fracBytes_append_head 3 v _ hr), hf, hu]

theorem readPart_ms (a v : Nat) :
    readPart (intBytes a ++ (fracBytes 6 v ++ utf8 "мс"))
      = some (a * VMMillisecond + v % 10 ^ 6, none) := by
  have e : utf8 "мс" = [208, 188, 209, 129] := by decide
  have hr : ∀ c, [208, 188, 209, 129].head? = some c → 57 < c := by
    intro c hc
    simp only [List.head?_cons, Option.some.injEq] at hc
    omega
  rw [e]
  obtain ⟨x, k, hf, hu⟩ := readFrac_fracBytes 6 v _ hr
  unfold readPart
  simp only [readNat_intBytes a _ (fracBytes_append_head 6 v _ hr), hf, hu]

theorem readPart_s (a v : Nat) :
    readPart (intBytes a ++ (fracBytes 9 v ++ utf8 "с"))
      = some (a * VMSecond + v % 10 ^ 9, none) := by
  have e : utf8 "с" = [209, 129] := by decide
  have hr : ∀ c, [209, 129].head? = some c → 57 < c := by
    intro c hc
    simp only [List.head?_cons, Option.some.injEq] at hc
    omega
  rw [e]
  obtain ⟨x, k, hf, hu⟩ := readFrac_fracBytes 9 v _ hr
  unfold readPart
  simp only [readNat_intBytes a _ (fracBytes_append_head 9 v _ hr), hf, hu]

theorem readPart_day (a b : Nat) (t : List Nat) :
    readPart (intBytes a ++ (utf8 "д" ++ b :: t)) = some (a * VMDay, some (b :: t)) := by
  have e : utf8 "д" = [208, 180] := by decide
  have hr : ∀ c, (208 :: 180 :: b :: t).head? = some c → 57 < c := by
    intro c hc
    simp only [List.head?_cons, Option.some.injEq] at hc
    omega
  rw [e]
  unfold readPart
  simp only [List.cons_append, List.nil_append,
    readNat_intBytes a _ (fun c hc => Or.inr (hr c hc)), readFrac_unit _ hr]

theorem readPart_hour (a b : Nat) (t : List Nat) :
    readPart (intBytes a ++ (utf8 "ч" ++ b :: t)) = some (a * VMHour, some (b :: t)) := by
  have e : utf8 "ч" = [209, 135] := by decide
  have hr : ∀ c, (209 :: 135 :: b :: t).head? = some c → 57 < c := by
    intro c hc
    simp only [List.head?_cons, Option.some.injEq] at hc
    omega
  rw [e]
  unfold readPart
  simp only [List.cons_append, List.nil_append,
    readNat_intBytes a _ (fun c hc => Or.inr (hr c hc)), readFrac_unit _ hr]

theorem readPart_minute (a b : Nat) (t : List Nat) (hb : b ≤ 57) :
    readPart (intBytes a ++ (utf8 "м" ++ b :: t)) = some (a * VMMinute, some (b :: t)) := by
  have e : utf8 "м" = [208, 188] := by decide
  have hr : ∀ c, (208 :: 188 :: b :: t).head? = some c → 57 < c := by
    intro c hc
    simp only [List.head?_cons, Option.some.injEq] at hc
    omega
  rw [e]
  unfold readPart
  simp only [List.cons_append, List.nil_append,
    readNat_intBytes a _ (fun c hc => Or.inr (hr c hc)), readFrac_unit _ hr]
  split <;> simp_all

theorem intBytes_append_head (k : Nat) (r : List Nat) :
    ∃ b t, intBytes k ++ r = b :: t ∧ b ≤ 57 := by
  obtain ⟨b, t, e, -, h2⟩ := intBytes_head k
  exact ⟨b, t ++ r, by rw [e]; rfl, h2⟩

theorem readDuration_seconds (fuel acc d : Nat) :
    readDuration (fuel + 1) acc
        (intBytes (d / VMSecond % 60) ++ (fracBytes 9 d ++ utf8 "с"))
      = some (acc + (d / VMSecond % 60 * VMSecond + d % 10 ^ 9)) := by
  rw [readDuration, readPart_s]

theorem readDuration_minutes (fuel acc d : Nat) :
    readDuration (fuel + 2) acc
        (intBytes (d / VMMinute % 60) ++ (utf8 "м" ++
          (intBytes (d / VMSecond % 60) ++ (fracBytes 9 d ++ utf8 "с"))))
      = some (acc + d / VMMinute % 60 * VMMinute +
          (d / VMSecond % 60 * VMSecond + d % 10 ^ 9)) := by
  obtain ⟨b, t, e, hb⟩ := intBytes_append_head (d / VMSecond % 60) (fracBytes 9 d ++ utf8 "с")
  rw [readDuration, e, readPart_minute _ _ _ hb, ← e]
  exact readDuration_seconds fuel _ d

theorem readDuration_hours (fuel acc d : Nat) :
    readDuration (fuel + 3) acc
        (intBytes (d / VMHour % 24) ++ (utf8 "ч" ++
          (intBytes (d / VMMinute % 60) ++ (utf8 "м" ++
            (intBytes (d / VMSecond % 60) ++ (fracBytes 9 d ++ utf8 "с"))))))
      = some (acc + d / VMHour % 24 * VMHour + d / VMMinute % 60 * VMMinute +
          (d / VMSecond % 60 * VMSecond + d % 10 ^ 9)) := by
  obtain ⟨b, t, e, -⟩ := intBytes_append_head (d / VMMinute % 60)
    (utf8 "м" ++ (intBytes (d / VMSecond % 60) ++ (fracBytes 9 d ++ utf8 "с")))
  rw [readDuration, e, readPart_hour, ← e]
  exact readDuration_minutes fuel _ d

theorem readDuration_days (fuel acc d : Nat) :
    readDuration (fuel + 4) acc
        (intBytes (d / VMDay) ++ (utf8 "д" ++
          (intBytes (d / VMHour % 24) ++ (utf8 "ч" ++
            (intBytes (d / VMMinute % 60) ++ (utf8 "м" ++
              (intBytes (d / VMSecond % 60) ++ (fracBytes 9 d ++ utf8 "с"))))))))
      = some (acc + d / VMDay * VMDay + d / VMHour % 24 * VMHour +
          d / VMMinute % 60 * VMMinute + (d / VMSecond % 60 * VMSecond + d % 10 ^ 9)) := by
  obtain ⟨b, t, e, -⟩ := intBytes_append_head (d / VMHour % 24)
    (utf8 "ч" ++ (intBytes (d / VMMinute % 60) ++ (utf8 "м" ++
      (intBytes (d / VMSecond % 60) ++ (fracBytes 9 d ++ utf8 "с")))))
  rw [readDuration, e, readPart_day, ← e]
  exact readDuration_hours fuel _ d

/-- The reader gives back the nanoseconds of the text of a duration of at least a second. -/
theorem readDuration_durationText (d : Nat) (h : VMSecond ≤ d) :
    readDuration 4 0 (utf8 (durationText d)) = some d := by
  have hs : VMSecond = 1000000000 := by decide
  have hmi : VMMinute = 60000000000 := by decide
  have hho : VMHour = 3600000000000 := by decide
  have hda : VMDay = 86400000000000 := by decide
  have hp : (10 : Nat) ^ 9 = 1000000000 := by norm_num
  have hf : utf8 (fracText 9 (d % VMSecond)) = fracBytes 9 d := by
    have := utf8_fracText 9 d
    rwa [hp, ← hs] at this
  unfold durationText
  simp only [utf8_append, utf8_ite, utf8_toString, hf, List.append_assoc]
  by_cases hd : VMDay ≤ d
  · have hh : VMHour ≤ d := by omega
    have hm : VMMinute ≤ d := by omega
    simp only [if_pos hd, if_pos hh, if_pos hm, List.append_assoc]
    rw [readDuration_days 0 0 d, hs, hmi, hho, hda, hp]
    congr 1
    omega
  · by_cases hh : VMHour ≤ d
    · have hm : VMMinute ≤ d := by omega
      simp only [if_neg hd, if_pos hh, if_pos hm, List.nil_append, List.append_assoc]
      rw [readDuration_hours 1 0 d, hs, hmi, hho, hp]
      rw [hda] at hd
      congr 1
      omega
    · by_cases hm : VMMinute ≤ d
      · simp only [if_neg hd, if_neg hh, if_pos hm, List.nil_append, List.append_assoc]
        rw [readDuration_minutes 2 0 d, hs, hmi, hp]
        rw [hho] at hh
        congr 1
        omega
      · simp only [if_neg hd, if_neg hh, if_neg hm, List.nil_append]
        rw [readDuration_seconds 3 0 d, hs, hp]
        rw [hmi] at hm
        congr 1
        omega

/-- The reader gives back the nanoseconds of the text of a duration below a second. -/
theorem readDuration_smallDurationText (n : Nat) :
    readDuration 4 0 (utf8 (smallDurationText n)) = some n := by
  have hmic : VMMicrosecond = 1000 := by decide
  have hmil : VMMillisecond = 1000000 := by decide
  have hp3 : (10 : Nat) ^ 3 = 1000 := by norm_num
  have hp6 : (10 : Nat) ^ 6 = 1000000 := by norm_num
  have f3 : utf8 (fracText 3 (n % VMMicrosecond)) = fracBytes 3 n := by
    have := utf8_fracText 3 n
    rwa [hp3, ← hmic] at this
  have f6 : utf8 (fracText 6 (n % VMMillisecond)) = fracBytes 6 n := by
    have := utf8_fracText 6 n
    rwa [hp6, ← hmil] at this
  unfold smallDurationText
  by_cases h : n < VMMicrosecond
  · simp only [if_pos h, utf8_append, utf8_toString]
    rw [readDuration, readPart_ns]
    simp
  · by_cases h' : n < VMMillisecond
    · simp only [if_neg h, if_pos h', utf8_append, utf8_toString, f3, List.append_assoc]
      rw [readDuration, readPart_mks, hmic, hp3]
      simp only [Option.some.injEq]
      omega
    · simp only [if_neg h, if_neg h', utf8_append, utf8_toString, f6, List.append_assoc]
      rw [readDuration, readPart_ms, hmil, hp6]
      simp only [Option.some.injEq]
      omega

/-- The reader gives back the nanoseconds of the text of a positive duration. -/
theorem readDuration_positiveText (n : Nat) :
    readDuration 4 0 (utf8 (positiveText n)) = some n := by
  unfold positiveText
  by_cases h : n < VMSecond
  · rw [if_pos h]
    exact readDuration_smallDurationText n
  · rw [if_neg h]
    exact readDuration_durationText n (by omega)

/-- The text of a duration reads back as the duration: method `String` returns a text for
every duration of the signed 64-bit range, and the reader gives its nanoseconds. -/
theorem readSigned_String (v : VMTimeDuration) (hr : v.inRange) :
    ∃ s, v.String = Except.ok s ∧ readSigned s = some v.ns := by
  by_cases h0 : v.ns = 0
  · refine ⟨utf8 "0с", ?_, ?_⟩
    · unfold VMTimeDuration.String
      simp [h0]
    · rw [h0]
      decide
  · refine ⟨_, String_nonzero v hr h0, ?_⟩
    obtain ⟨b, t, e, hb, hb'⟩ := positiveText_head v.ns.natAbs
    have hread := readDuration_positiveText v.ns.natAbs
    by_cases hneg : v.ns < 0
    · rw [if_pos hneg]
      show (readDuration 4 0 (utf8 (positiveText v.ns.natAbs))).map _ = _
      rw [hread]
      simp only [Option.map_some', Option.some.injEq]
      omega
    · rw [if_neg hneg, List.nil_append, e]
      have hb45 : b ≠ 45 := by omega
      rw [e] at hread
      unfold readSigned
      split
      · rename_i heq
        simp only [List.cons.injEq] at heq
        omega
      · rw [hread]
        simp only [Option.map_some', Option.some.injEq]
        omega

/-- C30: `VMTimeDuration.String` is injective over the whole signed 64-bit range: for two
durations `d1 ≠ d2` of the range both calls return a text, the two texts differ, and each text
reads back as its duration, so the text determines the duration exactly. -/
theorem C30_duration_string_injective (d1 d2 : VMTimeDuration) (h1 : d1.inRange)
    (h2 : d2.inRange) (hne : d1 ≠ d2) :
    ∃ s1 s2, d1.String = Except.ok s1 ∧ d2.String = Except.ok s2 ∧ s1 ≠ s2 ∧
      readSigned s1 = some d1.ns ∧ readSigned s2 = some d2.ns := by
  obtain ⟨s1, e1, r1⟩ := readSigned_String d1 h1
  obtain ⟨s2, e2, r2⟩ := readSigned_String d2 h2
  refine ⟨s1, s2, e1, e2, ?_, r1, r2⟩
  intro h
  rw [h, r2] at r1
  apply hne
  cases d1
  cases d2
  simp only [Option.some.injEq] at r1
  simp only [VMTimeDuration.mk.injEq]
  exact r1.symm

/-- C30 at the two ends of the signed 64-bit range: the texts of the least and of the
greatest duration differ. -/
theorem C30_duration_string_injective_witness :
    (VMTimeDuration.mk (-9223372036854775808)).inRange ∧
    (VMTimeDuration.mk 9223372036854775807).inRange ∧
    VMTimeDuration.mk (-9223372036854775808) ≠ VMTimeDuration.mk 9223372036854775807 ∧
    ∃ s1 s2, (VMTimeDuration.mk (-9223372036854775808)).String = Except.ok s1 ∧
      (VMTimeDuration.mk 9223372036854775807).String = Except.ok s2 ∧ s1 ≠ s2 ∧
      readSigned s1 = some (VMTimeDuration.mk (-9223372036854775808)).ns ∧
      readSigned s2 = some (VMTimeDuration.mk 9223372036854775807).ns :=
  ⟨by decide, by decide, by decide,
    C30_duration_string_injective _ _ (by decide) (by decide) (by decide)⟩

/-! ### The writes of the duration formatter stay in its buffer -/

/-- A write of one byte returns exactly when its position is in the buffer; it moves `w`
down by one and keeps the length of the buffer. -/
theorem putByte_ok (buf : List Nat) (w b : Nat) (r : List Nat × Nat)
    (h : putByte buf w b = Except.ok r) :
    1 ≤ w ∧ w ≤ buf.length ∧ r.2 + 1 = w ∧ r.1.length = buf.length := by
  unfold putByte at h
  by_cases hc : w = 0 ∨ buf.length < w
  · rw [if_pos hc] at h
    cases h
  · rw [if_neg hc] at h
    cases h
    refine ⟨by omega, by omega, ?_, ?_⟩
    · show w - 1 + 1 = w
      omega
    · show (buf.set (w - 1) b).length = buf.length
      rw [List.length_set]

/-- A write of a string constant returns exactly when its position is in the buffer; it
moves `w` down by `n` and keeps the length of the buffer. -/
theorem putString_ok (buf : List Nat) (w n : Nat) (s : List Nat) (r : List Nat × Nat)
    (h : putString buf w n s = Except.ok r) :
    n ≤ w ∧ w ≤ buf.length ∧ r.2 + n = w ∧ r.1.length = buf.length := by
  unfold putString at h
  by_cases hc : w < n ∨ buf.length < w
  · rw [if_pos hc] at h
    cases h
  · rw [if_neg hc] at h
    cases h
    refine ⟨by omega, by omega, ?_, ?_⟩
    · show w - n + n = w
      omega
    · show (buf.take (w - n) ++ s.take (min s.length (buf.length - (w - n))) ++
        buf.drop (w - n + min s.length (buf.length - (w - n)))).length = buf.length
      simp only [List.length_append, List.length_take, List.length_drop]
      omega

theorem fmtIntLoop_ok : ∀ (fuel : Nat) (buf : List Nat) (w v : Nat) (r : List Nat × Nat),
    fmtIntLoop fuel buf w v = Except.ok r → r.2 ≤ w ∧ r.1.length = buf.length := by
  intro fuel
  induction fuel with
  | zero =>
    intro buf w v r h
    cases v with
    | zero =>
      rw [fmtIntLoop] at h
      cases h
      exact ⟨le_refl _, rfl⟩
    | succ v =>
      rw [fmtIntLoop] at h
      cases h
  | succ fuel ih =>
    intro buf w v r h
    cases v with
    | zero =>
      rw [fmtIntLoop] at h
      cases h
      exact ⟨le_refl _, rfl⟩
    | succ v =>
      rw [fmtIntLoop] at h
      cases hp : putByte buf w ((v + 1) % 10 + 48) with
      | error e =>
        rw [hp] at h
        cases h
      | ok p =>
        rw [hp] at h
        obtain ⟨-, -, h3, h4⟩ := putByte_ok _ _ _ _ hp
        obtain ⟨i1, i2⟩ := ih _ _ _ _ h
        exact ⟨by omega, by omega⟩

/-- A call of `fmtInt` that returns wrote at least one byte, at positions of the buffer. -/
theorem fmtInt_ok (buf : List Nat) (w v : Nat) (r : List Nat × Nat)
    (h : fmtInt buf w v = Except.ok r) :
    r.2 < w ∧ w ≤ buf.length ∧ r.1.length = buf.length := by
  unfold fmtInt at h
  by_cases h0 : v = 0
  · rw [if_pos h0] at h
    obtain ⟨h1, h2, h3, h4⟩ := putByte_ok _ _ _ _ h
    exact ⟨by omega, h2, h4⟩
  · rw [if_neg h0] at h
    obtain ⟨k, rfl⟩ := Nat.exists_eq_succ_of_ne_zero h0
    have h20 : fmtIntLoop 20 buf w (k + 1) = fmtIntLoop (19 + 1) buf w (k + 1) := rfl
    rw [h20, fmtIntLoop] at h
    cases hp : putByte buf w ((k + 1) % 10 + 48) with
    | error e =>
      rw [hp] at h
      cases h
    | ok p =>
      rw [hp] at h
      obtain ⟨-, h2, h3, h4⟩ := putByte_ok _ _ _ _ hp
      obtain ⟨i1, i2⟩ := fmtIntLoop_ok _ _ _ _ _ h
      exact ⟨by omega, h2, by omega⟩

theorem fmtFracLoop_ok : ∀ (prec : Nat) (buf : List Nat) (w v : Nat) (print : Bool)
    (r : List Nat × Nat × Nat × Bool),
    fmtFracLoop prec buf w v print = Except.ok r →
      r.2.1 ≤ w ∧ r.1.length = buf.length ∧ (r.2.1 < w → w ≤ buf.length) := by
  intro prec
  induction prec with
  | zero =>
    intro buf w v print r h
    rw [fmtFracLoop] at h
    cases h
    exact ⟨le_refl _, rfl, fun hlt => absurd hlt (lt_irrefl _)⟩
  | succ prec ih =>
    intro buf w v print r h
    rw [fmtFracLoop] at h
    by_cases hpr : (print || v % 10 != 0) = true
    · simp only [hpr, if_true] at h
      cases hp : putByte buf w (v % 10 + 48) with
      | error e =>
        rw [hp] at h
        cases h
      | ok p =>
        rw [hp] at h
        obtain ⟨-, h2, h3, h4⟩ := putByte_ok _ _ _ _ hp
        obtain ⟨i1, i2, -⟩ := ih _ _ _ _ _ h
        exact ⟨by omega, by omega, fun _ => h2⟩
    · simp only [hpr, if_false] at h
      obtain ⟨i1, i2, i3⟩ := ih _ _ _ _ _ h
      exact ⟨i1, i2, i3⟩

/-- A call of `fmtFrac` that returns wrote at positions of the buffer, if it wrote. -/
theorem fmtFrac_ok (buf : List Nat) (w v prec : Nat) (r : List Nat × Nat × Nat)
    (h : fmtFrac buf w v prec = Except.ok r) :
    r.2.1 ≤ w ∧ r.1.length = buf.length ∧ (r.2.1 < w → w ≤ buf.length) := by
  unfold fmtFrac at h
  cases hl : fmtFracLoop prec buf w v false with
  | error e =>
    rw [hl] at h
    cases h
  | ok q =>
    obtain ⟨b1, w1, v1, p1⟩ := q
    rw [hl] at h
    obtain ⟨i1, i2, i3⟩ := fmtFracLoop_ok _ _ _ _ _ _ hl
    simp only at i1 i2 i3 h
    by_cases hpr : p1 = true
    · simp only [hpr, if_true] at h
      cases hp : putByte b1 w1 46 with
      | error e =>
        rw [hp] at h
        cases h
      | ok p =>
        rw [hp] at h
        obtain ⟨-, h2, h3, h4⟩ := putByte_ok _ _ _ _ hp
        cases h
        exact ⟨by simp only; omega, by simp only; omega, fun _ => by omega⟩
    · simp only [hpr, if_false] at h
      cases h
      exact ⟨i1, i2, i3⟩

/-- The formatter does fail on a buffer that is too short for the text: the magnitude of the
least duration needs 30 bytes, and with 29 a write falls before the start of the buffer. -/
theorem stringLarge_short_buffer :
    stringLarge (List.replicate 29 0) 29 9223372036854775808
      = Except.error Err.bufferOverrun := by
  decide

/-- The writes of `String` for a non-zero duration of the signed 64-bit range: the writes of
the magnitude end at a position `w` with `10 ≤ w < 40`, the write of the sign at a position
`w'` with `9 ≤ w' ≤ w`, both in a buffer of 40 bytes, and the text is `buf[w':]`. -/
theorem String_positions (v : VMTimeDuration) (hr : v.inRange) (h0 : v.ns ≠ 0) :
    ∃ buf w buf' w',
      (if v.ns.natAbs < VMSecond then stringSmall (List.replicate 40 0) 40 v.ns.natAbs
        else stringLarge (List.replicate 40 0) 40 v.ns.natAbs) = Except.ok (buf, w) ∧
      (if v.ns < 0 then putByte buf w 45 else Except.ok (buf, w)) = Except.ok (buf', w') ∧
      buf.length = 40 ∧ buf'.length = 40 ∧ 10 ≤ w ∧ w < 40 ∧ 9 ≤ w' ∧ w' ≤ w ∧
      v.String = Except.ok (buf'.drop w') := by
  obtain ⟨hlo, hhi⟩ := hr
  have hu0 : (v.ns % 2 ^ 64).toNat ≠ 0 := by omega
  have hmag : (if decide (v.ns < 0) = true then (2 ^ 64 - (v.ns % 2 ^ 64).toNat) % 2 ^ 64
      else (v.ns % 2 ^ 64).toNat) = v.ns.natAbs := by
    by_cases hneg : v.ns < 0
    · simp only [hneg, decide_True, if_true]; omega
    · simp only [hneg, decide_False, Bool.false_eq_true, if_false]; omega
  have hlt : v.ns.natAbs < 2 ^ 64 := by omega
  obtain ⟨buf, w, e, hw, l, d⟩ :=
    positive_writes (List.replicate 40 0) 40 v.ns.natAbs hlt (by norm_num) (by simp)
  have hlen := positiveText_length v.ns.natAbs hlt
  obtain ⟨b, t, ehead, -, -⟩ := positiveText_head v.ns.natAbs
  have hpos : 1 ≤ (utf8 (positiveText v.ns.natAbs)).length := by
    rw [ehead]
    simp
  have l40 : buf.length = 40 := by simpa using l
  have hS : v.String =
      (if v.ns < 0 then putByte buf w 45 else Except.ok (buf, w)).bind fun p =>
        Except.ok (p.1.drop p.2) := by
    unfold VMTimeDuration.String
    simp only [if_neg hu0, hmag, List.length_replicate, e, Except.bind]
    by_cases hneg : v.ns < 0
    · simp only [hneg, decide_True, if_true]
    · simp only [hneg, decide_False, Bool.false_eq_true, if_false]
  by_cases hneg : v.ns < 0
  · cases hp : putByte buf w 45 with
    | error err =>
      exfalso
      unfold putByte at hp
      rw [if_neg (by omega)] at hp
      cases hp
    | ok p =>
      obtain ⟨-, -, h3, h4⟩ := putByte_ok _ _ _ _ hp
      refine ⟨buf, w, p.1, p.2, e, ?_, l40, by omega, by omega, by omega, by omega, by omega,
        ?_⟩
      · rw [if_pos hneg, hp]
      · rw [hS, if_pos hneg, hp]
        rfl
  · refine ⟨buf, w, buf, w, e, ?_, l40, l40, by omega, by omega, by omega, le_refl _, ?_⟩
    · rw [if_neg hneg]
    · rw [hS, if_neg hneg]
      rfl

/-- C31: for every duration of the signed 64-bit range, the least one included, `String`
returns a text of at most 40 bytes: no write falls outside the 40-byte buffer and the loop
of `fmtInt` ends. For a non-zero duration the writes of the magnitude end at a position `w`
with `10 ≤ w < 40` and the write of the sign at a position `w'` with `9 ≤ w' ≤ w`, and the
text is `buf[w':]`; a write of a byte, of a unit suffix, of `fmtInt` or of `fmtFrac` returns
only when its position is in the buffer, moves `w` down only, and keeps the length of the
buffer, so every position in between lies in `9..40`. -/
theorem C31_duration_string_within_buffer (v : VMTimeDuration) (hr : v.inRange) :
    (∃ s, v.String = Except.ok s ∧ s.length ≤ 40) ∧
    (v.ns ≠ 0 → ∃ buf w buf' w',
      (if v.ns.natAbs < VMSecond then stringSmall (List.replicate 40 0) 40 v.ns.natAbs
        else stringLarge (List.replicate 40 0) 40 v.ns.natAbs) = Except.ok (buf, w) ∧
      (if v.ns < 0 then putByte buf w 45 else Except.ok (buf, w)) = Except.ok (buf', w') ∧
      buf.length = 40 ∧ buf'.length = 40 ∧ 10 ≤ w ∧ w < 40 ∧ 9 ≤ w' ∧ w' ≤ w ∧
      v.String = Except.ok (buf'.drop w')) ∧
    (∀ (buf : List Nat) (w b : Nat) (r : List Nat × Nat), putByte buf w b = Except.ok r →
      1 ≤ w ∧ w ≤ buf.length ∧ r.2 + 1 = w ∧ r.1.length = buf.length) ∧
    (∀ (buf : List Nat) (w n : Nat) (s : List Nat) (r : List Nat × Nat),
      putString buf w n s = Except.ok r →
      n ≤ w ∧ w ≤ buf.length ∧ r.2 + n = w ∧ r.1.length = buf.length) ∧
    (∀ (buf : List Nat) (w u : Nat) (r : List Nat × Nat), fmtInt buf w u = Except.ok r →
      r.2 < w ∧ w ≤ buf.length ∧ r.1.length = buf.length) ∧
    (∀ (buf : List Nat) (w u prec : Nat) (r : List Nat × Nat × Nat),
      fmtFrac buf w u prec = Except.ok r →
      r.2.1 ≤ w ∧ r.1.length = buf.length ∧ (r.2.1 < w → w ≤ buf.length)) := by
  refine ⟨?_, String_positions v hr, putByte_ok, putString_ok, fmtInt_ok, fmtFrac_ok⟩
  by_cases h0 : v.ns = 0
  · refine ⟨utf8 "0с", ?_, by decide⟩
    unfold VMTimeDuration.String
    simp [h0]
  · obtain ⟨buf, w, buf', w', -, -, -, l', -, -, -, -, e⟩ := String_positions v hr h0
    refine ⟨_, e, ?_⟩
    rw [List.length_drop]
    omega

/-- C31 at the least duration: its text is returned and has at most 40 bytes. -/
theorem C31_duration_string_within_buffer_witness :
    (VMTimeDuration.mk (-9223372036854775808)).inRange ∧
    (∃ s, (VMTimeDuration.mk (-9223372036854775808)).String = Except.ok s ∧ s.length ≤ 40) :=
  ⟨by decide, (C31_duration_string_within_buffer _ (by decide)).1⟩

end Gonec
